import Mathlib

attribute [local semireducible] Rat.add Rat.sub Rat.mul Rat.inv

/-!
Verification of the spatial-index core of the UrbanTrafficFramework agent-mapping
crate (kd_tree.rs, quadtree.rs, z_order.rs, unit_fixed.rs, geo.rs).

Modelling conventions:
* machine integers (`u32`, `u64`, `usize`) are `Nat`, with explicit bounds where
  overflow or width matters;
* finite IEEE doubles are modelled as exact rationals `ℚ`; where the code can
  hold infinities (region folds, the f64→fixed-point conversion, kNN sentinel
  distances) we use the `Ext` type (ℚ plus two infinities) or `WithTop ℚ`;
  NaN inputs are modelled as `none` at the function boundary that rejects them;
* Rust panics (failed `assert!`/`expect`, index out of bounds, shift overflow,
  `usize` underflow) are modelled as an `Option` result being `none`;
* Rayon fork-join parallelism is modelled by the equivalent sequential
  execution, which is the semantics the source relies on (join barriers).
-/

namespace UrbanTraffic

/-- Planar UTM coordinate pair (geo.rs `UTMCoordinates`); f64 coordinates are
modelled as exact rationals. -/
structure UTMCoordinates where
  x : ℚ
  y : ℚ
deriving DecidableEq

/-- Squared Euclidean distance (geo.rs `UTMCoordinates::squared_dist`). -/
def squaredDist (a b : UTMCoordinates) : ℚ :=
  (a.x - b.x) * (a.x - b.x) + (a.y - b.y) * (a.y - b.y)

/-- Value of a non-NaN IEEE double: a finite rational or one of the two
infinities. -/
inductive Ext
  | ninf
  | fin (q : ℚ)
  | pinf
deriving DecidableEq

namespace Ext

/-- Strict comparison of non-NaN doubles. -/
def lt : Ext → Ext → Bool
  | ninf, ninf => false
  | ninf, _ => true
  | fin _, ninf => false
  | fin a, fin b => decide (a < b)
  | fin _, pinf => true
  | pinf, _ => false

/-- Non-strict comparison of non-NaN doubles. -/
def le (a b : Ext) : Bool := !(lt b a)

@[simp] theorem lt_fin_fin (a b : ℚ) : lt (fin a) (fin b) = decide (a < b) := rfl

@[simp] theorem le_fin_fin (a b : ℚ) : le (fin a) (fin b) = decide (a ≤ b) := by
  by_cases h : a ≤ b
  · have h' : ¬ (b < a) := not_lt.mpr h
    simp [le, lt, h, h']
  · have h' : b < a := not_le.mp h
    simp [le, lt, h, h', not_le.mpr h']

@[simp] theorem le_pinf (v : Ext) : le v pinf = true := by
  cases v <;> simp [le, lt]

@[simp] theorem le_ninf_iff (v : Ext) : le v ninf = true ↔ v = ninf := by
  cases v <;> simp [le, lt]

end Ext

/-! ## FixedUnit (unit_fixed.rs)

`UnitFixedPoint` is a `u32`; the conversion from `f64` is `From<f64>`:
NaN panics, `x ≤ 0` gives 0, `x ≥ 1` gives `u32::MAX`, and otherwise the result
is `(x * 4294967295.0) as u32` where the float→int `as` cast truncates toward
zero and saturates.  The finite multiplication is modelled exactly over ℚ. -/

/-- Saturating truncating float→`u32` cast (`as u32`) on a non-NaN double. -/
def castU32 : Ext → ℕ
  | .ninf => 0
  | .pinf => 2 ^ 32 - 1
  | .fin q => min (2 ^ 32 - 1) (Int.toNat ⌊q * 4294967295⌋)

/-- Payload of `From<f64> for UnitFixedPoint` on a non-NaN input
(unit_fixed.rs lines 17-30). -/
def ufp (v : Ext) : ℕ :=
  if v.le (.fin 0) then 0
  else if (Ext.fin 1).le v then 2 ^ 32 - 1
  else castU32 v

/-- Conversion `From<f64> for UnitFixedPoint`; the `none` input is NaN and a
`none` result is the panic. -/
def unitFixedOfF64 : Option Ext → Option ℕ
  | none => none
  | some v => some (ufp v)

end UrbanTraffic

namespace UrbanTraffic

/-- C6: the f64→UnitFixedPoint conversion aborts on NaN, maps every value ≤ 0
(including −∞) to 0, maps every value ≥ 1 (including +∞) to 2^32 − 1, maps every
value strictly between 0 and 1 to `⌊x · (2^32 − 1)⌋`, and is monotone on
non-NaN inputs. -/
theorem claim_C6 :
    unitFixedOfF64 none = none
  ∧ (∀ v : Ext, v.le (.fin 0) = true → unitFixedOfF64 (some v) = some 0)
  ∧ (∀ v : Ext, (Ext.fin 1).le v = true → unitFixedOfF64 (some v) = some (2 ^ 32 - 1))
  ∧ (∀ q : ℚ, 0 < q → q < 1 →
      unitFixedOfF64 (some (.fin q)) = some (Int.toNat ⌊q * 4294967295⌋))
  ∧ (∀ a b : Ext, a.lt b = true → ufp a ≤ ufp b) := by
  refine ⟨rfl, ?_, ?_, ?_, ?_⟩
  · intro v hv
    simp [unitFixedOfF64, ufp, hv]
  · intro v hv
    rcases v with _ | q | _
    · simp [Ext.le, Ext.lt] at hv
    · have h1 : (1 : ℚ) ≤ q := by simpa using hv
      have h0 : ¬ (q ≤ 0) := by linarith
      simp [unitFixedOfF64, ufp, hv, h0]
    · simp [unitFixedOfF64, ufp, Ext.le, Ext.lt]
  · intro q h0 h1
    have hle : ¬ (q ≤ 0) := not_le.mpr h0
    have hge : ¬ ((1 : ℚ) ≤ q) := not_le.mpr h1
    have hfloor : ⌊q * 4294967295⌋ < 4294967295 := by
      rw [Int.floor_lt]
      push_cast
      nlinarith
    have htop : Int.toNat ⌊q * 4294967295⌋ < 2 ^ 32 - 1 := by
      have : (2 : ℕ) ^ 32 - 1 = 4294967295 := by norm_num
      rw [this]
      omega
    simp only [unitFixedOfF64, ufp, Ext.le_fin_fin, decide_eq_true_eq, hle, hge,
      if_false, castU32]
    rw [min_eq_right (le_of_lt htop)]
  · intro a b hab
    have hM : ∀ v : Ext, ufp v ≤ 2 ^ 32 - 1 := by
      intro v
      rcases v with _ | q | _
      · simp [ufp, Ext.le, Ext.lt]
      · by_cases h0 : q ≤ 0
        · simp [ufp, h0]
        · by_cases h1 : (1 : ℚ) ≤ q
          · simp [ufp, h0, h1]
          · simp only [ufp, Ext.le_fin_fin, decide_eq_true_eq, h0, h1, if_false, castU32]
            exact min_le_left _ _
      · simp [ufp, Ext.le, Ext.lt]
    have hPinf : ufp .pinf = 2 ^ 32 - 1 := by simp [ufp, Ext.le, Ext.lt]
    rcases a with _ | qa | _
    · -- a = ninf: ufp ninf = 0
      have : ufp Ext.ninf = 0 := by simp [ufp, Ext.le, Ext.lt]
      omega
    · rcases b with _ | qb | _
      · simp [Ext.lt] at hab
      · -- fin qa < fin qb
        have hq : qa < qb := by simpa using hab
        by_cases hqa0 : qa ≤ 0
        · simp [ufp, hqa0]
        · have hqb0 : ¬ (qb ≤ 0) := by linarith
          by_cases hqa1 : (1 : ℚ) ≤ qa
          · have hqb1 : (1 : ℚ) ≤ qb := by linarith
            simp [ufp, hqa0, hqb0, hqa1, hqb1]
          · by_cases hqb1 : (1 : ℚ) ≤ qb
            · simp only [ufp, Ext.le_fin_fin, decide_eq_true_eq, hqa0, hqb0, hqa1, hqb1,
                if_false, if_true, castU32]
              exact min_le_left _ _
            · simp only [ufp, Ext.le_fin_fin, decide_eq_true_eq, hqa0, hqb0, hqa1, hqb1,
                if_false, castU32]
              refine min_le_min le_rfl ?_
              refine Int.toNat_le_toNat (Int.floor_le_floor ?_)
              nlinarith
      · rw [hPinf]
        exact hM _
    · simp [Ext.lt] at hab

/-- Witness for C6 at concrete inputs: `1/2` lies strictly between 0 and 1 and
maps to `⌊4294967295/2⌋ = 2147483647`, and monotonicity holds at `0 < 1/2`. -/
theorem claim_C6_witness :
    ((0 : ℚ) < 1 / 2 ∧ (1 / 2 : ℚ) < 1
      ∧ unitFixedOfF64 (some (.fin (1 / 2))) = some 2147483647)
  ∧ (Ext.lt (.fin 0) (.fin (1 / 2)) = true ∧ ufp (.fin 0) ≤ ufp (.fin (1 / 2))) := by
  constructor
  · refine ⟨by norm_num, by norm_num, ?_⟩
    rw [claim_C6.2.2.2.1 (1 / 2) (by norm_num) (by norm_num)]
    have : ⌊(1 / 2 : ℚ) * 4294967295⌋ = 2147483647 := by
      rw [Int.floor_eq_iff]
      norm_num
    rw [this]
    rfl
  · have hlt : Ext.lt (.fin 0) (.fin (1 / 2)) = true := by
      simp only [Ext.lt_fin_fin, decide_eq_true_eq]
      norm_num
    exact ⟨hlt, claim_C6.2.2.2.2 _ _ hlt⟩

end UrbanTraffic

namespace UrbanTraffic

/-! ## ZCode (z_order.rs)

Machine integers are Nat; `u32` values carry explicit `< 2^32` bounds and the
64-bit z-value is bounded by construction. -/

/-- Morton table from z_order.rs (MORTON_ TABLE): entry `b` spreads the 8 bits
of `b` across the even bit positions of a 16-bit value. -/
def mortonTable : List ℕ := [
  0x0000, 0x0001, 0x0004, 0x0005, 0x0010, 0x0011, 0x0014, 0x0015,
  0x0040, 0x0041, 0x0044, 0x0045, 0x0050, 0x0051, 0x0054, 0x0055,
  0x0100, 0x0101, 0x0104, 0x0105, 0x0110, 0x0111, 0x0114, 0x0115,
  0x0140, 0x0141, 0x0144, 0x0145, 0x0150, 0x0151, 0x0154, 0x0155,
  0x0400, 0x0401, 0x0404, 0x0405, 0x0410, 0x0411, 0x0414, 0x0415,
  0x0440, 0x0441, 0x0444, 0x0445, 0x0450, 0x0451, 0x0454, 0x0455,
  0x0500, 0x0501, 0x0504, 0x0505, 0x0510, 0x0511, 0x0514, 0x0515,
  0x0540, 0x0541, 0x0544, 0x0545, 0x0550, 0x0551, 0x0554, 0x0555,
  0x1000, 0x1001, 0x1004, 0x1005, 0x1010, 0x1011, 0x1014, 0x1015,
  0x1040, 0x1041, 0x1044, 0x1045, 0x1050, 0x1051, 0x1054, 0x1055,
  0x1100, 0x1101, 0x1104, 0x1105, 0x1110, 0x1111, 0x1114, 0x1115,
  0x1140, 0x1141, 0x1144, 0x1145, 0x1150, 0x1151, 0x1154, 0x1155,
  0x1400, 0x1401, 0x1404, 0x1405, 0x1410, 0x1411, 0x1414, 0x1415,
  0x1440, 0x1441, 0x1444, 0x1445, 0x1450, 0x1451, 0x1454, 0x1455,
  0x1500, 0x1501, 0x1504, 0x1505, 0x1510, 0x1511, 0x1514, 0x1515,
  0x1540, 0x1541, 0x1544, 0x1545, 0x1550, 0x1551, 0x1554, 0x1555,
  0x4000, 0x4001, 0x4004, 0x4005, 0x4010, 0x4011, 0x4014, 0x4015,
  0x4040, 0x4041, 0x4044, 0x4045, 0x4050, 0x4051, 0x4054, 0x4055,
  0x4100, 0x4101, 0x4104, 0x4105, 0x4110, 0x4111, 0x4114, 0x4115,
  0x4140, 0x4141, 0x4144, 0x4145, 0x4150, 0x4151, 0x4154, 0x4155,
  0x4400, 0x4401, 0x4404, 0x4405, 0x4410, 0x4411, 0x4414, 0x4415,
  0x4440, 0x4441, 0x4444, 0x4445, 0x4450, 0x4451, 0x4454, 0x4455,
  0x4500, 0x4501, 0x4504, 0x4505, 0x4510, 0x4511, 0x4514, 0x4515,
  0x4540, 0x4541, 0x4544, 0x4545, 0x4550, 0x4551, 0x4554, 0x4555,
  0x5000, 0x5001, 0x5004, 0x5005, 0x5010, 0x5011, 0x5014, 0x5015,
  0x5040, 0x5041, 0x5044, 0x5045, 0x5050, 0x5051, 0x5054, 0x5055,
  0x5100, 0x5101, 0x5104, 0x5105, 0x5110, 0x5111, 0x5114, 0x5115,
  0x5140, 0x5141, 0x5144, 0x5145, 0x5150, 0x5151, 0x5154, 0x5155,
  0x5400, 0x5401, 0x5404, 0x5405, 0x5410, 0x5411, 0x5414, 0x5415,
  0x5440, 0x5441, 0x5444, 0x5445, 0x5450, 0x5451, 0x5454, 0x5455,
  0x5500, 0x5501, 0x5504, 0x5505, 0x5510, 0x5511, 0x5514, 0x5515,
  0x5540, 0x5541, 0x5544, 0x5545, 0x5550, 0x5551, 0x5554, 0x5555
]

/-- Morton table lookup at index `b`. -/
def mtab (b : ℕ) : ℕ := mortonTable.getD b 0

/-- interleave_8: interleave two bytes into a 16-bit Morton number. -/
def interleave8 (x y : ℕ) : ℕ := mtab x ||| (mtab y <<< 1)

/-- Little-endian byte `c` of a 32-bit integer (`u32::to_le_bytes`). -/
def leByte (x c : ℕ) : ℕ := (x >>> (8 * c)) &&& 255

/-- ZValue::new: compute a z-value from two 32-bit integer coordinates. -/
def zvalNew (x y : ℕ) : ℕ :=
  interleave8 (leByte x 0) (leByte y 0)
    ||| interleave8 (leByte x 1) (leByte y 1) <<< 16
    ||| interleave8 (leByte x 2) (leByte y 2) <<< 32
    ||| interleave8 (leByte x 3) (leByte y 3) <<< 48

/-- X_MASK from z_order.rs. -/
def xMask : ℕ := 0x5555555555555555

/-- Y_MASK from z_order.rs. -/
def yMask : ℕ := 0xAAAAAAAAAAAAAAAA

/-- ZValue::x_bits. -/
def xBits (z : ℕ) : ℕ := z &&& xMask

/-- ZValue::y_bits. -/
def yBits (z : ℕ) : ℕ := z &&& yMask

/-- Rust `Ord::cmp` on unsigned integers. -/
def ucmp (a b : ℕ) : Ordering := if a < b then .lt else if a = b then .eq else .gt

/-- ZValue::cmp_x: compare two z-values by their x-axis bits. -/
def cmpX (a b : ℕ) : Ordering := ucmp (xBits a) (xBits b)

/-- ZValue::cmp_y: compare two z-values by their y-axis bits. -/
def cmpY (a b : ℕ) : Ordering := ucmp (yBits a) (yBits b)

/-- Rust `u32::leading_zeros` of a 32-bit value. -/
def lz32 (m : ℕ) : ℕ := if m = 0 then 32 else 31 - Nat.log2 m

/-- Specification helper: the number whose base-4 digits are the bits of `n`,
i.e. the bits of `n` placed at the even bit positions. -/
def spread (n : ℕ) : ℕ :=
  if h : n = 0 then 0 else n % 2 + 4 * spread (n / 2)
decreasing_by exact Nat.div_lt_self (Nat.pos_of_ne_zero h) one_lt_two

end UrbanTraffic

namespace UrbanTraffic

theorem spread_zero : spread 0 = 0 := by
  rw [spread]
  simp

theorem spread_def (n : ℕ) : spread n = n % 2 + 4 * spread (n / 2) := by
  by_cases h : n = 0
  · subst h
    norm_num [spread_zero]
  · rw [spread]
    simp [h]

theorem spread_mod_two (n : ℕ) : spread n % 2 = n % 2 := by
  rw [spread_def n]
  omega

theorem spread_div_four (n : ℕ) : spread n / 4 = spread (n / 2) := by
  rw [spread_def n]
  omega

theorem testBit_add_two (m i : ℕ) : m.testBit (i + 2) = (m / 4).testBit i := by
  have h1 : m.testBit (i + 2) = (m / 2).testBit (i + 1) := Nat.testBit_succ m (i + 1)
  have h2 : (m / 2).testBit (i + 1) = (m / 2 / 2).testBit i := Nat.testBit_succ (m / 2) i
  rw [h1, h2, Nat.div_div_eq_div_mul]

theorem spread_testBit_even (k : ℕ) : ∀ n, (spread n).testBit (2 * k) = n.testBit k := by
  induction k with
  | zero =>
    intro n
    have h0 : 2 * 0 = 0 := rfl
    rw [h0, Nat.testBit_zero, Nat.testBit_zero, spread_mod_two]
  | succ k ih =>
    intro n
    have h1 : 2 * (k + 1) = 2 * k + 2 := by ring
    rw [h1, testBit_add_two, spread_div_four, ih (n / 2)]
    exact (Nat.testBit_succ n k).symm

theorem spread_testBit_odd (k : ℕ) : ∀ n, (spread n).testBit (2 * k + 1) = false := by
  induction k with
  | zero =>
    intro n
    have h0 : spread n / 2 % 2 = 0 := by
      rw [spread_def n]
      omega
    have h1 : 2 * 0 + 1 = 0 + 1 := by ring
    rw [h1, Nat.testBit_succ, Nat.testBit_zero]
    simp [h0]
  | succ k ih =>
    intro n
    have h1 : 2 * (k + 1) + 1 = (2 * k + 1) + 2 := by ring
    rw [h1, testBit_add_two, spread_div_four]
    exact ih (n / 2)

theorem spread_lt_two_pow : ∀ k n, n < 2 ^ k → spread n < 2 ^ (2 * k) := by
  intro k
  induction k with
  | zero =>
    intro n h
    have hn : n = 0 := by omega
    subst hn
    simp [spread_zero]
  | succ k ih =>
    intro n h
    have hp : 2 ^ (k + 1) = 2 * 2 ^ k := by ring
    have h2 : n / 2 < 2 ^ k := by omega
    have h3 := ih (n / 2) h2
    have e1 : 2 ^ (2 * (k + 1)) = 4 * 2 ^ (2 * k) := by ring
    rw [spread_def n, e1]
    omega

theorem spread_strictMono : ∀ n m : ℕ, m < n → spread m < spread n := by
  intro n
  induction n using Nat.strong_induction_on with
  | _ n ih =>
    intro m hmn
    rcases Nat.lt_or_ge (m / 2) (n / 2) with h | h
    · have hn2 : n / 2 < n := Nat.div_lt_self (by omega) one_lt_two
      have hs := ih (n / 2) hn2 (m / 2) h
      rw [spread_def m, spread_def n]
      omega
    · have h2 : m / 2 = n / 2 := by omega
      have h3 : m % 2 < n % 2 := by omega
      rw [spread_def m, spread_def n, h2]
      omega

theorem ucmp_lt {a b : ℕ} (h : a < b) : ucmp a b = .lt := by simp [ucmp, h]

theorem ucmp_self (a : ℕ) : ucmp a a = .eq := by simp [ucmp]

theorem ucmp_gt {a b : ℕ} (h : b < a) : ucmp a b = .gt := by
  have h1 : ¬ a < b := by omega
  have h2 : a ≠ b := by omega
  simp [ucmp, h1, h2]

theorem ucmp_congr_strictMono {f : ℕ → ℕ} (hf : ∀ {p q : ℕ}, p < q → f p < f q)
    (a b : ℕ) : ucmp (f a) (f b) = ucmp a b := by
  rcases lt_trichotomy a b with h | h | h
  · rw [ucmp_lt h, ucmp_lt (hf h)]
  · subst h
    rw [ucmp_self, ucmp_self]
  · rw [ucmp_gt h, ucmp_gt (hf h)]

end UrbanTraffic

namespace UrbanTraffic

theorem spread_small (b : ℕ) (hb : b < 256) :
    spread b = b % 2 + 4 * (b / 2 % 2) + 16 * (b / 4 % 2) + 64 * (b / 8 % 2)
      + 256 * (b / 16 % 2) + 1024 * (b / 32 % 2) + 4096 * (b / 64 % 2)
      + 16384 * (b / 128 % 2) := by
  have e0 := spread_def b
  have e1 := spread_def (b / 2)
  have e2 := spread_def (b / 4)
  have e3 := spread_def (b / 8)
  have e4 := spread_def (b / 16)
  have e5 := spread_def (b / 32)
  have e6 := spread_def (b / 64)
  have e7 := spread_def (b / 128)
  rw [Nat.div_div_eq_div_mul] at e1 e2 e3 e4 e5 e6 e7
  norm_num at e1 e2 e3 e4 e5 e6 e7
  have hz : b / 256 = 0 := by omega
  rw [hz, spread_zero] at e7
  omega

theorem mtab_small (b : ℕ) (hb : b < 256) :
    mtab b = b % 2 + 4 * (b / 2 % 2) + 16 * (b / 4 % 2) + 64 * (b / 8 % 2)
      + 256 * (b / 16 % 2) + 1024 * (b / 32 % 2) + 4096 * (b / 64 % 2)
      + 16384 * (b / 128 % 2) := by
  revert hb
  revert b
  set_option maxRecDepth 4096 in decide

theorem mtab_eq_spread (b : ℕ) (hb : b < 256) : mtab b = spread b := by
  rw [mtab_small b hb, spread_small b hb]

theorem leByte_lt (x c : ℕ) : leByte x c < 256 :=
  lt_of_le_of_lt Nat.and_le_right (by norm_num)

theorem leByte_testBit (x c r : ℕ) :
    (leByte x c).testBit r = (decide (r < 8) && x.testBit (8 * c + r)) := by
  unfold leByte
  rw [Nat.testBit_land, Nat.testBit_shiftRight]
  have h255 : (255 : ℕ) = 2 ^ 8 - 1 := by norm_num
  rw [h255, Nat.testBit_two_pow_sub_one, Bool.and_comm]

theorem interleave8_testBit (a b : ℕ) (ha : a < 256) (hb : b < 256) (j : ℕ) :
    (interleave8 a b).testBit j =
      (if j % 2 = 0 then a.testBit (j / 2) else b.testBit (j / 2)) := by
  unfold interleave8
  rw [mtab_eq_spread a ha, mtab_eq_spread b hb, Nat.testBit_lor, Nat.testBit_shiftLeft]
  rcases Nat.even_or_odd' j with ⟨m, rfl | rfl⟩
  · have h1 : (spread a).testBit (2 * m) = a.testBit m := spread_testBit_even m a
    have hmod : 2 * m % 2 = 0 := by omega
    have hdiv : 2 * m / 2 = m := by omega
    cases m with
    | zero =>
      simp [h1, spread_mod_two]
    | succ m' =>
      have hge : 2 * (m' + 1) ≥ 1 := by omega
      have h2 : 2 * (m' + 1) - 1 = 2 * m' + 1 := by omega
      have h3 : (spread b).testBit (2 * m' + 1) = false := spread_testBit_odd m' b
      simp [h1, h2, h3, hge, hmod, hdiv]
  · have h1 : (spread a).testBit (2 * m + 1) = false := spread_testBit_odd m a
    have hge : 2 * m + 1 ≥ 1 := by omega
    have h2 : 2 * m + 1 - 1 = 2 * m := by omega
    have h3 : (spread b).testBit (2 * m) = b.testBit m := spread_testBit_even m b
    have hmod : (2 * m + 1) % 2 = 1 := by omega
    have hdiv : (2 * m + 1) / 2 = m := by omega
    simp [h1, h2, h3, hge, hmod, hdiv]

theorem il8Byte_testBit (x y c j : ℕ) :
    (interleave8 (leByte x c) (leByte y c)).testBit j =
      (if j % 2 = 0 then (decide (j / 2 < 8) && x.testBit (8 * c + j / 2))
       else (decide (j / 2 < 8) && y.testBit (8 * c + j / 2))) := by
  rw [interleave8_testBit _ _ (leByte_lt x c) (leByte_lt y c)]
  split
  · rw [leByte_testBit]
  · rw [leByte_testBit]

end UrbanTraffic

namespace UrbanTraffic

theorem testBit_high_false {n k i : ℕ} (hn : n < 2 ^ k) (hi : k ≤ i) :
    n.testBit i = false :=
  Nat.testBit_lt_two_pow (lt_of_lt_of_le hn (Nat.pow_le_pow_right (by norm_num) hi))

theorem zvalNew_testBit (x y : ℕ) (hx : x < 2 ^ 32) (hy : y < 2 ^ 32) (j : ℕ) :
    (zvalNew x y).testBit j =
      (if j % 2 = 0 then x.testBit (j / 2) else y.testBit (j / 2)) := by
  unfold zvalNew
  rw [Nat.testBit_lor, Nat.testBit_lor, Nat.testBit_lor,
    Nat.testBit_shiftLeft, Nat.testBit_shiftLeft, Nat.testBit_shiftLeft,
    il8Byte_testBit, il8Byte_testBit, il8Byte_testBit, il8Byte_testBit]
  by_cases h16 : j < 16
  · have g1 : ¬ (j ≥ 16) := by omega
    have g2 : ¬ (j ≥ 32) := by omega
    have g3 : ¬ (j ≥ 48) := by omega
    have hd : j / 2 < 8 := by omega
    simp [g1, g2, g3, hd]
  · by_cases h32 : j < 32
    · have g1 : j ≥ 16 := by omega
      have g2 : ¬ (j ≥ 32) := by omega
      have g3 : ¬ (j ≥ 48) := by omega
      have hd0 : ¬ (j / 2 < 8) := by omega
      have hd1 : (j - 16) / 2 < 8 := by omega
      have hp : (j - 16) % 2 = j % 2 := by omega
      have hix : 8 * 1 + (j - 16) / 2 = j / 2 := by omega
      rw [hp, hix]
      simp [g1, g2, g3, hd0, hd1]
    · by_cases h48 : j < 48
      · have g1 : j ≥ 16 := by omega
        have g2 : j ≥ 32 := by omega
        have g3 : ¬ (j ≥ 48) := by omega
        have hd0 : ¬ (j / 2 < 8) := by omega
        have hd1 : ¬ ((j - 16) / 2 < 8) := by omega
        have hd2 : (j - 32) / 2 < 8 := by omega
        have hp : (j - 32) % 2 = j % 2 := by omega
        have hix : 8 * 2 + (j - 32) / 2 = j / 2 := by omega
        rw [hp, hix]
        simp [g1, g2, g3, hd0, hd1, hd2]
      · by_cases h64 : j < 64
        · have g1 : j ≥ 16 := by omega
          have g2 : j ≥ 32 := by omega
          have g3 : j ≥ 48 := by omega
          have hd0 : ¬ (j / 2 < 8) := by omega
          have hd1 : ¬ ((j - 16) / 2 < 8) := by omega
          have hd2 : ¬ ((j - 32) / 2 < 8) := by omega
          have hd3 : (j - 48) / 2 < 8 := by omega
          have hp : (j - 48) % 2 = j % 2 := by omega
          have hix : 8 * 3 + (j - 48) / 2 = j / 2 := by omega
          rw [hp, hix]
          simp [g1, g2, g3, hd0, hd1, hd2, hd3]
        · have g1 : j ≥ 16 := by omega
          have g2 : j ≥ 32 := by omega
          have g3 : j ≥ 48 := by omega
          have hd0 : ¬ (j / 2 < 8) := by omega
          have hd1 : ¬ ((j - 16) / 2 < 8) := by omega
          have hd2 : ¬ ((j - 32) / 2 < 8) := by omega
          have hd3 : ¬ ((j - 48) / 2 < 8) := by omega
          have hxf : x.testBit (j / 2) = false := testBit_high_false hx (by omega)
          have hyf : y.testBit (j / 2) = false := testBit_high_false hy (by omega)
          simp [g1, g2, g3, hd0, hd1, hd2, hd3, hxf, hyf]

theorem lt_two_pow_of_high_bits {n k : ℕ} (h : ∀ i, k ≤ i → n.testBit i = false) :
    n < 2 ^ k := by
  have hmod : n % 2 ^ k = n := by
    apply Nat.eq_of_testBit_eq
    intro i
    rw [Nat.testBit_mod_two_pow]
    by_cases hi : i < k
    · simp [hi]
    · simp [hi, h i (by omega)]
  rw [← hmod]
  exact Nat.mod_lt _ (Nat.pos_pow_of_pos k (by norm_num))

theorem zvalNew_lt (x y : ℕ) (hx : x < 2 ^ 32) (hy : y < 2 ^ 32) :
    zvalNew x y < 2 ^ 64 := by
  apply lt_two_pow_of_high_bits
  intro i hi
  rw [zvalNew_testBit x y hx hy]
  split
  · exact testBit_high_false hx (by omega)
  · exact testBit_high_false hy (by omega)

theorem xMask_testBit (i : ℕ) :
    xMask.testBit i = (decide (i < 64) && decide (i % 2 = 0)) := by
  by_cases h : i < 64
  · have hsmall : ∀ i, i < 64 → xMask.testBit i = decide (i % 2 = 0) := by decide
    simp [h, hsmall i h]
  · have hb : xMask < 2 ^ i := by
      have h1 : xMask < 2 ^ 64 := by norm_num [xMask]
      exact lt_of_lt_of_le h1 (Nat.pow_le_pow_right (by norm_num) (by omega))
    simp [Nat.testBit_lt_two_pow hb, h]

theorem yMask_testBit (i : ℕ) :
    yMask.testBit i = (decide (i < 64) && decide (i % 2 = 1)) := by
  by_cases h : i < 64
  · have hsmall : ∀ i, i < 64 → yMask.testBit i = decide (i % 2 = 1) := by decide
    simp [h, hsmall i h]
  · have hb : yMask < 2 ^ i := by
      have h1 : yMask < 2 ^ 64 := by norm_num [yMask]
      exact lt_of_lt_of_le h1 (Nat.pow_le_pow_right (by norm_num) (by omega))
    simp [Nat.testBit_lt_two_pow hb, h]

theorem xBits_zvalNew (x y : ℕ) (hx : x < 2 ^ 32) (hy : y < 2 ^ 32) :
    xBits (zvalNew x y) = spread x := by
  apply Nat.eq_of_testBit_eq
  intro i
  unfold xBits
  rw [Nat.testBit_land, xMask_testBit, zvalNew_testBit x y hx hy]
  rcases Nat.even_or_odd' i with ⟨m, rfl | rfl⟩
  · have hp : 2 * m % 2 = 0 := by omega
    have hd : 2 * m / 2 = m := by omega
    have hsp := spread_testBit_even m x
    by_cases h64 : 2 * m < 64
    · simp [hp, hd, h64, hsp]
    · have hxf : x.testBit m = false := testBit_high_false hx (by omega)
      rw [hsp]
      simp [hp, hd, h64, hxf]
  · have hp : (2 * m + 1) % 2 = 1 := by omega
    have hsp := spread_testBit_odd m x
    rw [hsp]
    simp [hp]

theorem yBits_zvalNew (x y : ℕ) (hx : x < 2 ^ 32) (hy : y < 2 ^ 32) :
    yBits (zvalNew x y) = 2 * spread y := by
  apply Nat.eq_of_testBit_eq
  intro i
  unfold yBits
  have h2 : 2 * spread y = spread y <<< 1 := by
    rw [Nat.shiftLeft_eq]
    ring
  rw [Nat.testBit_land, yMask_testBit, zvalNew_testBit x y hx hy, h2,
    Nat.testBit_shiftLeft]
  rcases Nat.even_or_odd' i with ⟨m, rfl | rfl⟩
  · have hp : 2 * m % 2 = 0 := by omega
    cases m with
    | zero => simp
    | succ m' =>
      have hg : 2 * (m' + 1) ≥ 1 := by omega
      have he : 2 * (m' + 1) - 1 = 2 * m' + 1 := by omega
      rw [he]
      have hsp := spread_testBit_odd m' y
      simp [hp, hg, hsp]
  · have hp : (2 * m + 1) % 2 = 1 := by omega
    have hg : 2 * m + 1 ≥ 1 := by omega
    have he : 2 * m + 1 - 1 = 2 * m := by omega
    have hd : (2 * m + 1) / 2 = m := by omega
    rw [he, hd]
    have hsp := spread_testBit_even m y
    rw [hsp]
    by_cases h64 : 2 * m + 1 < 64
    · simp [hp, hg, h64]
    · have hyf : y.testBit m = false := testBit_high_false hy (by omega)
      simp [hp, hg, h64, hyf]

end UrbanTraffic

namespace UrbanTraffic

theorem zvalNew_inj (x1 y1 x2 y2 : ℕ) (hx1 : x1 < 2 ^ 32) (hy1 : y1 < 2 ^ 32)
    (hx2 : x2 < 2 ^ 32) (hy2 : y2 < 2 ^ 32)
    (h : zvalNew x1 y1 = zvalNew x2 y2) : x1 = x2 ∧ y1 = y2 := by
  constructor
  · apply Nat.eq_of_testBit_eq
    intro k
    by_cases hk : k < 32
    · have e1 := zvalNew_testBit x1 y1 hx1 hy1 (2 * k)
      have e2 := zvalNew_testBit x2 y2 hx2 hy2 (2 * k)
      have hp : 2 * k % 2 = 0 := by omega
      have hd : 2 * k / 2 = k := by omega
      rw [hp, hd] at e1 e2
      norm_num at e1 e2
      rw [← e1, ← e2, h]
    · rw [testBit_high_false hx1 (by omega), testBit_high_false hx2 (by omega)]
  · apply Nat.eq_of_testBit_eq
    intro k
    by_cases hk : k < 32
    · have e1 := zvalNew_testBit x1 y1 hx1 hy1 (2 * k + 1)
      have e2 := zvalNew_testBit x2 y2 hx2 hy2 (2 * k + 1)
      have hp : (2 * k + 1) % 2 = 1 := by omega
      have hd : (2 * k + 1) / 2 = k := by omega
      rw [hp, hd] at e1 e2
      norm_num at e1 e2
      rw [← e1, ← e2, h]
    · rw [testBit_high_false hy1 (by omega), testBit_high_false hy2 (by omega)]

/-- C3: `ZValue::new(X, Y)` places bit `k` of `X` at bit `2k` and bit `k` of
`Y` at bit `2k+1` of the 64-bit code, the encoding is a bijection between
pairs of 32-bit integers and 64-bit integers, and the three concrete values
from the spec hold. -/
theorem claim_C3 :
    (∀ x y : ℕ, x < 2 ^ 32 → y < 2 ^ 32 → ∀ k : ℕ, k < 32 →
        (zvalNew x y).testBit (2 * k) = x.testBit k
      ∧ (zvalNew x y).testBit (2 * k + 1) = y.testBit k)
  ∧ (∀ x1 y1 x2 y2 : ℕ, x1 < 2 ^ 32 → y1 < 2 ^ 32 → x2 < 2 ^ 32 → y2 < 2 ^ 32 →
      zvalNew x1 y1 = zvalNew x2 y2 → x1 = x2 ∧ y1 = y2)
  ∧ (∀ z : ℕ, z < 2 ^ 64 → ∃ x y : ℕ, x < 2 ^ 32 ∧ y < 2 ^ 32 ∧ zvalNew x y = z)
  ∧ zvalNew 0xFFFFFFFF 0 = 0x5555555555555555
  ∧ zvalNew 0 0xFFFFFFFF = 0xAAAAAAAAAAAAAAAA
  ∧ zvalNew 1 1 = 3 := by
  refine ⟨?_, ?_, ?_, by decide, by decide, by decide⟩
  · intro x y hx hy k hk
    have e1 := zvalNew_testBit x y hx hy (2 * k)
    have e2 := zvalNew_testBit x y hx hy (2 * k + 1)
    have hp1 : 2 * k % 2 = 0 := by omega
    have hd1 : 2 * k / 2 = k := by omega
    have hp2 : (2 * k + 1) % 2 = 1 := by omega
    have hd2 : (2 * k + 1) / 2 = k := by omega
    rw [hp1, hd1] at e1
    rw [hp2, hd2] at e2
    norm_num at e1 e2
    exact ⟨e1, e2⟩
  · exact zvalNew_inj
  · intro z hz
    have hinj : Function.Injective
        (fun p : Fin (2 ^ 32) × Fin (2 ^ 32) =>
          (⟨zvalNew p.1 p.2, zvalNew_lt p.1 p.2 p.1.2 p.2.2⟩ : Fin (2 ^ 64))) := by
      intro p q hpq
      have hval : zvalNew p.1 p.2 = zvalNew q.1 q.2 := congrArg Fin.val hpq
      obtain ⟨hx, hy⟩ := zvalNew_inj _ _ _ _ p.1.2 p.2.2 q.1.2 q.2.2 hval
      exact Prod.ext (Fin.ext hx) (Fin.ext hy)
    have hcard : Fintype.card (Fin (2 ^ 32) × Fin (2 ^ 32)) = Fintype.card (Fin (2 ^ 64)) := by
      rw [Fintype.card_prod, Fintype.card_fin, Fintype.card_fin]
      norm_num
    have hbij := (Fintype.bijective_iff_injective_and_card _).mpr ⟨hinj, hcard⟩
    obtain ⟨p, hp⟩ := hbij.2 ⟨z, hz⟩
    exact ⟨p.1, p.2, p.1.2, p.2.2, congrArg Fin.val hp⟩

/-- Witness for C3 at concrete inputs. -/
theorem claim_C3_witness :
    (1 : ℕ) < 2 ^ 32 ∧ (0 : ℕ) < 32
  ∧ (zvalNew 1 1).testBit (2 * 0) = Nat.testBit 1 0 := by
  refine ⟨by norm_num, by norm_num, ?_⟩
  exact (claim_C3.1 1 1 (by norm_num) (by norm_num) 0 (by norm_num)).1

/-- C5: comparing the x-projections (`cmp_x`, mask 0x5555…55) of two encoded
z-values agrees with integer comparison of the x-coordinates, and symmetrically
for `cmp_y` with mask 0xAAAA…AA. -/
theorem claim_C5 :
    ∀ x1 y1 x2 y2 : ℕ, x1 < 2 ^ 32 → y1 < 2 ^ 32 → x2 < 2 ^ 32 → y2 < 2 ^ 32 →
      cmpX (zvalNew x1 y1) (zvalNew x2 y2) = ucmp x1 x2
    ∧ cmpY (zvalNew x1 y1) (zvalNew x2 y2) = ucmp y1 y2 := by
  intro x1 y1 x2 y2 hx1 hy1 hx2 hy2
  constructor
  · unfold cmpX
    rw [xBits_zvalNew x1 y1 hx1 hy1, xBits_zvalNew x2 y2 hx2 hy2]
    exact ucmp_congr_strictMono (fun {p q} h => spread_strictMono q p h) x1 x2
  · unfold cmpY
    rw [yBits_zvalNew x1 y1 hx1 hy1, yBits_zvalNew x2 y2 hx2 hy2]
    refine ucmp_congr_strictMono (f := fun n => 2 * spread n) (fun {p q} h => ?_) y1 y2
    show 2 * spread p < 2 * spread q
    have := spread_strictMono q p h
    omega

/-- Witness for C5 at concrete inputs. -/
theorem claim_C5_witness :
    (1 : ℕ) < 2 ^ 32
  ∧ cmpX (zvalNew 1 2) (zvalNew 3 4) = ucmp 1 3
  ∧ cmpY (zvalNew 1 2) (zvalNew 3 4) = ucmp 2 4 := by
  refine ⟨by norm_num, ?_, ?_⟩
  · exact (claim_C5 1 2 3 4 (by norm_num) (by norm_num) (by norm_num) (by norm_num)).1
  · exact (claim_C5 1 2 3 4 (by norm_num) (by norm_num) (by norm_num) (by norm_num)).2

end UrbanTraffic

namespace UrbanTraffic

theorem testBit_log2_self {n : ℕ} (hn : n ≠ 0) : n.testBit (Nat.log2 n) = true := by
  have h1 : 2 ^ Nat.log2 n ≤ n := Nat.log2_self_le hn
  have h2 : n < 2 ^ (Nat.log2 n + 1) := Nat.lt_log2_self
  have e : 2 ^ (Nat.log2 n + 1) = 2 * 2 ^ Nat.log2 n := by ring
  have h3 : n / 2 ^ Nat.log2 n = 1 := Nat.div_eq_of_lt_le (by omega) (by omega)
  rw [Nat.testBit_to_div_mod, h3]
  norm_num

theorem testBit_false_of_log2_lt {n i : ℕ} (h : Nat.log2 n < i) : n.testBit i = false := by
  rcases eq_or_ne n 0 with rfl | hn
  · exact Nat.zero_testBit i
  · exact testBit_high_false Nat.lt_log2_self (by omega)

theorem log2_eq_of_testBit {n K : ℕ} (h1 : n.testBit K = true)
    (h2 : ∀ j, K < j → n.testBit j = false) : Nat.log2 n = K := by
  have hn : n ≠ 0 := by
    intro h
    rw [h, Nat.zero_testBit] at h1
    exact Bool.false_ne_true h1
  rcases lt_trichotomy (Nat.log2 n) K with h | h | h
  · rw [testBit_false_of_log2_lt h] at h1
    exact absurd h1 Bool.false_ne_true
  · exact h
  · have hbit := testBit_log2_self hn
    rw [h2 (Nat.log2 n) h] at hbit
    exact absurd hbit Bool.false_ne_true

theorem ucmp_msb {a b : ℕ} (hne : a ≠ b) :
    ucmp a b =
      (if b.testBit (Nat.log2 (a ^^^ b)) then Ordering.lt else Ordering.gt) := by
  have hd : a ^^^ b ≠ 0 := fun h => hne (Nat.xor_eq_zero.mp h)
  set K := Nat.log2 (a ^^^ b) with hK
  have hbit : (a ^^^ b).testBit K = true := testBit_log2_self hd
  rw [Nat.testBit_xor] at hbit
  have habove : ∀ j, K < j → a.testBit j = b.testBit j := by
    intro j hj
    have hf : (a ^^^ b).testBit j = false := testBit_false_of_log2_lt (by omega)
    rw [Nat.testBit_xor] at hf
    cases ha : a.testBit j <;> cases hb : b.testBit j <;> simp_all
  cases hb : b.testBit K
  · have ha : a.testBit K = true := by
      cases ha : a.testBit K
      · rw [ha, hb] at hbit
        simp at hbit
      · rfl
    have hlt : b < a := Nat.lt_of_testBit K hb ha (fun j hj => (habove j hj).symm)
    rw [ucmp_gt hlt]
    simp
  · have ha : a.testBit K = false := by
      cases ha : a.testBit K
      · rfl
      · rw [ha, hb] at hbit
        simp at hbit
    have hlt : a < b := Nat.lt_of_testBit K ha hb habove
    rw [ucmp_lt hlt]
    simp

theorem xor_lt_two_pow {a b k : ℕ} (ha : a < 2 ^ k) (hb : b < 2 ^ k) :
    a ^^^ b < 2 ^ k := by
  apply lt_two_pow_of_high_bits
  intro i hi
  rw [Nat.testBit_xor, testBit_high_false ha hi, testBit_high_false hb hi]
  rfl

theorem zvalNew_xor (x1 y1 x2 y2 : ℕ) (hx1 : x1 < 2 ^ 32) (hy1 : y1 < 2 ^ 32)
    (hx2 : x2 < 2 ^ 32) (hy2 : y2 < 2 ^ 32) :
    zvalNew x1 y1 ^^^ zvalNew x2 y2 = zvalNew (x1 ^^^ x2) (y1 ^^^ y2) := by
  apply Nat.eq_of_testBit_eq
  intro i
  rw [Nat.testBit_xor, zvalNew_testBit x1 y1 hx1 hy1, zvalNew_testBit x2 y2 hx2 hy2,
    zvalNew_testBit _ _ (xor_lt_two_pow hx1 hx2) (xor_lt_two_pow hy1 hy2)]
  split
  · rw [Nat.testBit_xor]
  · rw [Nat.testBit_xor]

theorem zvalNew_testBit_even (x y : ℕ) (hx : x < 2 ^ 32) (hy : y < 2 ^ 32) (k : ℕ) :
    (zvalNew x y).testBit (2 * k) = x.testBit k := by
  have h := zvalNew_testBit x y hx hy (2 * k)
  have hp : 2 * k % 2 = 0 := by omega
  have hd : 2 * k / 2 = k := by omega
  rw [hp, hd] at h
  norm_num at h
  exact h

theorem zvalNew_testBit_odd (x y : ℕ) (hx : x < 2 ^ 32) (hy : y < 2 ^ 32) (k : ℕ) :
    (zvalNew x y).testBit (2 * k + 1) = y.testBit k := by
  have h := zvalNew_testBit x y hx hy (2 * k + 1)
  have hp : (2 * k + 1) % 2 = 1 := by omega
  have hd : (2 * k + 1) / 2 = k := by omega
  rw [hp, hd] at h
  norm_num at h
  exact h

theorem zcmp_axis_x (x1 y1 x2 y2 : ℕ) (hx1 : x1 < 2 ^ 32) (hy1 : y1 < 2 ^ 32)
    (hx2 : x2 < 2 ^ 32) (hy2 : y2 < 2 ^ 32)
    (hm1 : x1 ^^^ x2 ≠ 0)
    (hcase : y1 ^^^ y2 = 0 ∨ Nat.log2 (y1 ^^^ y2) < Nat.log2 (x1 ^^^ x2)) :
    ucmp (zvalNew x1 y1) (zvalNew x2 y2) = ucmp x1 x2 := by
  have hm1lt : x1 ^^^ x2 < 2 ^ 32 := xor_lt_two_pow hx1 hx2
  have hm2lt : y1 ^^^ y2 < 2 ^ 32 := xor_lt_two_pow hy1 hy2
  have hzne : zvalNew x1 y1 ≠ zvalNew x2 y2 := by
    intro h
    exact hm1 (Nat.xor_eq_zero.mpr (zvalNew_inj _ _ _ _ hx1 hy1 hx2 hy2 h).1)
  have hxne : x1 ≠ x2 := fun h => hm1 (Nat.xor_eq_zero.mpr h)
  set l1 := Nat.log2 (x1 ^^^ x2) with hl1
  have hzx : zvalNew x1 y1 ^^^ zvalNew x2 y2 = zvalNew (x1 ^^^ x2) (y1 ^^^ y2) :=
    zvalNew_xor _ _ _ _ hx1 hy1 hx2 hy2
  have hbit : (zvalNew (x1 ^^^ x2) (y1 ^^^ y2)).testBit (2 * l1) = true := by
    rw [zvalNew_testBit_even _ _ hm1lt hm2lt]
    exact testBit_log2_self hm1
  have habove : ∀ j, 2 * l1 < j → (zvalNew (x1 ^^^ x2) (y1 ^^^ y2)).testBit j = false := by
    intro j hj
    rw [zvalNew_testBit _ _ hm1lt hm2lt j]
    by_cases hp : j % 2 = 0
    · rw [if_pos hp]
      exact testBit_false_of_log2_lt (by omega)
    · rw [if_neg hp]
      rcases hcase with h0 | hlt
      · rw [h0]
        exact Nat.zero_testBit _
      · exact testBit_false_of_log2_lt (by omega)
  have hlog : Nat.log2 (zvalNew x1 y1 ^^^ zvalNew x2 y2) = 2 * l1 := by
    rw [hzx]
    exact log2_eq_of_testBit hbit habove
  have hz2bit : (zvalNew x2 y2).testBit (2 * l1) = x2.testBit l1 :=
    zvalNew_testBit_even _ _ hx2 hy2 l1
  rw [ucmp_msb hzne, hlog, hz2bit, ucmp_msb hxne, ← hl1]

theorem zcmp_axis_y (x1 y1 x2 y2 : ℕ) (hx1 : x1 < 2 ^ 32) (hy1 : y1 < 2 ^ 32)
    (hx2 : x2 < 2 ^ 32) (hy2 : y2 < 2 ^ 32)
    (hm2 : y1 ^^^ y2 ≠ 0)
    (hcase : x1 ^^^ x2 = 0 ∨ Nat.log2 (x1 ^^^ x2) ≤ Nat.log2 (y1 ^^^ y2)) :
    ucmp (zvalNew x1 y1) (zvalNew x2 y2) = ucmp y1 y2 := by
  have hm1lt : x1 ^^^ x2 < 2 ^ 32 := xor_lt_two_pow hx1 hx2
  have hm2lt : y1 ^^^ y2 < 2 ^ 32 := xor_lt_two_pow hy1 hy2
  have hzne : zvalNew x1 y1 ≠ zvalNew x2 y2 := by
    intro h
    exact hm2 (Nat.xor_eq_zero.mpr (zvalNew_inj _ _ _ _ hx1 hy1 hx2 hy2 h).2)
  have hyne : y1 ≠ y2 := fun h => hm2 (Nat.xor_eq_zero.mpr h)
  set l2 := Nat.log2 (y1 ^^^ y2) with hl2
  have hzx : zvalNew x1 y1 ^^^ zvalNew x2 y2 = zvalNew (x1 ^^^ x2) (y1 ^^^ y2) :=
    zvalNew_xor _ _ _ _ hx1 hy1 hx2 hy2
  have hbit : (zvalNew (x1 ^^^ x2) (y1 ^^^ y2)).testBit (2 * l2 + 1) = true := by
    rw [zvalNew_testBit_odd _ _ hm1lt hm2lt]
    exact testBit_log2_self hm2
  have habove : ∀ j, 2 * l2 + 1 < j →
      (zvalNew (x1 ^^^ x2) (y1 ^^^ y2)).testBit j = false := by
    intro j hj
    rw [zvalNew_testBit _ _ hm1lt hm2lt j]
    by_cases hp : j % 2 = 0
    · rw [if_pos hp]
      rcases hcase with h0 | hle
      · rw [h0]
        exact Nat.zero_testBit _
      · exact testBit_false_of_log2_lt (by omega)
    · rw [if_neg hp]
      exact testBit_false_of_log2_lt (by omega)
  have hlog : Nat.log2 (zvalNew x1 y1 ^^^ zvalNew x2 y2) = 2 * l2 + 1 := by
    rw [hzx]
    exact log2_eq_of_testBit hbit habove
  have hz2bit : (zvalNew x2 y2).testBit (2 * l2 + 1) = y2.testBit l2 :=
    zvalNew_testBit_odd _ _ hx2 hy2 l2
  rw [ucmp_msb hzne, hlog, hz2bit, ucmp_msb hyne, ← hl2]

/-- C4: natural u64 comparison of two encoded z-values equals integer
comparison of the coordinates along whichever axis has the higher
most-significant set bit of the XOR of its coordinates: the x-axis if
`x1 XOR x2` has fewer leading zeros than `y1 XOR y2`, otherwise the y-axis. -/
theorem claim_C4 :
    ∀ x1 y1 x2 y2 : ℕ, x1 < 2 ^ 32 → y1 < 2 ^ 32 → x2 < 2 ^ 32 → y2 < 2 ^ 32 →
      ucmp (zvalNew x1 y1) (zvalNew x2 y2) =
        (if lz32 (x1 ^^^ x2) < lz32 (y1 ^^^ y2) then ucmp x1 x2 else ucmp y1 y2) := by
  intro x1 y1 x2 y2 hx1 hy1 hx2 hy2
  by_cases hm1 : x1 ^^^ x2 = 0 <;> by_cases hm2 : y1 ^^^ y2 = 0
  · have hx : x1 = x2 := Nat.xor_eq_zero.mp hm1
    have hy : y1 = y2 := Nat.xor_eq_zero.mp hm2
    subst hx
    subst hy
    rw [hm1, hm2, if_neg (lt_irrefl _), ucmp_self, ucmp_self]
  · have hcond : ¬ (lz32 (x1 ^^^ x2) < lz32 (y1 ^^^ y2)) := by
      simp only [lz32, hm1, hm2, if_pos rfl, if_true, if_false]
      omega
    rw [if_neg hcond]
    exact zcmp_axis_y _ _ _ _ hx1 hy1 hx2 hy2 hm2 (Or.inl hm1)
  · have hl1 : Nat.log2 (x1 ^^^ x2) < 32 :=
      (Nat.log2_lt hm1).mpr (xor_lt_two_pow hx1 hx2)
    have hcond : lz32 (x1 ^^^ x2) < lz32 (y1 ^^^ y2) := by
      simp only [lz32, hm1, hm2, if_pos rfl, if_true, if_false]
      omega
    rw [if_pos hcond]
    exact zcmp_axis_x _ _ _ _ hx1 hy1 hx2 hy2 hm1 (Or.inl hm2)
  · have hl1 : Nat.log2 (x1 ^^^ x2) < 32 :=
      (Nat.log2_lt hm1).mpr (xor_lt_two_pow hx1 hx2)
    have hl2 : Nat.log2 (y1 ^^^ y2) < 32 :=
      (Nat.log2_lt hm2).mpr (xor_lt_two_pow hy1 hy2)
    by_cases hc : Nat.log2 (y1 ^^^ y2) < Nat.log2 (x1 ^^^ x2)
    · have hcond : lz32 (x1 ^^^ x2) < lz32 (y1 ^^^ y2) := by
        simp only [lz32, hm1, hm2, if_false]
        omega
      rw [if_pos hcond]
      exact zcmp_axis_x _ _ _ _ hx1 hy1 hx2 hy2 hm1 (Or.inr hc)
    · have hcond : ¬ (lz32 (x1 ^^^ x2) < lz32 (y1 ^^^ y2)) := by
        simp only [lz32, hm1, hm2, if_false]
        omega
      rw [if_neg hcond]
      exact zcmp_axis_y _ _ _ _ hx1 hy1 hx2 hy2 hm2 (Or.inr (by omega))

/-- Witness for C4 at concrete inputs: comparing `(1,0)` and `(0,0)` is decided
along the x-axis and yields `gt`. -/
theorem claim_C4_witness :
    (1 : ℕ) < 2 ^ 32 ∧ ucmp (zvalNew 1 0) (zvalNew 0 0) = Ordering.gt := by
  refine ⟨by norm_num, ?_⟩
  rw [claim_C4 1 0 0 0 (by norm_num) (by norm_num) (by norm_num) (by norm_num)]
  have h1 : (1 : ℕ) ^^^ 0 = 1 := by decide
  have h0 : (0 : ℕ) ^^^ 0 = 0 := by decide
  rw [h1, h0]
  have e1 : lz32 1 = 31 := by
    simp only [lz32, if_false]
    norm_num [Nat.log2]
  have e0 : lz32 0 = 32 := by
    norm_num [lz32]
  rw [e1, e0, if_pos (by norm_num)]
  exact ucmp_gt (by norm_num)

end UrbanTraffic

namespace UrbanTraffic

/-! ## Rust `slice::binary_search_by` (used by kNN insertion and find_split) -/

/-- Core loop of Rust `slice::binary_search_by` over a window given by `left`
and `size`; `Sum.inl` is `Ok`, `Sum.inr` is `Err`; `none` is fuel exhaustion,
unreachable from `rustBinSearch` since the window shrinks every iteration. -/
def rbsGo {α : Type} (f : α → Ordering) (l : List α) :
    ℕ → ℕ → ℕ → Option (ℕ ⊕ ℕ)
  | _, _, 0 => none
  | left, size, fuel + 1 =>
    if size = 0 then some (.inr left)
    else
      match l[left + size / 2]? with
      | none => none
      | some v =>
        match f v with
        | .lt => rbsGo f l (left + size / 2 + 1) (size - size / 2 - 1) fuel
        | .gt => rbsGo f l left (size / 2) fuel
        | .eq => some (.inl (left + size / 2))

/-- Rust `slice::binary_search_by`. -/
def rustBinSearch {α : Type} (f : α → Ordering) (l : List α) : Option (ℕ ⊕ ℕ) :=
  rbsGo f l 0 l.length (l.length + 1)

/-! ## kd-tree median-of-three partition (kd_tree.rs `partition`) -/

/-- Swap two positions of an array (`slice::swap`); at every use below the
indices are in bounds, so the identity fallback is never taken. -/
def swapN {α : Type} (a : Array α) (i j : ℕ) : Array α :=
  if h : i < a.size ∧ j < a.size then a.swap ⟨i, h.1⟩ ⟨j, h.2⟩ else a

/-- Compare the elements at two positions; `none` (out of bounds) never occurs
at the call sites below. -/
def cmpIdx {α : Type} (cmp : α → α → Ordering) (a : Array α) (i j : ℕ) :
    Option Ordering :=
  match a[i]?, a[j]? with
  | some x, some y => some (cmp x y)
  | _, _ => none

/-- Inner loop `while cmp(&elems[i], pivot) == Less { i += 1 }`; `none` models
the index-out-of-bounds panic (the fuel never runs out first). -/
def advanceI {α : Type} (cmp : α → α → Ordering) (pivot : α) (elems : Array α) :
    ℕ → ℕ → Option ℕ
  | _, 0 => none
  | i, fuel + 1 =>
    match elems[i]? with
    | none => none
    | some v =>
      if cmp v pivot = .lt then advanceI cmp pivot elems (i + 1) fuel else some i

/-- Inner loop `loop { j -= 1; if cmp(&elems[j], pivot) != Greater { break } }`;
`none` at `j = 0` models the usize-underflow panic. -/
def descendJ {α : Type} (cmp : α → α → Ordering) (pivot : α) (elems : Array α) :
    ℕ → Option ℕ
  | 0 => none
  | j + 1 =>
    match elems[j]? with
    | none => none
    | some v =>
      if cmp v pivot ≠ .gt then some j else descendJ cmp pivot elems j

/-- Outer Hoare partition loop of kd_tree.rs `partition`: advance `i`, descend
`j`, and either split at `i` or swap and continue.  The fuel never runs out
because `j` strictly decreases. -/
def hoareLoop {α : Type} (cmp : α → α → Ordering) (pivot : α) :
    Array α → ℕ → ℕ → ℕ → Option (Array α × ℕ)
  | _, _, _, 0 => none
  | elems, i, j, fuel + 1 =>
    match advanceI cmp pivot elems i (elems.size + 1) with
    | none => none
    | some i2 =>
      match descendJ cmp pivot elems j with
      | none => none
      | some j2 =>
        if i2 ≥ j2 then some (elems, i2)
        else hoareLoop cmp pivot (swapN elems i2 j2) i2 j2 fuel

/-- Median-of-three selection of kd_tree.rs `partition`: the three conditional
swaps that move the median of positions `0`, `mid`, `hi` into position `hi`. -/
def mo3Arr {α : Type} (cmp : α → α → Ordering) (arr : Array α) (mid hi : ℕ) :
    Array α :=
  let ar1 := if cmpIdx cmp arr mid 0 = some .lt then swapN arr mid 0 else arr
  let ar2 := if cmpIdx cmp ar1 hi 0 = some .lt then swapN ar1 hi 0 else ar1
  if cmpIdx cmp ar2 mid hi = some .lt then swapN ar2 hi mid else ar2

/-- kd_tree.rs `partition`: find the median-of-three pivot, move it to the last
slot, Hoare-partition the rest, and return the strictly-less part, the pivot,
and the greater-or-equal part.  `none` models a panic: the zero-length input
panic, or (unreachably) an internal index error. -/
def partitionM3 {α : Type} (cmp : α → α → Ordering) (arr : Array α) :
    Option (List α × α × List α) :=
  if arr.size = 0 then none
  else if arr.size = 1 then
    match arr[0]? with
    | none => none
    | some a => some ([], a, [])
  else if arr.size = 2 then
    match arr[0]?, arr[1]? with
    | some a0, some a1 =>
      if cmp a0 a1 = .gt then some ([a1], a0, []) else some ([a0], a1, [])
    | _, _ => none
  else
    let hi := arr.size - 1
    let mid := arr.size >>> 1
    let ar3 := mo3Arr cmp arr mid hi
    match ar3[hi]? with
    | none => none
    | some pivot =>
      let elems := ar3.extract 0 hi
      match hoareLoop cmp pivot elems 0 elems.size (elems.size + 1) with
      | none => none
      | some (el, i) =>
        some ((el.extract 0 i).toList, pivot, (el.extract i el.size).toList)

end UrbanTraffic

namespace UrbanTraffic

theorem arrGet?_lt {α : Type} {a : Array α} {p : ℕ} {v : α} (h : a[p]? = some v) :
    p < a.size :=
  (Array.getElem?_eq_some_iff.mp h).1

theorem perm_cons_set {α : Type} :
    ∀ (t : List α) (m : ℕ) (hm : m < t.length) (a : α),
      (t.get ⟨m, hm⟩ :: t.set m a).Perm (a :: t) := by
  intro t
  induction t with
  | nil =>
    intro m hm
    simp at hm
  | cons b t ih =>
    intro m hm a
    cases m with
    | zero =>
      simpa using List.Perm.swap a b t
    | succ m =>
      have hm' : m < t.length := by simpa using hm
      have e : (b :: t).get ⟨m + 1, hm⟩ :: (b :: t).set (m + 1) a
          = t.get ⟨m, hm'⟩ :: b :: t.set m a := by simp
      rw [e]
      have p1 : (t.get ⟨m, hm'⟩ :: b :: t.set m a).Perm
          (b :: t.get ⟨m, hm'⟩ :: t.set m a) := List.Perm.swap b _ _
      have p2 : (b :: t.get ⟨m, hm'⟩ :: t.set m a).Perm (b :: (a :: t)) :=
        List.Perm.cons b (ih m hm' a)
      have p3 : (b :: a :: t).Perm (a :: b :: t) := List.Perm.swap a b t
      exact (p1.trans p2).trans p3

theorem perm_set_set {α : Type} :
    ∀ (l : List α) (i j : ℕ) (hi : i < l.length) (hj : j < l.length),
      ((l.set i (l.get ⟨j, hj⟩)).set j (l.get ⟨i, hi⟩)).Perm l := by
  intro l
  induction l with
  | nil =>
    intro i j hi
    simp at hi
  | cons a t ih =>
    intro i j hi hj
    cases i with
    | zero =>
      cases j with
      | zero => simp
      | succ m =>
        have hm : m < t.length := by simpa using hj
        simpa using perm_cons_set t m hm a
    | succ n =>
      cases j with
      | zero =>
        have hn : n < t.length := by simpa using hi
        simpa using perm_cons_set t n hn a
      | succ m =>
        have hn : n < t.length := by simpa using hi
        have hm : m < t.length := by simpa using hj
        simpa using List.Perm.cons a (ih n m hn hm)

theorem swapN_size {α : Type} (a : Array α) (i j : ℕ) :
    (swapN a i j).size = a.size := by
  unfold swapN
  split
  · exact Array.size_swap _ _ _
  · rfl

theorem swapN_perm {α : Type} (a : Array α) (i j : ℕ) :
    (swapN a i j).toList.Perm a.toList := by
  unfold swapN
  split
  · rename_i h
    rw [Array.toList_swap]
    have hi : i < a.toList.length := by simpa using h.1
    have hj : j < a.toList.length := by simpa using h.2
    have e1 : a.get ⟨j, h.2⟩ = a.toList.get ⟨j, hj⟩ := by
      rw [Array.get_eq_getElem, List.get_eq_getElem, Array.getElem_toList]
    have e2 : a.get ⟨i, h.1⟩ = a.toList.get ⟨i, hi⟩ := by
      rw [Array.get_eq_getElem, List.get_eq_getElem, Array.getElem_toList]
    rw [e1, e2]
    exact perm_set_set a.toList i j hi hj
  · exact List.Perm.refl _

theorem swapN_getElem? {α : Type} (a : Array α) (i j : ℕ) (hi : i < a.size)
    (hj : j < a.size) (k : ℕ) :
    (swapN a i j)[k]? = if j = k then a[i]? else if i = k then a[j]? else a[k]? := by
  unfold swapN
  rw [dif_pos ⟨hi, hj⟩, Array.getElem?_swap]
  by_cases h1 : j = k
  · simp [h1, Array.getElem?_eq_getElem hi]
  · by_cases h2 : i = k
    · simp [h1, h2, Array.getElem?_eq_getElem hj]
    · simp [h1, h2]

end UrbanTraffic

namespace UrbanTraffic

theorem advanceI_spec {α : Type} (cmp : α → α → Ordering) (pivot : α)
    (elems : Array α) :
    ∀ fuel i, elems.size - i < fuel →
      (∃ p v, i ≤ p ∧ elems[p]? = some v ∧ cmp v pivot ≠ .lt) →
      ∃ i2 v2, advanceI cmp pivot elems i fuel = some i2 ∧ i ≤ i2 ∧
        elems[i2]? = some v2 ∧ cmp v2 pivot ≠ .lt ∧
        ∀ p v, i ≤ p → p < i2 → elems[p]? = some v → cmp v pivot = .lt := by
  intro fuel
  induction fuel with
  | zero =>
    intro i h
    omega
  | succ fuel ih =>
    intro i hfuel hstop
    obtain ⟨p, v, hip, hpv, hvp⟩ := hstop
    have hplen : p < elems.size := arrGet?_lt hpv
    have hilen : i < elems.size := by omega
    have hsome : elems[i]? = some elems[i] := Array.getElem?_eq_getElem hilen
    by_cases hc : cmp elems[i] pivot = .lt
    · have hip' : i + 1 ≤ p := by
        rcases Nat.eq_or_lt_of_le hip with heq | h
        · exfalso
          have hv : v = elems[i] := by
            have h2 := hpv
            rw [← heq] at h2
            rw [hsome] at h2
            exact (Option.some.inj h2).symm
          rw [hv] at hvp
          exact hvp hc
        · omega
      have hrec := ih (i + 1) (by omega) ⟨p, v, hip', hpv, hvp⟩
      obtain ⟨i2, v2, heq2, hle, hv2, hnlt, hpre⟩ := hrec
      refine ⟨i2, v2, ?_, by omega, hv2, hnlt, ?_⟩
      · simp only [advanceI, hsome, hc, if_pos rfl]
        exact heq2
      · intro q w hiq hqi2 hqw
        rcases Nat.eq_or_lt_of_le hiq with heq | h
        · have hw : w = elems[i] := by
            have h2 := hqw
            rw [← heq] at h2
            rw [hsome] at h2
            exact (Option.some.inj h2).symm
          rw [hw]
          exact hc
        · exact hpre q w (by omega) hqi2 hqw
    · refine ⟨i, elems[i], ?_, le_rfl, hsome, hc, ?_⟩
      · simp only [advanceI, hsome, hc]
        simp [hc]
      · intro q w hiq hqi
        omega

theorem descendJ_spec {α : Type} (cmp : α → α → Ordering) (pivot : α)
    (elems : Array α) :
    ∀ j, j ≤ elems.size →
      (∃ p v, p < j ∧ elems[p]? = some v ∧ cmp v pivot ≠ .gt) →
      ∃ j2 v2, descendJ cmp pivot elems j = some j2 ∧ j2 < j ∧
        elems[j2]? = some v2 ∧ cmp v2 pivot ≠ .gt ∧
        ∀ p v, j2 < p → p < j → elems[p]? = some v → cmp v pivot = .gt := by
  intro j
  induction j with
  | zero =>
    intro hj hstop
    obtain ⟨p, v, hp, _, _⟩ := hstop
    omega
  | succ j ih =>
    intro hj hstop
    obtain ⟨p, v, hpj, hpv, hvp⟩ := hstop
    have hjlen : j < elems.size := by omega
    have hsome : elems[j]? = some elems[j] := Array.getElem?_eq_getElem hjlen
    by_cases hc : cmp elems[j] pivot ≠ .gt
    · refine ⟨j, elems[j], ?_, by omega, hsome, hc, ?_⟩
      · simp only [descendJ, hsome, hc, if_pos]
        simp [hc]
      · intro q w hjq hqj
        omega
    · push_neg at hc
      have hpj' : p < j := by
        rcases Nat.lt_succ_iff_lt_or_eq.mp hpj with h | heq
        · exact h
        · exfalso
          have hv : v = elems[j] := by
            have h2 := hpv
            rw [heq] at h2
            rw [hsome] at h2
            exact (Option.some.inj h2).symm
          rw [hv] at hvp
          exact hvp hc
      have hrec := ih (by omega) ⟨p, v, hpj', hpv, hvp⟩
      obtain ⟨j2, v2, heq, hlt, hv2, hngt, hpre⟩ := hrec
      refine ⟨j2, v2, ?_, by omega, hv2, hngt, ?_⟩
      · have hcc : ¬ (cmp elems[j] pivot ≠ .gt) := by simp [hc]
        simp only [descendJ, hsome, hcc, if_neg]
        · exact heq
      · intro q w hj2q hqj hqw
        rcases Nat.lt_succ_iff_lt_or_eq.mp hqj with h | heq
        · exact hpre q w hj2q h hqw
        · have hw : w = elems[j] := by
            have h2 := hqw
            rw [heq] at h2
            rw [hsome] at h2
            exact (Option.some.inj h2).symm
          rw [hw]
          exact hc

end UrbanTraffic

namespace UrbanTraffic

theorem hoareLoop_spec {α : Type} (cmp : α → α → Ordering) (pivot : α) :
    ∀ fuel (elems : Array α) i j,
      j ≤ elems.size → i < j → j + 1 ≤ fuel →
      (∀ p v, p < i → elems[p]? = some v → cmp v pivot = .lt) →
      (∀ p v, j ≤ p → elems[p]? = some v → cmp v pivot ≠ .lt) →
      (∀ v, elems[0]? = some v → cmp v pivot ≠ .gt) →
      (∃ p v, i ≤ p ∧ elems[p]? = some v ∧ cmp v pivot ≠ .lt) →
      ∃ el i2, hoareLoop cmp pivot elems i j fuel = some (el, i2) ∧
        el.size = elems.size ∧ el.toList.Perm elems.toList ∧ i2 ≤ el.size ∧
        (∀ p v, p < i2 → el[p]? = some v → cmp v pivot = .lt) ∧
        (∀ p v, i2 ≤ p → el[p]? = some v → cmp v pivot ≠ .lt) := by
  intro fuel
  induction fuel with
  | zero =>
    intro elems i j h1 h2 h3
    omega
  | succ fuel ih =>
    intro elems i j hjsize hij hfuel I2 I3 I4 I5
    obtain ⟨i2, v2, hadv, hii2, hv2some, hv2nlt, hadvpre⟩ :=
      advanceI_spec cmp pivot elems (elems.size + 1) i (by omega) I5
    have hi2size : i2 < elems.size := arrGet?_lt hv2some
    have h0size : 0 < elems.size := by omega
    have h0some : elems[0]? = some elems[0] := Array.getElem?_eq_getElem h0size
    obtain ⟨j2, w2, hdes, hj2j, hw2some, hw2ngt, hdespre⟩ :=
      descendJ_spec cmp pivot elems j hjsize
        ⟨0, elems[0], by omega, h0some, I4 _ h0some⟩
    by_cases hcase : i2 ≥ j2
    · refine ⟨elems, i2, ?_, rfl, List.Perm.refl _, by omega, ?_, ?_⟩
      · simp only [hoareLoop, hadv, hdes, if_pos hcase]
      · intro p v hp hpv
        by_cases hpi : p < i
        · exact I2 p v hpi hpv
        · exact hadvpre p v (by omega) hp hpv
      · intro p v hp hpv
        by_cases hpi2 : p = i2
        · subst hpi2
          have hv : v2 = v := by
            have h2 := hpv
            rw [hv2some] at h2
            exact Option.some.inj h2
          rw [← hv]
          exact hv2nlt
        · by_cases hpj : j ≤ p
          · exact I3 p v hpj hpv
          · have hgt : cmp v pivot = .gt := hdespre p v (by omega) (by omega) hpv
            simp [hgt]
    · push_neg at hcase
      have hj2size : j2 < elems.size := by omega
      have hsize2 : (swapN elems i2 j2).size = elems.size := swapN_size elems i2 j2
      have hget2 := swapN_getElem? elems i2 j2 hi2size hj2size
      have I2' : ∀ p v, p < i2 → (swapN elems i2 j2)[p]? = some v →
          cmp v pivot = .lt := by
        intro p v hp hpv
        rw [hget2 p, if_neg (by omega), if_neg (by omega)] at hpv
        by_cases hpi : p < i
        · exact I2 p v hpi hpv
        · exact hadvpre p v (by omega) hp hpv
      have I3' : ∀ p v, j2 ≤ p → (swapN elems i2 j2)[p]? = some v →
          cmp v pivot ≠ .lt := by
        intro p v hp hpv
        rw [hget2 p] at hpv
        by_cases hpj2 : j2 = p
        · rw [if_pos hpj2] at hpv
          have hv : v2 = v := by
            have h2 := hpv
            rw [hv2some] at h2
            exact Option.some.inj h2
          rw [← hv]
          exact hv2nlt
        · rw [if_neg hpj2, if_neg (by omega)] at hpv
          by_cases hpj : j ≤ p
          · exact I3 p v hpj hpv
          · have hgt : cmp v pivot = .gt := hdespre p v (by omega) (by omega) hpv
            simp [hgt]
      have I4' : ∀ v, (swapN elems i2 j2)[0]? = some v → cmp v pivot ≠ .gt := by
        intro v hpv
        rw [hget2 0] at hpv
        rw [if_neg (by omega)] at hpv
        by_cases hi20 : i2 = 0
        · rw [if_pos hi20] at hpv
          have hv : w2 = v := by
            have h2 := hpv
            rw [hw2some] at h2
            exact Option.some.inj h2
          rw [← hv]
          exact hw2ngt
        · rw [if_neg hi20] at hpv
          exact I4 v hpv
      have I5' : ∃ p v, i2 ≤ p ∧ (swapN elems i2 j2)[p]? = some v ∧
          cmp v pivot ≠ .lt := by
        refine ⟨j2, v2, by omega, ?_, hv2nlt⟩
        rw [hget2 j2, if_pos rfl]
        exact hv2some
      have hrec := ih (swapN elems i2 j2) i2 j2 (by omega) hcase (by omega)
        I2' I3' I4' I5'
      obtain ⟨el, i3, heq, hsz, hperm, hle, hlt, hge⟩ := hrec
      refine ⟨el, i3, ?_, by omega, hperm.trans (swapN_perm elems i2 j2), hle,
        hlt, hge⟩
      simp only [hoareLoop, hadv, hdes, if_neg (by omega : ¬ i2 ≥ j2)]
      exact heq

end UrbanTraffic

namespace UrbanTraffic

theorem cmpIdx_eq_of {α : Type} {cmp : α → α → Ordering} {a : Array α} {i j : ℕ}
    {x y : α} (hx : a[i]? = some x) (hy : a[j]? = some y) :
    cmpIdx cmp a i j = some (cmp x y) := by
  unfold cmpIdx
  rw [hx, hy]

theorem cmp_lt_iff {α β : Type} [LinearOrder β] {f : α → β}
    {cmp : α → α → Ordering} (hcmp : ∀ a b, cmp a b = compare (f a) (f b))
    (a b : α) : cmp a b = .lt ↔ f a < f b := by
  rw [hcmp]
  exact compare_lt_iff_lt

theorem cmp_ne_lt_iff {α β : Type} [LinearOrder β] {f : α → β}
    {cmp : α → α → Ordering} (hcmp : ∀ a b, cmp a b = compare (f a) (f b))
    (a b : α) : cmp a b ≠ .lt ↔ f b ≤ f a := by
  have h := cmp_lt_iff hcmp a b
  constructor
  · intro hne
    exact not_lt.mp (fun hlt => hne (h.mpr hlt))
  · intro hle hlt
    exact absurd (h.mp hlt) (not_lt.mpr hle)

theorem cmp_gt_iff {α β : Type} [LinearOrder β] {f : α → β}
    {cmp : α → α → Ordering} (hcmp : ∀ a b, cmp a b = compare (f a) (f b))
    (a b : α) : cmp a b = .gt ↔ f b < f a := by
  rw [hcmp]
  exact compare_gt_iff_gt

theorem cmp_ne_gt_iff {α β : Type} [LinearOrder β] {f : α → β}
    {cmp : α → α → Ordering} (hcmp : ∀ a b, cmp a b = compare (f a) (f b))
    (a b : α) : cmp a b ≠ .gt ↔ f a ≤ f b := by
  have h := cmp_gt_iff hcmp a b
  constructor
  · intro hne
    exact not_lt.mp (fun hlt => hne (h.mpr hlt))
  · intro hle hlt
    exact absurd (h.mp hlt) (not_lt.mpr hle)

theorem cmpIdx_pos {α : Type} {cmp : α → α → Ordering} {a : Array α} {i j : ℕ}
    {x y : α} (hc : cmpIdx cmp a i j = some (cmp x y)) (hl : cmp x y = .lt) :
    cmpIdx cmp a i j = some Ordering.lt :=
  hc.trans (congrArg some hl)

theorem cmpIdx_neg {α : Type} {cmp : α → α → Ordering} {a : Array α} {i j : ℕ}
    {x y : α} (hc : cmpIdx cmp a i j = some (cmp x y)) (hl : cmp x y ≠ .lt) :
    ¬ (cmpIdx cmp a i j = some Ordering.lt) :=
  fun h => hl (Option.some.inj (hc.symm.trans h))

theorem mo3Arr_spec {α β : Type} [LinearOrder β] (f : α → β)
    (cmp : α → α → Ordering) (hcmp : ∀ a b, cmp a b = compare (f a) (f b))
    (arr : Array α) (mid hi : ℕ)
    (hm : mid < arr.size) (hh : hi < arr.size) (h0 : 0 < arr.size)
    (hm0 : mid ≠ 0) (hmh : mid ≠ hi) (h0h : hi ≠ 0) :
    ∃ v0 vm vh,
      (mo3Arr cmp arr mid hi)[0]? = some v0 ∧
      (mo3Arr cmp arr mid hi)[mid]? = some vm ∧
      (mo3Arr cmp arr mid hi)[hi]? = some vh ∧
      f v0 ≤ f vh ∧ f vh ≤ f vm ∧
      (mo3Arr cmp arr mid hi).size = arr.size ∧
      (mo3Arr cmp arr mid hi).toList.Perm arr.toList := by
  have hb0 : arr[0]? = some arr[0] := Array.getElem?_eq_getElem h0
  have hbm : arr[mid]? = some arr[mid] := Array.getElem?_eq_getElem hm
  have hbh : arr[hi]? = some arr[hi] := Array.getElem?_eq_getElem hh
  unfold mo3Arr
  dsimp only
  have hc1 := @cmpIdx_eq_of _ cmp _ _ _ _ _ hbm hb0
  by_cases c1 : cmp arr[mid] arr[0] = .lt
  · rw [if_pos (cmpIdx_pos hc1 c1)]
    have f1 : f arr[mid] < f arr[0] := (cmp_lt_iff hcmp _ _).mp c1
    have hs1 := swapN_getElem? arr mid 0 hm h0
    have e10 : (swapN arr mid 0)[0]? = some arr[mid] := by
      rw [hs1 0, if_pos rfl]
      exact hbm
    have e1m : (swapN arr mid 0)[mid]? = some arr[0] := by
      rw [hs1 mid, if_neg (by omega), if_pos rfl]
      exact hb0
    have e1h : (swapN arr mid 0)[hi]? = some arr[hi] := by
      rw [hs1 hi, if_neg (by omega), if_neg (by omega)]
      exact hbh
    have hsz1 : (swapN arr mid 0).size = arr.size := swapN_size _ _ _
    have hperm1 : (swapN arr mid 0).toList.Perm arr.toList := swapN_perm _ _ _
    have hc2 := @cmpIdx_eq_of _ cmp _ _ _ _ _ e1h e10
    by_cases c2 : cmp arr[hi] arr[mid] = .lt
    · rw [if_pos (cmpIdx_pos hc2 c2)]
      have f2 : f arr[hi] < f arr[mid] := (cmp_lt_iff hcmp _ _).mp c2
      have hs2 := swapN_getElem? (swapN arr mid 0) hi 0 (by omega) (by omega)
      have e20 : (swapN (swapN arr mid 0) hi 0)[0]? = some arr[hi] := by
        rw [hs2 0, if_pos rfl]
        exact e1h
      have e2m : (swapN (swapN arr mid 0) hi 0)[mid]? = some arr[0] := by
        rw [hs2 mid, if_neg (by omega), if_neg (by omega)]
        exact e1m
      have e2h : (swapN (swapN arr mid 0) hi 0)[hi]? = some arr[mid] := by
        rw [hs2 hi, if_neg (by omega), if_pos rfl]
        exact e10
      have hsz2 : (swapN (swapN arr mid 0) hi 0).size = arr.size := by
        rw [swapN_size, hsz1]
      have hperm2 := (swapN_perm (swapN arr mid 0) hi 0).trans hperm1
      have hc3 := @cmpIdx_eq_of _ cmp _ _ _ _ _ e2m e2h
      by_cases c3 : cmp arr[0] arr[mid] = .lt
      · rw [if_pos (cmpIdx_pos hc3 c3)]
        have f3 : f arr[0] < f arr[mid] := (cmp_lt_iff hcmp _ _).mp c3
        have hs3 := swapN_getElem? (swapN (swapN arr mid 0) hi 0) hi mid
          (by omega) (by omega)
        refine ⟨arr[hi], arr[mid], arr[0], ?_, ?_, ?_, ?_, ?_, ?_, ?_⟩
        · rw [hs3 0, if_neg (by omega), if_neg (by omega)]
          exact e20
        · rw [hs3 mid, if_pos rfl]
          exact e2h
        · rw [hs3 hi, if_neg (by omega), if_pos rfl]
          exact e2m
        · exact le_of_lt (lt_trans f2 f1)
        · exact le_of_lt f3
        · rw [swapN_size, hsz2]
        · exact (swapN_perm _ _ _).trans hperm2
      · rw [if_neg (cmpIdx_neg hc3 c3)]
        have f3 : f arr[mid] ≤ f arr[0] := (cmp_ne_lt_iff hcmp _ _).mp c3
        exact ⟨arr[hi], arr[0], arr[mid], e20, e2m, e2h, le_of_lt f2, f3,
          hsz2, hperm2⟩
    · rw [if_neg (cmpIdx_neg hc2 c2)]
      have f2 : f arr[mid] ≤ f arr[hi] := (cmp_ne_lt_iff hcmp _ _).mp c2
      have hc3 := @cmpIdx_eq_of _ cmp _ _ _ _ _ e1m e1h
      by_cases c3 : cmp arr[0] arr[hi] = .lt
      · rw [if_pos (cmpIdx_pos hc3 c3)]
        have f3 : f arr[0] < f arr[hi] := (cmp_lt_iff hcmp _ _).mp c3
        have hs3 := swapN_getElem? (swapN arr mid 0) hi mid (by omega) (by omega)
        refine ⟨arr[mid], arr[hi], arr[0], ?_, ?_, ?_, ?_, ?_, ?_, ?_⟩
        · rw [hs3 0, if_neg (by omega), if_neg (by omega)]
          exact e10
        · rw [hs3 mid, if_pos rfl]
          exact e1h
        · rw [hs3 hi, if_neg (by omega), if_pos rfl]
          exact e1m
        · exact le_of_lt f1
        · exact le_of_lt f3
        · rw [swapN_size, hsz1]
        · exact (swapN_perm _ _ _).trans hperm1
      · rw [if_neg (cmpIdx_neg hc3 c3)]
        have f3 : f arr[hi] ≤ f arr[0] := (cmp_ne_lt_iff hcmp _ _).mp c3
        exact ⟨arr[mid], arr[0], arr[hi], e10, e1m, e1h, f2, f3, hsz1, hperm1⟩
  · rw [if_neg (cmpIdx_neg hc1 c1)]
    have f1 : f arr[0] ≤ f arr[mid] := (cmp_ne_lt_iff hcmp _ _).mp c1
    have hc2 := @cmpIdx_eq_of _ cmp _ _ _ _ _ hbh hb0
    by_cases c2 : cmp arr[hi] arr[0] = .lt
    · rw [if_pos (cmpIdx_pos hc2 c2)]
      have f2 : f arr[hi] < f arr[0] := (cmp_lt_iff hcmp _ _).mp c2
      have hs2 := swapN_getElem? arr hi 0 hh h0
      have e20 : (swapN arr hi 0)[0]? = some arr[hi] := by
        rw [hs2 0, if_pos rfl]
        exact hbh
      have e2m : (swapN arr hi 0)[mid]? = some arr[mid] := by
        rw [hs2 mid, if_neg (by omega), if_neg (by omega)]
        exact hbm
      have e2h : (swapN arr hi 0)[hi]? = some arr[0] := by
        rw [hs2 hi, if_neg (by omega), if_pos rfl]
        exact hb0
      have hsz2 : (swapN arr hi 0).size = arr.size := swapN_size _ _ _
      have hperm2 := swapN_perm arr hi 0
      have hc3 := @cmpIdx_eq_of _ cmp _ _ _ _ _ e2m e2h
      by_cases c3 : cmp arr[mid] arr[0] = .lt
      · exact absurd c3 c1
      · rw [if_neg (cmpIdx_neg hc3 c3)]
        have f3 : f arr[0] ≤ f arr[mid] := (cmp_ne_lt_iff hcmp _ _).mp c3
        exact ⟨arr[hi], arr[mid], arr[0], e20, e2m, e2h, le_of_lt f2, f3,
          hsz2, hperm2⟩
    · rw [if_neg (cmpIdx_neg hc2 c2)]
      have f2 : f arr[0] ≤ f arr[hi] := (cmp_ne_lt_iff hcmp _ _).mp c2
      have hc3 := @cmpIdx_eq_of _ cmp _ _ _ _ _ hbm hbh
      by_cases c3 : cmp arr[mid] arr[hi] = .lt
      · rw [if_pos (cmpIdx_pos hc3 c3)]
        have f3 : f arr[mid] < f arr[hi] := (cmp_lt_iff hcmp _ _).mp c3
        have hs3 := swapN_getElem? arr hi mid hh hm
        refine ⟨arr[0], arr[hi], arr[mid], ?_, ?_, ?_, ?_, ?_, ?_, ?_⟩
        · rw [hs3 0, if_neg (by omega), if_neg (by omega)]
          exact hb0
        · rw [hs3 mid, if_pos rfl]
          exact hbh
        · rw [hs3 hi, if_neg (by omega), if_pos rfl]
          exact hbm
        · exact f1
        · exact le_of_lt f3
        · exact swapN_size _ _ _
        · exact swapN_perm _ _ _
      · rw [if_neg (cmpIdx_neg hc3 c3)]
        have f3 : f arr[hi] ≤ f arr[mid] := (cmp_ne_lt_iff hcmp _ _).mp c3
        exact ⟨arr[0], arr[mid], arr[hi], hb0, hbm, hbh, f2, f3, rfl,
          List.Perm.refl _⟩

end UrbanTraffic

namespace UrbanTraffic

theorem extract_getElem? {α : Type} (a : Array α) (hi k : ℕ) (hk : k < hi)
    (hhi : hi ≤ a.size) : (a.extract 0 hi)[k]? = a[k]? := by
  have hsz : (a.extract 0 hi).size = hi := by
    rw [Array.size_extract]
    omega
  have hk2 : k < (a.extract 0 hi).size := by omega
  rw [Array.getElem?_eq_getElem hk2, Array.getElem?_eq_getElem (by omega : k < a.size)]
  congr 1
  have h := Array.getElem_extract hk2
  simpa using h

theorem partitionM3_spec {α β : Type} [LinearOrder β] (f : α → β)
    (cmp : α → α → Ordering) (hcmp : ∀ a b, cmp a b = compare (f a) (f b))
    (arr : Array α) (hne : arr.size ≠ 0) :
    ∃ ltp p gep, partitionM3 cmp arr = some (ltp, p, gep) ∧
      (ltp ++ p :: gep).Perm arr.toList ∧
      (∀ x ∈ ltp, f x ≤ f p) ∧
      (arr.size ≠ 2 → ∀ x ∈ ltp, f x < f p) ∧
      (∀ x ∈ gep, f p ≤ f x) := by
  unfold partitionM3
  rw [if_neg hne]
  by_cases h1 : arr.size = 1
  · rw [if_pos h1]
    have h0 : 0 < arr.size := by omega
    rw [Array.getElem?_eq_getElem h0]
    have e0 : arr.toList = [arr[0]] := by
      apply List.ext_getElem
      · simp [h1]
      · intro i hi1 hi2
        have hi0 : i = 0 := by
          rw [Array.length_toList, h1] at hi1
          omega
        subst hi0
        simp [Array.getElem_toList]
    refine ⟨[], arr[0], [], rfl, ?_, by simp, by simp, by simp⟩
    rw [e0]
    exact List.Perm.refl _
  · by_cases h2 : arr.size = 2
    · rw [if_neg h1, if_pos h2]
      have hb0 : 0 < arr.size := by omega
      have hb1 : 1 < arr.size := by omega
      rw [Array.getElem?_eq_getElem hb0, Array.getElem?_eq_getElem hb1]
      have e0 : arr.toList = [arr[0], arr[1]] := by
        apply List.ext_getElem
        · simp [h2]
        · intro i hi1 hi2
          rw [Array.length_toList, h2] at hi1
          have hcase : i = 0 ∨ i = 1 := by omega
          rcases hcase with rfl | rfl
          · simp [Array.getElem_toList]
          · simp [Array.getElem_toList]
      dsimp only
      by_cases hc : cmp arr[0] arr[1] = .gt
      · rw [if_pos hc]
        have hlt : f arr[1] < f arr[0] := (cmp_gt_iff hcmp _ _).mp hc
        refine ⟨[arr[1]], arr[0], [], rfl, ?_, ?_, ?_, by simp⟩
        · rw [e0]
          exact List.Perm.swap _ _ _
        · intro x hx
          rw [List.mem_singleton] at hx
          subst hx
          exact le_of_lt hlt
        · intro habs
          exact absurd h2 habs
      · rw [if_neg hc]
        have hle : f arr[0] ≤ f arr[1] := (cmp_ne_gt_iff hcmp _ _).mp hc
        refine ⟨[arr[0]], arr[1], [], rfl, ?_, ?_, ?_, by simp⟩
        · rw [e0]
          exact List.Perm.refl _
        · intro x hx
          rw [List.mem_singleton] at hx
          subst hx
          exact hle
        · intro habs
          exact absurd h2 habs
    · rw [if_neg h1, if_neg h2]
      dsimp only
      have hsz3 : 3 ≤ arr.size := by omega
      have hmidval : arr.size >>> 1 = arr.size / 2 := by
        rw [Nat.shiftRight_eq_div_pow]
      rw [hmidval]
      have hm : arr.size / 2 < arr.size := by omega
      have hh : arr.size - 1 < arr.size := by omega
      have hm0 : arr.size / 2 ≠ 0 := by omega
      have hmh : arr.size / 2 ≠ arr.size - 1 := by omega
      have h0h : arr.size - 1 ≠ 0 := by omega
      set M := mo3Arr cmp arr (arr.size / 2) (arr.size - 1) with hMdef
      obtain ⟨v0, vm, vh, e0, em, eh, hle1, hle2, hsz, hperm⟩ :=
        mo3Arr_spec f cmp hcmp arr (arr.size / 2) (arr.size - 1) hm hh
          (by omega) hm0 hmh h0h
      rw [← hMdef] at e0 em eh hsz hperm
      rw [eh]
      dsimp only
      set E := M.extract 0 (arr.size - 1) with hEdef
      have hesz : E.size = arr.size - 1 := by
        rw [hEdef, Array.size_extract]
        omega
      have hext : ∀ k, k < arr.size - 1 → E[k]? = M[k]? := by
        intro k hk
        rw [hEdef]
        exact extract_getElem? _ _ _ hk (by omega)
      have I2 : ∀ p v, p < 0 → E[p]? = some v → cmp v vh = .lt := by
        intro p v hp
        omega
      have I3 : ∀ p v, E.size ≤ p → E[p]? = some v → cmp v vh ≠ .lt := by
        intro p v hp hpv
        have := arrGet?_lt hpv
        omega
      have I4 : ∀ v, E[0]? = some v → cmp v vh ≠ .gt := by
        intro v hv
        rw [hext 0 (by omega)] at hv
        have hveq : v0 = v := by
          have h3 := hv
          rw [e0] at h3
          exact Option.some.inj h3
        rw [← hveq]
        exact (cmp_ne_gt_iff hcmp _ _).mpr hle1
      have I5 : ∃ p v, 0 ≤ p ∧ E[p]? = some v ∧ cmp v vh ≠ .lt := by
        refine ⟨arr.size / 2, vm, by omega, ?_, (cmp_ne_lt_iff hcmp _ _).mpr hle2⟩
        rw [hext (arr.size / 2) (by omega)]
        exact em
      obtain ⟨el, i2, hloop, helsz, helperm, hi2le, hlt, hge⟩ :=
        hoareLoop_spec cmp vh (E.size + 1) E 0 E.size le_rfl (by omega)
          (by omega) I2 I3 I4 I5
      rw [hloop]
      have hlt2 : (el.extract 0 i2).toList = el.toList.take i2 := by
        rw [Array.toList_extract]
        simp
      have hge2 : (el.extract i2 el.size).toList = el.toList.drop i2 := by
        rw [Array.toList_extract]
        apply List.take_of_length_le
        simp
      refine ⟨(el.extract 0 i2).toList, vh, (el.extract i2 el.size).toList,
        rfl, ?_, ?_, ?_, ?_⟩
      · -- permutation
        rw [hlt2, hge2]
        have p1 : (el.toList.take i2 ++ vh :: el.toList.drop i2).Perm
            (vh :: (el.toList.take i2 ++ el.toList.drop i2)) := List.perm_middle
        rw [List.take_append_drop] at p1
        have helems : E.toList = M.toList.take (arr.size - 1) := by
          rw [hEdef, Array.toList_extract]
          simp
        have p2 : (vh :: el.toList).Perm
            (vh :: M.toList.take (arr.size - 1)) := by
          refine List.Perm.cons vh ?_
          rw [← helems]
          exact helperm
        have hMlen : M.toList.length = arr.size := by
          rw [Array.length_toList, hsz]
        have hMsz : arr.size - 1 < M.size := by omega
        have hMhi : M.toList.drop (arr.size - 1) = [vh] := by
          have h7 : arr.size - 1 < M.toList.length := by omega
          rw [List.drop_eq_getElem_cons h7]
          have hdn : M.toList.drop (arr.size - 1 + 1) = [] := by
            apply List.drop_eq_nil_of_le
            omega
          rw [hdn]
          have h8 := eh
          rw [Array.getElem?_eq_getElem hMsz] at h8
          have h9 : M[arr.size - 1] = vh := Option.some.inj h8
          rw [Array.getElem_toList h7, h9]
        have p3 : (vh :: M.toList.take (arr.size - 1)).Perm M.toList := by
          have p4 := List.perm_append_singleton vh (M.toList.take (arr.size - 1))
          have e4 : M.toList.take (arr.size - 1) ++ [vh] = M.toList := by
            have e5 := List.take_append_drop (arr.size - 1) M.toList
            rw [hMhi] at e5
            exact e5
          have p5 : (M.toList.take (arr.size - 1) ++ [vh]).Perm M.toList := by
            rw [e4]
          exact p4.symm.trans p5
        exact ((p1.trans p2).trans p3).trans hperm
      · intro x hx
        rw [hlt2] at hx
        obtain ⟨k, hk, hkx⟩ := List.mem_take_iff_getElem.mp hx
        have hklen : k < el.size := by
          rw [← Array.length_toList]
          omega
        have hkel : el[k]? = some x := by
          rw [Array.getElem?_eq_getElem hklen, ← Array.getElem_toList hklen]
          exact congrArg some hkx
        have hc := hlt k x (by omega) hkel
        exact le_of_lt ((cmp_lt_iff hcmp _ _).mp hc)
      · intro hne2 x hx
        rw [hlt2] at hx
        obtain ⟨k, hk, hkx⟩ := List.mem_take_iff_getElem.mp hx
        have hklen : k < el.size := by
          rw [← Array.length_toList]
          omega
        have hkel : el[k]? = some x := by
          rw [Array.getElem?_eq_getElem hklen, ← Array.getElem_toList hklen]
          exact congrArg some hkx
        have hc := hlt k x (by omega) hkel
        exact (cmp_lt_iff hcmp _ _).mp hc
      · intro x hx
        rw [hge2] at hx
        obtain ⟨k, hk, hkx⟩ := List.mem_iff_getElem.mp hx
        have hlen5 : el.toList.length = el.size := Array.length_toList
        have hklen : i2 + k < el.toList.length := by
          have h5 := hk
          rw [List.length_drop] at h5
          omega
        have hkval : el.toList[i2 + k] = x := by
          rw [← hkx]
          exact (List.getElem_drop el.toList).symm
        have hklen2 : i2 + k < el.size := by
          rw [← Array.length_toList]
          omega
        have hkel : el[i2 + k]? = some x := by
          rw [Array.getElem?_eq_getElem hklen2, ← Array.getElem_toList hklen2]
          exact congrArg some hkval
        have hc := hge (i2 + k) x (by omega) hkel
        exact (cmp_ne_lt_iff hcmp _ _).mp hc

end UrbanTraffic

namespace UrbanTraffic

/-- `ucmp` is the `compare` of the natural-number order. -/
theorem ucmp_eq_compare (a b : ℕ) : ucmp a b = compare a b := by
  unfold ucmp
  rcases lt_trichotomy a b with h | h | h
  · rw [if_pos h]
    exact (compare_lt_iff_lt.mpr h).symm
  · subst h
    rw [if_neg (lt_irrefl a), if_pos rfl]
    exact (compare_eq_iff_eq.mpr rfl).symm
  · rw [if_neg (by omega), if_neg (by omega)]
    exact (compare_gt_iff_gt.mpr h).symm

/-- C2, corrected.  As stated the claim is false: on a two-element input whose
elements compare equal (see `claim_C2_counterexample`), the partition puts one
of the equal elements in the left part, so a left element need not be strictly
below the pivot.  Amended statement: for any comparator that agrees with
`compare` on a key `f`, a zero-length input aborts, and a non-empty input
yields parts `(ltp, p, gep)` that permute the input, with every left element
at most the pivot — strictly below it whenever the input length is not 2 —
and every right element at least the pivot. -/
theorem claim_C2 {α β : Type} [LinearOrder β] (f : α → β)
    (cmp : α → α → Ordering) (hcmp : ∀ a b, cmp a b = compare (f a) (f b))
    (arr : Array α) :
    (arr.size = 0 → partitionM3 cmp arr = none) ∧
    (arr.size ≠ 0 →
      ∃ ltp p gep, partitionM3 cmp arr = some (ltp, p, gep) ∧
        (ltp ++ p :: gep).Perm arr.toList ∧
        (∀ x ∈ ltp, f x ≤ f p) ∧
        (arr.size ≠ 2 → ∀ x ∈ ltp, f x < f p) ∧
        (∀ x ∈ gep, f p ≤ f x)) := by
  constructor
  · intro h
    unfold partitionM3
    rw [if_pos h]
  · exact partitionM3_spec f cmp hcmp arr

/-- Counterexample to C2 as literally stated: on the length-2 input `[5, 5]`
the partition returns left part `[5]`, pivot `5`, right part `[]`, and the
left element `5` is not strictly less than the pivot `5`. -/
theorem claim_C2_counterexample :
    partitionM3 ucmp (List.toArray [5, 5]) = some ([5], 5, []) ∧
    (5 : ℕ) ∈ [(5 : ℕ)] ∧ ¬ ((5 : ℕ) < 5) := by
  refine ⟨by decide, by decide, by decide⟩

/-- Witness for the amended C2 at the concrete input `[3, 1, 2]` with the
identity key. -/
theorem claim_C2_witness :
    partitionM3 ucmp (List.toArray [3, 1, 2]) = some ([1], 2, [3]) ∧
    ((List.toArray ([3, 1, 2] : List ℕ)).size = 0 →
      partitionM3 ucmp (List.toArray [3, 1, 2]) = none) ∧
    ((List.toArray ([3, 1, 2] : List ℕ)).size ≠ 0 →
      ∃ ltp p gep,
        partitionM3 ucmp (List.toArray [3, 1, 2]) = some (ltp, p, gep) ∧
        (ltp ++ p :: gep).Perm (List.toArray ([3, 1, 2] : List ℕ)).toList ∧
        (∀ x ∈ ltp, id x ≤ id p) ∧
        ((List.toArray ([3, 1, 2] : List ℕ)).size ≠ 2 →
          ∀ x ∈ ltp, id x < id p) ∧
        (∀ x ∈ gep, id p ≤ id x)) := by
  refine ⟨by decide, ?_, ?_⟩
  · exact (claim_C2 id ucmp ucmp_eq_compare (List.toArray [3, 1, 2])).1
  · exact (claim_C2 id ucmp ucmp_eq_compare (List.toArray [3, 1, 2])).2

end UrbanTraffic

namespace UrbanTraffic

/-! ## kd-tree construction and k-nearest-neighbour query (kd_tree.rs)

Records are a type `α` together with a coordinate projection
`pos : α → UTMCoordinates`, modelling Rust's `T: AsRef<UTMCoordinates>`.
The kNN buffer slot type `(Option<&T>, f64)` becomes
`Option α × WithTop ℚ`, with `⊤` for the `f64::INFINITY` sentinel (every
distance actually stored is finite, and the claims assume non-NaN input). -/

/-- The coordinate selected by the `y_axis` flag. -/
def axisv (yAxis : Bool) (c : UTMCoordinates) : ℚ :=
  if yAxis then c.y else c.x

/-- kd_tree.rs `coords_cmp`; `partial_cmp(..).unwrap()` on non-NaN doubles is
the total comparison. -/
def coords_cmp (a b : UTMCoordinates) (yAxis : Bool) : Ordering :=
  if yAxis then compare a.y b.y else compare a.x b.x

/-- kd_tree.rs `coords_lt`. -/
def coords_lt (a b : UTMCoordinates) (yAxis : Bool) : Bool :=
  if yAxis then decide (a.y < b.y) else decide (a.x < b.x)

/-- kd_tree.rs `TreeNode` (with `nil` for an absent `Option<Box<TreeNode>>`
child, so a whole tree is also the root field of `UTMTree`). -/
inductive KTree (α : Type) where
  | nil : KTree α
  | node : α → KTree α → KTree α → KTree α
deriving DecidableEq, Repr

/-- `Option::is_none` of a child pointer. -/
def KTree.isNil {α : Type} : KTree α → Bool
  | .nil => true
  | .node _ _ _ => false

/-- In-order list of the records stored in a tree. -/
def KTree.recs {α : Type} : KTree α → List α
  | .nil => []
  | .node d l r => l.recs ++ d :: r.recs

/-- kd_tree.rs `TreeNode::new`, with explicit recursion fuel (the partition
output is strictly shorter than its input, so fuel `len + 1` always
suffices); `none` models a panic inside `partition`, which never occurs. -/
def buildTree {α : Type} (pos : α → UTMCoordinates) :
    ℕ → List α → Bool → Option (KTree α)
  | 0, _, _ => none
  | _ + 1, [], _ => some .nil
  | _ + 1, [a], _ => some (.node a .nil .nil)
  | _ + 1, [a, b], y =>
    if coords_lt (pos b) (pos a) y then some (.node a (.node b .nil .nil) .nil)
    else some (.node a .nil (.node b .nil .nil))
  | fuel + 1, a :: b :: c :: rest, y =>
    match partitionM3 (fun e1 e2 => coords_cmp (pos e1) (pos e2) y)
        (a :: b :: c :: rest).toArray with
    | none => none
    | some (lt, p, ge) =>
      match buildTree pos fuel lt (!y), buildTree pos fuel ge (!y) with
      | some l, some r => some (.node p l r)
      | _, _ => none

/-- kd_tree.rs `UTMTree::new`: collect the records in order and build from
the X axis. -/
def utmTreeNew {α : Type} (pos : α → UTMCoordinates) (data : List α) :
    Option (KTree α) :=
  buildTree pos (data.length + 1) data false

/-- The insertion step of `TreeNode::nearest_neighbors`: Rust
`binary_search_by` with a comparator that never returns `Equal` (so
`unwrap_err` cannot panic), then, if the insertion point is inside the
buffer, a shift-insert that drops the last slot. -/
def insertBest {α : Type} (best : List (Option α × WithTop ℚ)) (dat : α)
    (d : ℚ) : Option (List (Option α × WithTop ℚ)) :=
  match rustBinSearch
      (fun x => if x.2 ≤ (d : WithTop ℚ) then Ordering.lt else Ordering.gt)
      best with
  | some (.inr idx) =>
    if idx < best.length then
      some ((best.take idx ++ (some dat, (d : WithTop ℚ)) :: best.drop idx).take
        best.length)
    else some best
  | _ => none

/-- kd_tree.rs `TreeNode::nearest_neighbors` (the recursive query).  `none`
models a panic: `best.last().unwrap()` on an empty buffer (prevented by the
`k = 0` guard of the public wrapper) or a panic inside the insertion step. -/
def nnNode {α : Type} (pos : α → UTMCoordinates) :
    KTree α → UTMCoordinates → List (Option α × WithTop ℚ) → Bool → ℚ →
      Option (List (Option α × WithTop ℚ))
  | .nil, _, best, _, _ => some best
  | .node dat l r, query, best, yAxis, maxDist =>
    let lft := coords_lt query (pos dat) yAxis
    match (if lft then nnNode pos l query best (!yAxis) maxDist
           else nnNode pos r query best (!yAxis) maxDist) with
    | none => none
    | some best1 =>
      let d := squaredDist (pos dat) query
      match (if d < maxDist then insertBest best1 dat d else some best1) with
      | none => none
      | some best2 =>
        if (lft && !r.isNil) || (!lft && !l.isNil) then
          let sep := if yAxis then
                       (query.y - (pos dat).y) * (query.y - (pos dat).y)
                     else (query.x - (pos dat).x) * (query.x - (pos dat).x)
          if sep < maxDist then
            match best2.getLast? with
            | none => none
            | some lastSlot =>
              if (sep : WithTop ℚ) ≤ lastSlot.2 then
                if lft then nnNode pos r query best2 (!yAxis) maxDist
                else nnNode pos l query best2 (!yAxis) maxDist
              else some best2
          else some best2
        else some best2

/-- kd_tree.rs `UTMTree::nearest_neighbors`: fill the output with the
`(None, ∞)` sentinel, return at once when `k = 0`, else query from the root
(when there is one) with the squared threshold. -/
def nearestNeighbors {α : Type} (pos : α → UTMCoordinates) (t : KTree α)
    (query : UTMCoordinates) (k : ℕ) (maxDist : ℚ) :
    Option (List (Option α × WithTop ℚ)) :=
  let out : List (Option α × WithTop ℚ) := List.replicate k (none, ⊤)
  if k = 0 then some out
  else
    match t with
    | .nil => some out
    | .node dat l r =>
      nnNode pos (.node dat l r) query out false (maxDist * maxDist)

/-- kd_tree.rs `UTMTree::collect_nearest`: run the query into a fresh buffer
of `k` sentinels and retain the filled slots. -/
def collectNearest {α : Type} (pos : α → UTMCoordinates) (t : KTree α)
    (query : UTMCoordinates) (k : ℕ) (maxDist : ℚ) :
    Option (List (Option α × WithTop ℚ)) :=
  (nearestNeighbors pos t query k maxDist).map
    (List.filter (fun nn => nn.1.isSome))

/-- kd-tree ordering invariant established by construction: at a node split
on axis `y`, every left-subtree record is strictly below the node on that
axis, every right-subtree record at least the node, and each child satisfies
the invariant on the other axis. -/
def TreeInv {α : Type} (pos : α → UTMCoordinates) : KTree α → Bool → Prop
  | .nil, _ => True
  | .node d l r, y =>
    (∀ x ∈ l.recs, axisv y (pos x) < axisv y (pos d)) ∧
    (∀ x ∈ r.recs, axisv y (pos d) ≤ axisv y (pos x)) ∧
    TreeInv pos l (!y) ∧ TreeInv pos r (!y)

/-- A record paired with its squared distance to the query point. -/
def distPair {α : Type} (pos : α → UTMCoordinates) (q : UTMCoordinates)
    (x : α) : α × ℚ :=
  (x, squaredDist (pos x) q)

/-- Comparison of record/distance pairs by distance. -/
def keyLE {α : Type} (p r : α × ℚ) : Prop := p.2 ≤ r.2

instance {α : Type} : DecidableRel (@keyLE α) :=
  fun p r => inferInstanceAs (Decidable (p.2 ≤ r.2))

instance {α : Type} : IsTotal (α × ℚ) keyLE :=
  ⟨fun p r => le_total p.2 r.2⟩

instance {α : Type} : IsTrans (α × ℚ) keyLE :=
  ⟨fun _ _ _ h1 h2 => le_trans h1 h2⟩

/-- Strict version of `keyLE`. -/
def keyLT {α : Type} (p r : α × ℚ) : Prop := p.2 < r.2

instance {α : Type} : IsAntisymm (α × ℚ) keyLT :=
  ⟨fun _ _ h1 h2 => absurd (lt_trans h1 h2) (lt_irrefl _)⟩

/-- The running sorted list of qualifying (record, squared distance) pairs:
the canonical abstraction of the kNN buffer contents after a list of records
has been offered to it. -/
def sortQ {α : Type} (pos : α → UTMCoordinates) (q : UTMCoordinates) (m : ℚ)
    (A : List α) : List (α × ℚ) :=
  A.foldl (fun acc x =>
    if squaredDist (pos x) q < m then
      List.orderedInsert keyLE (distPair pos q x) acc
    else acc) []

/-- The slot a qualifying pair occupies in the buffer. -/
def slotOf {α : Type} (p : α × ℚ) : Option α × WithTop ℚ :=
  (some p.1, (p.2 : WithTop ℚ))

/-- The buffer contents determined by a sorted qualifying list: the first `k`
pairs, then sentinel padding. -/
def bufK {α : Type} (k : ℕ) (s : List (α × ℚ)) :
    List (Option α × WithTop ℚ) :=
  (s.take k).map slotOf ++
    List.replicate (k - (s.take k).length)
      ((none : Option α), (⊤ : WithTop ℚ))

/-- Spec-modelled brute force ("filter-and-sort"): keep the records strictly
inside the squared-distance bound, sort ascending by squared distance, keep
the first `k`, and pad with sentinels. -/
def bruteNN {α : Type} (pos : α → UTMCoordinates) (q : UTMCoordinates)
    (k : ℕ) (m : ℚ) (A : List α) : List (Option α × WithTop ℚ) :=
  bufK k (List.insertionSort keyLE
    ((A.filter (fun x => decide (squaredDist (pos x) q < m))).map
      (distPair pos q)))

/-- All records lie at pairwise different squared distances from `q`. -/
def sepDists {α : Type} (pos : α → UTMCoordinates) (q : UTMCoordinates)
    (A : List α) : Prop :=
  List.Pairwise (fun a b => squaredDist (pos a) q ≠ squaredDist (pos b) q) A

end UrbanTraffic

namespace UrbanTraffic

/-- `coords_lt` is the strict comparison of the selected axis coordinate. -/
theorem coords_lt_eq (a b : UTMCoordinates) (y : Bool) :
    coords_lt a b y = decide (axisv y a < axisv y b) := by
  cases y <;> rfl

/-- `coords_cmp` is `compare` on the selected axis coordinate. -/
theorem coords_cmp_eq (a b : UTMCoordinates) (y : Bool) :
    coords_cmp a b y = compare (axisv y a) (axisv y b) := by
  cases y <;> rfl

/-- Rust binary search on a list that is partitioned with respect to the
comparator (`lt` strictly before index `c`, `gt` from there on) homes in on
the partition point `c` and reports it as `Err c`. -/
theorem rbsGo_partition {α : Type} (f : α → Ordering) (l : List α) (c : ℕ)
    (hpart : ∀ i (h : i < l.length),
      f l[i] = if i < c then Ordering.lt else Ordering.gt) :
    ∀ fuel left size, left ≤ c → c ≤ left + size → left + size ≤ l.length →
      size < fuel → rbsGo f l left size fuel = some (.inr c) := by
  intro fuel
  induction fuel with
  | zero => intro left size _ _ _ h; omega
  | succ fuel ih =>
    intro left size hlo hhi hwin hsz
    unfold rbsGo
    by_cases h0 : size = 0
    · rw [if_pos h0]
      have : left = c := by omega
      rw [this]
    · rw [if_neg h0]
      have hmid : left + size / 2 < l.length := by omega
      rw [List.getElem?_eq_getElem hmid]
      dsimp only
      rw [hpart (left + size / 2) hmid]
      by_cases hc : left + size / 2 < c
      · rw [if_pos hc]
        exact ih (left + size / 2 + 1) (size - size / 2 - 1) (by omega)
          (by omega) (by omega) (by omega)
      · rw [if_neg hc]
        exact ih left (size / 2) hlo (by omega) (by omega) (by omega)

/-- `slice::binary_search_by` on a partitioned list returns `Err` at the
partition point. -/
theorem rustBinSearch_partition {α : Type} (f : α → Ordering) (l : List α)
    (c : ℕ) (hc : c ≤ l.length)
    (hpart : ∀ i (h : i < l.length),
      f l[i] = if i < c then Ordering.lt else Ordering.gt) :
    rustBinSearch f l = some (.inr c) :=
  rbsGo_partition f l c hpart (l.length + 1) 0 l.length (by omega) (by omega)
    (by omega) (by omega)

end UrbanTraffic

namespace UrbanTraffic

/-- Unfolding of `buildTree` on a two-element list. -/
theorem buildTree_two {α : Type} (pos : α → UTMCoordinates) (fuel : ℕ)
    (a b : α) (y : Bool) :
    buildTree pos (fuel + 1) [a, b] y =
      if coords_lt (pos b) (pos a) y = true
      then some (KTree.node a (.node b .nil .nil) .nil)
      else some (KTree.node a .nil (.node b .nil .nil)) := rfl

/-- Unfolding of `buildTree` on a list of three or more elements. -/
theorem buildTree_cons3 {α : Type} (pos : α → UTMCoordinates) (fuel : ℕ)
    (a b c : α) (rest : List α) (y : Bool) :
    buildTree pos (fuel + 1) (a :: b :: c :: rest) y =
      match partitionM3 (fun e1 e2 => coords_cmp (pos e1) (pos e2) y)
          (a :: b :: c :: rest).toArray with
      | none => none
      | some (lt, p, ge) =>
        match buildTree pos fuel lt (!y), buildTree pos fuel ge (!y) with
        | some l, some r => some (.node p l r)
        | _, _ => none := rfl

/-- `TreeNode::new` with enough fuel succeeds, stores exactly the given
records, and establishes the kd-tree ordering invariant. -/
theorem buildTree_spec {α : Type} (pos : α → UTMCoordinates) :
    ∀ (fuel : ℕ) (refs : List α) (y : Bool), refs.length < fuel →
      ∃ t, buildTree pos fuel refs y = some t ∧ t.recs.Perm refs ∧
        TreeInv pos t y := by
  intro fuel
  induction fuel with
  | zero => intro refs y h; exact absurd h (Nat.not_lt_zero _)
  | succ fuel ih =>
    intro refs y hlen
    match refs with
    | [] =>
      refine ⟨.nil, rfl, ?_, trivial⟩
      simp [KTree.recs]
    | [a] =>
      refine ⟨.node a .nil .nil, rfl, ?_, ?_, ?_, trivial, trivial⟩
      · simp [KTree.recs]
      · simp [KTree.recs]
      · simp [KTree.recs]
    | [a, b] =>
      by_cases hlt : coords_lt (pos b) (pos a) y = true
      · refine ⟨.node a (.node b .nil .nil) .nil, ?_, ?_, ?_, ?_, ?_, trivial⟩
        · rw [buildTree_two, if_pos hlt]
        · simpa [KTree.recs] using List.Perm.swap a b []
        · intro x hx
          simp [KTree.recs] at hx
          subst hx
          rw [coords_lt_eq] at hlt
          exact of_decide_eq_true hlt
        · simp [KTree.recs]
        · exact ⟨by simp [KTree.recs], by simp [KTree.recs], trivial, trivial⟩
      · refine ⟨.node a .nil (.node b .nil .nil), ?_, ?_, ?_, ?_, trivial, ?_⟩
        · rw [buildTree_two, if_neg hlt]
        · simp [KTree.recs]
        · simp [KTree.recs]
        · intro x hx
          simp [KTree.recs] at hx
          subst hx
          rw [coords_lt_eq, decide_eq_true_eq] at hlt
          exact le_of_not_lt hlt
        · exact ⟨by simp [KTree.recs], by simp [KTree.recs], trivial, trivial⟩
    | a :: b :: c :: rest =>
      have hsz : (a :: b :: c :: rest).toArray.size ≠ 0 := by
        simp
      obtain ⟨ltp, p, gep, heq, hperm, _hle, hstrict, hge⟩ :=
        partitionM3_spec (fun e => axisv y (pos e))
          (fun e1 e2 => coords_cmp (pos e1) (pos e2) y)
          (fun u v => coords_cmp_eq (pos u) (pos v) y)
          (a :: b :: c :: rest).toArray hsz
      rw [Array.toList_toArray] at hperm
      have hlens := hperm.length_eq
      simp at hlens
      have hl1 : ltp.length < fuel := by
        simp at hlen; omega
      have hl2 : gep.length < fuel := by
        simp at hlen; omega
      obtain ⟨tl, htl, htlp, htli⟩ := ih ltp (!y) hl1
      obtain ⟨tr, htr, htrp, htri⟩ := ih gep (!y) hl2
      have hne2 : (a :: b :: c :: rest).toArray.size ≠ 2 := by
        simp
      refine ⟨.node p tl tr, ?_, ?_, ?_, ?_, htli, htri⟩
      · rw [buildTree_cons3, heq]
        dsimp only
        rw [htl, htr]
      · show (tl.recs ++ p :: tr.recs).Perm (a :: b :: c :: rest)
        exact (htlp.append (htrp.cons p)).trans hperm
      · intro x hx
        exact hstrict hne2 x (htlp.mem_iff.mp hx)
      · intro x hx
        exact hge x (htrp.mem_iff.mp hx)

end UrbanTraffic

namespace UrbanTraffic

/-- Offering one more record to the running sorted list either inserts its
pair in order (when it qualifies) or leaves the list unchanged. -/
theorem sortQ_snoc {α : Type} (pos : α → UTMCoordinates) (q : UTMCoordinates)
    (m : ℚ) (A : List α) (x : α) :
    sortQ pos q m (A ++ [x]) =
      if squaredDist (pos x) q < m then
        List.orderedInsert keyLE (distPair pos q x) (sortQ pos q m A)
      else sortQ pos q m A := by
  simp only [sortQ, List.foldl_append, List.foldl_cons, List.foldl_nil]

/-- The running list is sorted by distance. -/
theorem sortQ_sorted {α : Type} (pos : α → UTMCoordinates)
    (q : UTMCoordinates) (m : ℚ) (A : List α) :
    (sortQ pos q m A).Sorted keyLE := by
  induction A using List.reverseRecOn with
  | nil => exact List.sorted_nil
  | append_singleton B x ih =>
    rw [sortQ_snoc]
    by_cases h : squaredDist (pos x) q < m
    · rw [if_pos h]
      exact List.Sorted.orderedInsert _ _ ih
    · rw [if_neg h]
      exact ih

/-- The running list is a permutation of the filtered, distance-paired
records. -/
theorem sortQ_perm {α : Type} (pos : α → UTMCoordinates) (q : UTMCoordinates)
    (m : ℚ) (A : List α) :
    (sortQ pos q m A).Perm
      ((A.filter (fun x => decide (squaredDist (pos x) q < m))).map
        (distPair pos q)) := by
  induction A using List.reverseRecOn with
  | nil => simp [sortQ]
  | append_singleton B x ih =>
    rw [sortQ_snoc]
    by_cases h : squaredDist (pos x) q < m
    · rw [if_pos h]
      simp only [List.filter_append, List.filter_cons, List.filter_nil,
        decide_eq_true h, if_pos, List.map_append, List.map_cons,
        List.map_nil]
      exact (List.perm_orderedInsert _ _ _).trans
        ((ih.cons _).trans (List.perm_append_singleton _ _).symm)
    · rw [if_neg h]
      simp only [List.filter_append, List.filter_cons, List.filter_nil,
        decide_eq_false h, Bool.false_eq_true, if_false, List.append_nil]
      exact ih

/-- Membership in the running list. -/
theorem mem_sortQ {α : Type} {pos : α → UTMCoordinates} {q : UTMCoordinates}
    {m : ℚ} {A : List α} {p : α × ℚ} :
    p ∈ sortQ pos q m A ↔
      p.1 ∈ A ∧ squaredDist (pos p.1) q < m ∧ p.2 = squaredDist (pos p.1) q := by
  rw [(sortQ_perm pos q m A).mem_iff]
  constructor
  · intro h
    obtain ⟨x, hx, hpx⟩ := List.mem_map.mp h
    obtain ⟨hxa, hq⟩ := List.mem_filter.mp hx
    subst hpx
    exact ⟨hxa, of_decide_eq_true hq, rfl⟩
  · intro ⟨h1, h2, h3⟩
    refine List.mem_map.mpr ⟨p.1, List.mem_filter.mpr ⟨h1, decide_eq_true h2⟩, ?_⟩
    unfold distPair
    exact Prod.ext rfl h3.symm

/-- Under pairwise-distinct distances the running list has pairwise-distinct
keys. -/
theorem sortQ_keys_nodup {α : Type} {pos : α → UTMCoordinates}
    {q : UTMCoordinates} (m : ℚ) {A : List α} (hsep : sepDists pos q A) :
    (sortQ pos q m A).Pairwise (fun p r => p.2 ≠ r.2) := by
  rw [List.Perm.pairwise_iff (fun h => Ne.symm h) (sortQ_perm pos q m A)]
  rw [List.pairwise_map]
  exact List.Pairwise.filter _ hsep

/-- Two sorted pair lists that are permutations of one another and have
pairwise-distinct keys are equal. -/
theorem sorted_eq_of_perm {α : Type} {l1 l2 : List (α × ℚ)}
    (h1 : l1.Sorted keyLE) (h2 : l2.Sorted keyLE) (hp : l1.Perm l2)
    (hnd : l2.Pairwise (fun p r => p.2 ≠ r.2)) : l1 = l2 := by
  have hnd1 : l1.Pairwise (fun p r : α × ℚ => p.2 ≠ r.2) := by
    rw [List.Perm.pairwise_iff (fun h => Ne.symm h) hp]
    exact hnd
  have hs1 : l1.Pairwise keyLT :=
    (h1.and hnd1).imp (fun h => lt_of_le_of_ne h.1 h.2)
  have hs2 : l2.Pairwise keyLT :=
    (h2.and hnd).imp (fun h => lt_of_le_of_ne h.1 h.2)
  exact List.eq_of_perm_of_sorted hp hs1 hs2

/-- The running sorted list does not depend on the order in which records are
offered, provided all distances are distinct. -/
theorem sortQ_perm_eq {α : Type} {pos : α → UTMCoordinates}
    {q : UTMCoordinates} (m : ℚ) {A B : List α} (hAB : A.Perm B)
    (hsep : sepDists pos q B) :
    sortQ pos q m A = sortQ pos q m B := by
  refine sorted_eq_of_perm (sortQ_sorted pos q m A) (sortQ_sorted pos q m B)
    ?_ (sortQ_keys_nodup m hsep)
  exact (sortQ_perm pos q m A).trans
    (((hAB.filter _).map _).trans (sortQ_perm pos q m B).symm)

/-- The brute-force filter-and-sort buffer is the buffer of the running
sorted list, for pairwise-distinct distances. -/
theorem bruteNN_eq_bufK {α : Type} {pos : α → UTMCoordinates}
    {q : UTMCoordinates} (k : ℕ) (m : ℚ) {A : List α}
    (hsep : sepDists pos q A) :
    bruteNN pos q k m A = bufK k (sortQ pos q m A) := by
  unfold bruteNN
  congr 1
  refine sorted_eq_of_perm (List.sorted_insertionSort keyLE _)
    (sortQ_sorted pos q m A) ?_ (sortQ_keys_nodup m hsep)
  exact (List.perm_insertionSort keyLE _).trans (sortQ_perm pos q m A).symm

end UrbanTraffic

namespace UrbanTraffic

/-- The buffer always has length `k`. -/
theorem bufK_length {α : Type} (k : ℕ) (s : List (α × ℚ)) :
    (bufK k s).length = k := by
  simp only [bufK, List.length_append, List.length_map, List.length_take,
    List.length_replicate]
  omega

/-- Buffers agree when the first `k` pairs agree. -/
theorem bufK_congr {α : Type} (k : ℕ) {s1 s2 : List (α × ℚ)}
    (h : s1.take k = s2.take k) : bufK k s1 = bufK k s2 := by
  unfold bufK
  rw [h]

/-- Elementwise description of the buffer. -/
theorem bufK_getElem? {α : Type} (k : ℕ) (s : List (α × ℚ)) (i : ℕ) :
    (bufK k s)[i]? =
      if i < min k s.length then Option.map slotOf s[i]?
      else if i < k then some ((none : Option α), (⊤ : WithTop ℚ))
      else none := by
  simp only [bufK, List.getElem?_append, List.length_map, List.length_take,
    List.getElem?_map, List.getElem?_take, List.getElem?_replicate]
  by_cases h1 : i < min k s.length
  · rw [if_pos h1, if_pos h1, if_pos (show i < k by omega)]
  · rw [if_neg h1, if_neg h1]
    by_cases h2 : i < k
    · rw [if_pos (show i - min k s.length < k - min k s.length by omega),
        if_pos h2]
    · rw [if_neg (show ¬ i - min k s.length < k - min k s.length by omega),
        if_neg h2]

/-- Elementwise description of inserting a value at position `c`. -/
theorem insertAt_getElem? {β : Type} (l : List β) (c : ℕ) (hc : c ≤ l.length)
    (v : β) (j : ℕ) :
    (l.take c ++ v :: l.drop c)[j]? =
      if j < c then l[j]? else if j = c then some v else l[j - 1]? := by
  rw [List.getElem?_append]
  simp only [List.length_take]
  by_cases h1 : j < c
  · rw [if_pos (show j < min c l.length by omega), if_pos h1,
      List.getElem?_take, if_pos h1]
  · rw [if_neg (show ¬ j < min c l.length by omega), if_neg h1]
    by_cases h2 : j = c
    · subst h2
      rw [if_pos rfl]
      have : j - min j l.length = 0 := by omega
      rw [this, List.getElem?_cons_zero]
    · rw [if_neg h2]
      have h3 : j - min c l.length = (j - c - 1) + 1 := by omega
      rw [h3, List.getElem?_cons_succ, List.getElem?_drop]
      congr 1
      omega

/-- In a sorted list with no key equal to `d`, the entries with key below `d`
are exactly the first `countP` entries. -/
theorem sorted_count_iff {α : Type} {t : List (α × ℚ)} (hs : t.Sorted keyLE)
    {d : ℚ} (hd : ∀ p ∈ t, p.2 ≠ d) :
    ∀ i (h : i < t.length),
      (t[i].2 < d ↔ i < t.countP (fun p => decide (p.2 < d))) := by
  induction t with
  | nil => intro i h; simp at h
  | cons a t ih =>
    rw [List.sorted_cons] at hs
    obtain ⟨ha, hs'⟩ := hs
    intro i h
    rw [List.countP_cons]
    match i with
    | 0 =>
      simp only [List.getElem_cons_zero]
      constructor
      · intro hlt
        rw [if_pos (decide_eq_true hlt)]
        omega
      · intro hpos
        by_cases had : a.2 < d
        · exact had
        · rw [if_neg (by simpa using had)] at hpos
          have hcp : 0 < List.countP (fun p => decide (p.2 < d)) t := by omega
          obtain ⟨p, hp, hpd⟩ := List.countP_pos.mp hcp
          exact absurd (lt_of_le_of_lt (ha p hp) (of_decide_eq_true hpd))
            had
    | i + 1 =>
      simp only [List.getElem_cons_succ]
      by_cases had : a.2 < d
      · rw [if_pos (decide_eq_true had)]
        rw [ih hs' (fun p hp => hd p (List.mem_cons_of_mem a hp)) i
          (by simp only [List.length_cons] at h; omega)]
        omega
      · rw [if_neg (by simpa using had)]
        have hgt : d < a.2 :=
          lt_of_le_of_ne (le_of_not_lt had) (Ne.symm (hd a (List.mem_cons_self a t)))
        have hz : t.countP (fun p => decide (p.2 < d)) = 0 := by
          rw [List.countP_eq_zero]
          intro p hp
          simp only [decide_eq_true_eq]
          exact not_lt_of_le (le_of_lt (lt_of_lt_of_le hgt (ha p hp)))
        rw [hz]
        constructor
        · intro hlt
          exact absurd (lt_trans hgt (lt_of_le_of_lt (ha _ (by
            exact List.getElem_mem _)) hlt)) (lt_irrefl _)
        · omega

end UrbanTraffic

namespace UrbanTraffic

/-- In a sorted list with no key equal to `d`, ordered insertion of a pair
with key `d` lands exactly after the entries with key below `d`. -/
theorem orderedInsert_eq_take_drop {α : Type} {s : List (α × ℚ)}
    (hs : s.Sorted keyLE) {d : ℚ} (hd : ∀ p ∈ s, p.2 ≠ d) (x : α) :
    List.orderedInsert keyLE (x, d) s =
      s.take (s.countP fun p => decide (p.2 < d)) ++
        (x, d) :: s.drop (s.countP fun p => decide (p.2 < d)) := by
  induction s with
  | nil => rfl
  | cons a s ih =>
    rw [List.sorted_cons] at hs
    obtain ⟨ha, hs'⟩ := hs
    rw [List.countP_cons]
    by_cases had : a.2 < d
    · rw [if_pos (decide_eq_true had)]
      simp only [List.orderedInsert]
      rw [if_neg (show ¬ keyLE (x, d) a from not_le.mpr had)]
      rw [List.take_succ_cons, List.drop_succ_cons, List.cons_append]
      congr 1
      exact ih hs' (fun p hp => hd p (List.mem_cons_of_mem a hp))
    · rw [if_neg (by simpa using had)]
      have hgt : d < a.2 :=
        lt_of_le_of_ne (le_of_not_lt had)
          (Ne.symm (hd a (List.mem_cons_self a s)))
      have hz : s.countP (fun p => decide (p.2 < d)) = 0 := by
        rw [List.countP_eq_zero]
        intro p hp
        simp only [decide_eq_true_eq]
        exact not_lt_of_le (le_of_lt (lt_of_lt_of_le hgt (ha p hp)))
      rw [hz]
      simp only [List.orderedInsert]
      rw [if_pos (show keyLE (x, d) a from le_of_lt hgt)]
      simp

set_option maxHeartbeats 1000000 in
/-- When fewer than `k` entries of the first `k` lie below `d`, no later
entry does either. -/
theorem countP_full_of_lt {α : Type} {s : List (α × ℚ)} (hs : s.Sorted keyLE)
    {d : ℚ} (hd : ∀ p ∈ s, p.2 ≠ d) {k : ℕ}
    (h : (s.take k).countP (fun p => decide (p.2 < d)) < k) :
    s.countP (fun p => decide (p.2 < d)) =
      (s.take k).countP (fun p => decide (p.2 < d)) := by
  have hcle : (s.take k).countP (fun p => decide (p.2 < d)) ≤
      (s.take k).length := List.countP_le_length _
  have hsub : (s.take k).Sublist s := List.take_sublist k s
  have hcleS : (s.take k).countP (fun p => decide (p.2 < d)) ≤
      s.countP (fun p => decide (p.2 < d)) := hsub.countP_le _
  by_cases h1 : (s.take k).countP (fun p => decide (p.2 < d)) <
      (s.take k).length
  · have hlen : (s.take k).countP (fun p => decide (p.2 < d)) < s.length := by
      rw [List.length_take] at h1
      omega
    have hst : (s.take k).Sorted keyLE := List.Pairwise.sublist hsub hs
    have hdt : ∀ p ∈ s.take k, p.2 ≠ d := fun p hp => hd p (hsub.subset hp)
    have hT := sorted_count_iff hst hdt
      ((s.take k).countP (fun p => decide (p.2 < d))) h1
    rw [List.getElem_take] at hT
    have hS := sorted_count_iff hs hd
      ((s.take k).countP (fun p => decide (p.2 < d))) hlen
    by_contra hne
    have h3 := hS.mpr (by omega)
    have h4 := hT.mp h3
    omega
  · have hlt : s.length ≤ k := by
      rw [List.length_take] at h1 hcle
      omega
    rw [List.take_of_length_le hlt]

/-- Ordered insertion of a pair whose key is above every kept entry does not
change the first `k` entries. -/
theorem orderedInsert_take_of_big {α : Type} {d : ℚ} (x : α) :
    ∀ (s : List (α × ℚ)) (k : ℕ), k ≤ s.length →
      (∀ p ∈ s.take k, p.2 < d) →
      (List.orderedInsert keyLE (x, d) s).take k = s.take k := by
  intro s
  induction s with
  | nil =>
    intro k hk _
    have : k = 0 := by simpa using hk
    subst this
    simp
  | cons a s ih =>
    intro k hk hbig
    match k with
    | 0 => simp
    | k + 1 =>
      have ha : a.2 < d := hbig a (by simp)
      simp only [List.orderedInsert]
      rw [if_neg (show ¬ keyLE (x, d) a from not_le.mpr ha)]
      rw [List.take_succ_cons, List.take_succ_cons]
      congr 1
      refine ih k (by simp only [List.length_cons] at hk; omega) ?_
      intro p hp
      exact hbig p (by rw [List.take_succ_cons]; exact List.mem_cons_of_mem a hp)

end UrbanTraffic

namespace UrbanTraffic

set_option maxHeartbeats 1000000 in
/-- The buffer insertion point computed by Rust binary search is the number
of kept entries strictly below `d`. -/
theorem insertBest_binSearch {α : Type} {s : List (α × ℚ)}
    (hs : s.Sorted keyLE) {d : ℚ} (hd : ∀ p ∈ s, p.2 ≠ d) (k : ℕ) :
    rustBinSearch
      (fun x => if x.2 ≤ (d : WithTop ℚ) then Ordering.lt else Ordering.gt)
      (bufK k s) =
      some (.inr ((s.take k).countP (fun p => decide (p.2 < d)))) := by
  have hcmin : (s.take k).countP (fun p => decide (p.2 < d)) ≤
      min k s.length := by
    have h0 := @List.countP_le_length (α × ℚ)
      (fun p => decide (p.2 < d)) (s.take k)
    rw [List.length_take] at h0
    exact h0
  have hst : (s.take k).Sorted keyLE :=
    List.Pairwise.sublist (List.take_sublist k s) hs
  have hdt : ∀ p ∈ s.take k, p.2 ≠ d :=
    fun p hp => hd p ((List.take_sublist k s).subset hp)
  apply rustBinSearch_partition
  · rw [bufK_length]
    omega
  · intro i hlen
    rw [bufK_length] at hlen
    have hget := bufK_getElem? k s i
    rw [List.getElem?_eq_getElem (show i < (bufK k s).length by
      rw [bufK_length]; exact hlen)] at hget
    by_cases h1 : i < min k s.length
    · rw [if_pos h1] at hget
      have hsi : i < s.length := by omega
      have hti : i < (s.take k).length := by
        rw [List.length_take]; omega
      rw [List.getElem?_eq_getElem hsi, Option.map_some'] at hget
      have hval := Option.some.inj hget
      rw [hval]
      have hiff := sorted_count_iff hst hdt i hti
      rw [List.getElem_take] at hiff
      by_cases h2 : i < (s.take k).countP (fun p => decide (p.2 < d))
      · have hlt : s[i].2 < d := hiff.mpr h2
        rw [if_pos h2]
        dsimp only [slotOf]
        rw [if_pos (WithTop.coe_le_coe.mpr (le_of_lt hlt))]
      · have hnlt : ¬ s[i].2 < d := fun hc => h2 (hiff.mp hc)
        have hgt : d < s[i].2 :=
          lt_of_le_of_ne (le_of_not_lt hnlt)
            (Ne.symm (hd _ (List.getElem_mem _)))
        rw [if_neg h2]
        dsimp only [slotOf]
        rw [if_neg (by
          rw [WithTop.coe_le_coe]
          exact not_le.mpr hgt)]
    · rw [if_neg h1, if_pos hlen] at hget
      have hval := Option.some.inj hget
      rw [hval]
      dsimp only
      rw [if_neg (show ¬ ((⊤ : WithTop ℚ) ≤ (d : WithTop ℚ)) by simp)]
      rw [if_neg (show ¬ i < (s.take k).countP (fun p => decide (p.2 < d))
        by omega)]

end UrbanTraffic

namespace UrbanTraffic

set_option maxHeartbeats 1600000 in
/-- The Rust shift-insert step realises ordered insertion into the canonical
sorted list (truncated to the buffer size), including the no-op case where
the insertion point falls past the end of the buffer. -/
theorem insertBest_spec {α : Type} {s : List (α × ℚ)} (hs : s.Sorted keyLE)
    {d : ℚ} (hd : ∀ p ∈ s, p.2 ≠ d) (x : α) (k : ℕ) :
    insertBest (bufK k s) x d =
      some (bufK k (List.orderedInsert keyLE (x, d) s)) := by
  have hcmin : (s.take k).countP (fun p => decide (p.2 < d)) ≤
      min k s.length := by
    have h0 := @List.countP_le_length (α × ℚ)
      (fun p => decide (p.2 < d)) (s.take k)
    rw [List.length_take] at h0
    exact h0
  unfold insertBest
  rw [insertBest_binSearch hs hd k]
  dsimp only
  rw [bufK_length]
  rw [orderedInsert_eq_take_drop hs hd x]
  by_cases hck : (s.take k).countP (fun p => decide (p.2 < d)) < k
  · rw [if_pos hck]
    rw [countP_full_of_lt hs hd hck]
    congr 1
    apply List.ext_getElem?
    intro i
    have hcs : (s.take k).countP (fun p => decide (p.2 < d)) ≤ s.length := by
      omega
    rw [List.getElem?_take]
    by_cases hik : i < k
    · rw [if_pos hik]
      rw [insertAt_getElem? (bufK k s) _ (by rw [bufK_length]; omega) _ i]
      rw [bufK_getElem? k (s.take ((s.take k).countP
        (fun p => decide (p.2 < d))) ++
        (x, d) :: s.drop ((s.take k).countP (fun p => decide (p.2 < d)))) i]
      rw [insertAt_getElem? s _ hcs (x, d) i]
      have hlen' : (s.take ((s.take k).countP (fun p => decide (p.2 < d))) ++
          (x, d) :: s.drop ((s.take k).countP
            (fun p => decide (p.2 < d)))).length = s.length + 1 := by
        simp only [List.length_append, List.length_take, List.length_cons,
          List.length_drop]
        omega
      rw [hlen']
      by_cases hic : i < (s.take k).countP (fun p => decide (p.2 < d))
      · rw [if_pos hic, if_pos hic]
        rw [bufK_getElem? k s i]
        rw [if_pos (show i < min k s.length by omega)]
        rw [if_pos (show i < min k (s.length + 1) by omega)]
      · rw [if_neg hic, if_neg hic]
        by_cases hie : i = (s.take k).countP (fun p => decide (p.2 < d))
        · rw [if_pos hie, if_pos hie]
          rw [if_pos (show i < min k (s.length + 1) by omega)]
          rfl
        · rw [if_neg hie, if_neg hie]
          rw [bufK_getElem? k s (i - 1)]
          by_cases him : i - 1 < min k s.length
          · rw [if_pos him]
            rw [if_pos (show i < min k (s.length + 1) by omega)]
          · rw [if_neg him]
            rw [if_neg (show ¬ i < min k (s.length + 1) by omega)]
            rw [if_pos (show i - 1 < k by omega), if_pos hik]
    · rw [if_neg hik]
      rw [bufK_getElem? k (s.take ((s.take k).countP
        (fun p => decide (p.2 < d))) ++
        (x, d) :: s.drop ((s.take k).countP (fun p => decide (p.2 < d)))) i]
      rw [if_neg (show ¬ i < min k (s.take ((s.take k).countP
        (fun p => decide (p.2 < d))) ++
        (x, d) :: s.drop ((s.take k).countP
          (fun p => decide (p.2 < d)))).length by
        have : min k (s.take ((s.take k).countP
          (fun p => decide (p.2 < d))) ++
          (x, d) :: s.drop ((s.take k).countP
            (fun p => decide (p.2 < d)))).length ≤ k := min_le_left _ _
        omega)]
      rw [if_neg hik]
  · rw [if_neg hck]
    have hkle : k ≤ s.length := by omega
    congr 1
    apply bufK_congr
    have hcS : k ≤ s.countP (fun p => decide (p.2 < d)) := by
      have h2 := (List.take_sublist k s).countP_le
        (fun p => decide (p.2 < d))
      omega
    rw [List.take_append_of_le_length (by rw [List.length_take]; omega)]
    rw [List.take_take]
    congr 1
    omega

end UrbanTraffic

namespace UrbanTraffic

/-- Records outside the distance bound leave the canonical list unchanged. -/
theorem sortQ_skip {α : Type} (pos : α → UTMCoordinates) (q : UTMCoordinates)
    (m : ℚ) (A : List α) :
    ∀ C, (∀ x ∈ C, ¬ squaredDist (pos x) q < m) →
      sortQ pos q m (A ++ C) = sortQ pos q m A := by
  intro C
  induction C generalizing A with
  | nil => intro _; rw [List.append_nil]
  | cons c C ih =>
    intro hC
    rw [show A ++ c :: C = (A ++ [c]) ++ C by simp]
    rw [ih (A ++ [c]) (fun y hy => hC y (List.mem_cons_of_mem c hy))]
    rw [sortQ_snoc, if_neg (hC c (List.mem_cons_self c C))]

/-- Offering one record at distance at least `e` to a full buffer whose kept
entries all lie strictly below `e` changes nothing kept. -/
theorem sortQ_prune_snoc {α : Type} {pos : α → UTMCoordinates}
    {q : UTMCoordinates} {m : ℚ} {A : List α} {k : ℕ} {e : ℚ}
    (hfull : k ≤ (sortQ pos q m A).length)
    (hbig : ∀ p ∈ (sortQ pos q m A).take k, p.2 < e)
    {x : α} (hx : e ≤ squaredDist (pos x) q) :
    (sortQ pos q m (A ++ [x])).take k = (sortQ pos q m A).take k ∧
      k ≤ (sortQ pos q m (A ++ [x])).length := by
  rw [sortQ_snoc]
  by_cases h : squaredDist (pos x) q < m
  · rw [if_pos h]
    constructor
    · exact orderedInsert_take_of_big x (sortQ pos q m A) k hfull
        (fun p hp => lt_of_lt_of_le (hbig p hp) hx)
    · rw [List.orderedInsert_length]
      omega
  · rw [if_neg h]
    exact ⟨rfl, hfull⟩

/-- Pruning soundness: a whole list of records, each at distance at least
`e`, is invisible to a full buffer whose kept entries lie strictly below
`e`. -/
theorem sortQ_prune {α : Type} {pos : α → UTMCoordinates}
    {q : UTMCoordinates} {m : ℚ} {k : ℕ} {e : ℚ} :
    ∀ (C A : List α), k ≤ (sortQ pos q m A).length →
      (∀ p ∈ (sortQ pos q m A).take k, p.2 < e) →
      (∀ x ∈ C, e ≤ squaredDist (pos x) q) →
      (sortQ pos q m (A ++ C)).take k = (sortQ pos q m A).take k ∧
        k ≤ (sortQ pos q m (A ++ C)).length := by
  intro C
  induction C with
  | nil =>
    intro A hfull _ _
    rw [List.append_nil]
    exact ⟨rfl, hfull⟩
  | cons c C ih =>
    intro A hfull hbig hC
    obtain ⟨hstep, hlen⟩ := sortQ_prune_snoc hfull hbig
      (hC c (List.mem_cons_self c C))
    rw [show A ++ c :: C = (A ++ [c]) ++ C by simp]
    obtain ⟨h1, h2⟩ := ih (A ++ [c]) hlen
      (fun p hp => hbig p (hstep ▸ hp))
      (fun y hy => hC y (List.mem_cons_of_mem c hy))
    exact ⟨h1.trans hstep, h2⟩

/-- The last buffer slot always exists when `k ≥ 1`. -/
theorem bufK_getLast {α : Type} (k : ℕ) (hk : 0 < k) (s : List (α × ℚ)) :
    ∃ ls, (bufK k s).getLast? = some ls ∧
      ((k ≤ s.length ∧ ∃ h : k - 1 < s.length, ls = slotOf s[k - 1]) ∨
        (s.length < k ∧ ls = ((none : Option α), (⊤ : WithTop ℚ)))) := by
  rw [List.getLast?_eq_getElem?, bufK_length, bufK_getElem?]
  by_cases h1 : k - 1 < min k s.length
  · have hsl : k - 1 < s.length := by omega
    refine ⟨slotOf s[k - 1], ?_, Or.inl ⟨by omega, hsl, rfl⟩⟩
    rw [if_pos h1, List.getElem?_eq_getElem hsl, Option.map_some']
  · refine ⟨((none : Option α), (⊤ : WithTop ℚ)), ?_, Or.inr ⟨by omega, rfl⟩⟩
    rw [if_neg h1, if_pos (by omega)]

/-- When the distance to the splitting plane exceeds the last kept distance,
the buffer is full and every kept entry lies strictly below that distance. -/
theorem bufK_last_blocks {α : Type} {k : ℕ} (hk : 0 < k)
    {s : List (α × ℚ)} (hs : s.Sorted keyLE)
    {ls : Option α × WithTop ℚ} (hlast : (bufK k s).getLast? = some ls)
    {e : ℚ} (hlt : ¬ ((e : WithTop ℚ) ≤ ls.2)) :
    k ≤ s.length ∧ ∀ p ∈ s.take k, p.2 < e := by
  obtain ⟨ls2, hls2, hcase⟩ := bufK_getLast k hk s
  rw [hlast] at hls2
  obtain rfl : ls = ls2 := Option.some.inj hls2
  rcases hcase with ⟨hkle, hsl, rfl⟩ | ⟨_, rfl⟩
  · refine ⟨hkle, ?_⟩
    have hle : s[k - 1].2 < e := by
      by_contra hcon
      exact hlt (by
        dsimp only [slotOf]
        exact WithTop.coe_le_coe.mpr (le_of_not_lt hcon))
    intro p hp
    obtain ⟨i, hi, rfl⟩ := List.mem_iff_getElem.mp hp
    rw [List.length_take] at hi
    have hgi : i < s.length := by omega
    rw [List.getElem_take]
    rcases Nat.lt_or_ge i (k - 1) with hik | hik
    · have hrel := List.pairwise_iff_getElem.mp hs i (k - 1) hgi hsl hik
      exact lt_of_le_of_lt hrel hle
    · have : i = k - 1 := by omega
      subst this
      exact hle
  · exact absurd (le_top : ((e : ℚ) : WithTop ℚ) ≤ ⊤) hlt

end UrbanTraffic

namespace UrbanTraffic

/-- Unfolding of the kNN query at an absent node. -/
theorem nnNode_nil {α : Type} (pos : α → UTMCoordinates) (q : UTMCoordinates)
    (best : List (Option α × WithTop ℚ)) (y : Bool) (m : ℚ) :
    nnNode pos .nil q best y m = some best := rfl

/-- Unfolding of the kNN query at a real node. -/
theorem nnNode_node {α : Type} (pos : α → UTMCoordinates) (dat : α)
    (l r : KTree α) (q : UTMCoordinates)
    (best : List (Option α × WithTop ℚ)) (y : Bool) (m : ℚ) :
    nnNode pos (.node dat l r) q best y m =
      match (if coords_lt q (pos dat) y then nnNode pos l q best (!y) m
             else nnNode pos r q best (!y) m) with
      | none => none
      | some best1 =>
        match (if squaredDist (pos dat) q < m
               then insertBest best1 dat (squaredDist (pos dat) q)
               else some best1) with
        | none => none
        | some best2 =>
          if (coords_lt q (pos dat) y && !r.isNil) ||
             (!(coords_lt q (pos dat) y) && !l.isNil) then
            if (if y then (q.y - (pos dat).y) * (q.y - (pos dat).y)
                else (q.x - (pos dat).x) * (q.x - (pos dat).x)) < m then
              match best2.getLast? with
              | none => none
              | some lastSlot =>
                if (((if y then (q.y - (pos dat).y) * (q.y - (pos dat).y)
                      else (q.x - (pos dat).x) * (q.x - (pos dat).x)) : ℚ) :
                      WithTop ℚ) ≤ lastSlot.2 then
                  if coords_lt q (pos dat) y then nnNode pos r q best2 (!y) m
                  else nnNode pos l q best2 (!y) m
                else some best2
            else some best2
          else some best2 := rfl

/-- A child is `nil` exactly when `isNil` says so. -/
theorem isNil_iff {α : Type} (t : KTree α) :
    t.isNil = true ↔ t = KTree.nil := by
  cases t <;> simp [KTree.isNil]

/-- The squared axis gap is a lower bound on the squared distance. -/
theorem sq_axis_le_dist (y : Bool) (w q : UTMCoordinates) :
    (axisv y w - axisv y q) * (axisv y w - axisv y q) ≤ squaredDist w q := by
  cases y
  · simp only [axisv, Bool.false_eq_true, if_false, squaredDist]
    exact le_add_of_nonneg_right (mul_self_nonneg _)
  · simp only [axisv, if_true, squaredDist]
    exact le_add_of_nonneg_left (mul_self_nonneg _)

/-- After the insertion step, the query either descends into the other
child (and the continuation takes over) or prunes it, which is sound when
every record there lies at least the splitting gap away. -/
theorem prune_or_recurse {α : Type} {pos : α → UTMCoordinates}
    {q : UTMCoordinates} {m : ℚ} {k : ℕ} (hk : 0 < k) {A2 C : List α}
    {SEP : ℚ} (hdist : ∀ x ∈ C, SEP ≤ squaredDist (pos x) q)
    (cont : List (Option α × WithTop ℚ) →
      Option (List (Option α × WithTop ℚ)))
    (hcont : cont (bufK k (sortQ pos q m A2)) =
      some (bufK k (sortQ pos q m (A2 ++ C)))) :
    (if SEP < m then
      match (bufK k (sortQ pos q m A2)).getLast? with
      | none => none
      | some lastSlot =>
        if ((SEP : ℚ) : WithTop ℚ) ≤ lastSlot.2 then
          cont (bufK k (sortQ pos q m A2))
        else some (bufK k (sortQ pos q m A2))
     else some (bufK k (sortQ pos q m A2))) =
      some (bufK k (sortQ pos q m (A2 ++ C))) := by
  by_cases hsm : SEP < m
  · rw [if_pos hsm]
    obtain ⟨ls, hls, _⟩ := bufK_getLast k hk (sortQ pos q m A2)
    rw [hls]
    dsimp only
    by_cases hcond : ((SEP : ℚ) : WithTop ℚ) ≤ ls.2
    · rw [if_pos hcond]
      exact hcont
    · rw [if_neg hcond]
      obtain ⟨hfull, hbig⟩ :=
        bufK_last_blocks hk (sortQ_sorted pos q m A2) hls hcond
      obtain ⟨htake, _⟩ := sortQ_prune C A2 hfull hbig hdist
      rw [bufK_congr k htake]
  · rw [if_neg hsm]
    rw [sortQ_skip pos q m A2 C
      (fun x hx => not_lt_of_le (le_trans (le_of_not_lt hsm) (hdist x hx)))]

end UrbanTraffic

namespace UrbanTraffic

set_option maxHeartbeats 3200000 in
/-- Main query induction: starting from the canonical buffer for an already
visited record list `A`, querying a subtree with the ordering invariant
returns the canonical buffer for `A` plus the subtree's records — provided
all squared distances are pairwise distinct. -/
theorem nnNode_spec {α : Type} (pos : α → UTMCoordinates) (q : UTMCoordinates)
    (m : ℚ) (k : ℕ) (hk : 0 < k) :
    ∀ (t : KTree α) (y : Bool) (A : List α), TreeInv pos t y →
      sepDists pos q (A ++ t.recs) →
      nnNode pos t q (bufK k (sortQ pos q m A)) y m =
        some (bufK k (sortQ pos q m (A ++ t.recs))) := by
  intro t
  induction t with
  | nil =>
    intro y A _ _
    rw [nnNode_nil, show (KTree.nil : KTree α).recs = [] from rfl,
      List.append_nil]
  | node dat l r ihl ihr =>
    intro y A hinv hsep
    obtain ⟨hL, hR, hil, hir⟩ := hinv
    rw [nnNode_node]
    rw [show (KTree.node dat l r).recs = l.recs ++ dat :: r.recs from rfl]
      at hsep ⊢
    have hpw : List.Pairwise
        (fun a b => squaredDist (pos a) q ≠ squaredDist (pos b) q)
        (A ++ (l.recs ++ dat :: r.recs)) := hsep
    rw [List.pairwise_append] at hpw
    obtain ⟨_, hpwRest, hcrossA⟩ := hpw
    rw [List.pairwise_append] at hpwRest
    obtain ⟨_, hpwDR, hcrossLR⟩ := hpwRest
    rw [List.pairwise_cons] at hpwDR
    obtain ⟨hdatR, _⟩ := hpwDR
    by_cases hlt : axisv y q < axisv y (pos dat)
    · have hclt : coords_lt q (pos dat) y = true := by
        rw [coords_lt_eq]; exact decide_eq_true hlt
      simp only [hclt, Bool.true_and, Bool.not_true, Bool.false_and,
        Bool.or_false, eq_self_iff_true, if_true]
      have hsepl : sepDists pos q (A ++ l.recs) :=
        List.Pairwise.sublist
          (List.Sublist.append_left
            (List.sublist_append_left l.recs (dat :: r.recs)) A) hsep
      rw [ihl (!y) A hil hsepl]
      dsimp only
      have hda : ∀ p ∈ sortQ pos q m (A ++ l.recs),
          p.2 ≠ squaredDist (pos dat) q := by
        intro p hp
        obtain ⟨hmem, _, hpd⟩ := mem_sortQ.mp hp
        rw [hpd]
        rcases List.mem_append.mp hmem with hA | hl
        · exact hcrossA p.1 hA dat (by simp)
        · exact hcrossLR p.1 hl dat (List.mem_cons_self dat r.recs)
      have hstep2 : (if squaredDist (pos dat) q < m
            then insertBest (bufK k (sortQ pos q m (A ++ l.recs))) dat
              (squaredDist (pos dat) q)
            else some (bufK k (sortQ pos q m (A ++ l.recs)))) =
          some (bufK k (sortQ pos q m ((A ++ l.recs) ++ [dat]))) := by
        by_cases hdm : squaredDist (pos dat) q < m
        · rw [if_pos hdm,
            insertBest_spec (sortQ_sorted pos q m (A ++ l.recs)) hda dat k]
          rw [sortQ_snoc, if_pos hdm]
          rfl
        · rw [if_neg hdm]
          rw [sortQ_skip pos q m (A ++ l.recs) [dat] (by
            intro x hx
            rw [List.mem_singleton] at hx
            subst hx
            exact hdm)]
      rw [hstep2]
      dsimp only
      by_cases hrn : r = KTree.nil
      · subst hrn
        simp only [KTree.isNil, Bool.not_true, Bool.false_eq_true, if_false]
        rw [show A ++ (l.recs ++ dat :: (KTree.nil : KTree α).recs) =
          (A ++ l.recs) ++ [dat] from by simp [KTree.recs]]
      · have hrn' : (!r.isNil) = true := by
          cases r
          · exact absurd rfl hrn
          · rfl
        simp only [hrn', eq_self_iff_true, if_true]
        rw [show A ++ (l.recs ++ dat :: r.recs) =
          ((A ++ l.recs) ++ [dat]) ++ r.recs from by simp]
        apply prune_or_recurse hk ?_ (fun b => nnNode pos r q b (!y) m) ?_
        · intro x hx
          have hax : axisv y (pos dat) ≤ axisv y (pos x) := hR x hx
          have hSEPeq : (if y = true
              then (q.y - (pos dat).y) * (q.y - (pos dat).y)
              else (q.x - (pos dat).x) * (q.x - (pos dat).x)) =
              (axisv y q - axisv y (pos dat)) *
                (axisv y q - axisv y (pos dat)) := by
            cases y <;> simp [axisv]
          rw [hSEPeq]
          have e1 : (axisv y q - axisv y (pos dat)) *
              (axisv y q - axisv y (pos dat)) =
              (axisv y (pos dat) - axisv y q) *
                (axisv y (pos dat) - axisv y q) := by ring
          rw [e1]
          refine le_trans (mul_self_le_mul_self (by linarith) (show
            axisv y (pos dat) - axisv y q ≤ axisv y (pos x) - axisv y q
            by linarith)) ?_
          exact sq_axis_le_dist y (pos x) q
        · refine ihr (!y) ((A ++ l.recs) ++ [dat]) hir ?_
          rw [show ((A ++ l.recs) ++ [dat]) ++ r.recs =
            A ++ (l.recs ++ dat :: r.recs) from by simp]
          exact hsep
    · have hclt : coords_lt q (pos dat) y = false := by
        rw [coords_lt_eq]; exact decide_eq_false hlt
      have hge : axisv y (pos dat) ≤ axisv y q := le_of_not_lt hlt
      simp only [hclt, Bool.false_and, Bool.not_false, Bool.true_and,
        Bool.false_or, Bool.false_eq_true, if_false]
      have hsepr : sepDists pos q (A ++ r.recs) :=
        List.Pairwise.sublist
          (List.Sublist.append_left
            ((List.sublist_cons_self dat r.recs).trans
              (List.sublist_append_right l.recs (dat :: r.recs))) A) hsep
      rw [ihr (!y) A hir hsepr]
      dsimp only
      have hda : ∀ p ∈ sortQ pos q m (A ++ r.recs),
          p.2 ≠ squaredDist (pos dat) q := by
        intro p hp
        obtain ⟨hmem, _, hpd⟩ := mem_sortQ.mp hp
        rw [hpd]
        rcases List.mem_append.mp hmem with hA | hr
        · exact hcrossA p.1 hA dat (by simp)
        · exact (hdatR p.1 hr).symm
      have hstep2 : (if squaredDist (pos dat) q < m
            then insertBest (bufK k (sortQ pos q m (A ++ r.recs))) dat
              (squaredDist (pos dat) q)
            else some (bufK k (sortQ pos q m (A ++ r.recs)))) =
          some (bufK k (sortQ pos q m ((A ++ r.recs) ++ [dat]))) := by
        by_cases hdm : squaredDist (pos dat) q < m
        · rw [if_pos hdm,
            insertBest_spec (sortQ_sorted pos q m (A ++ r.recs)) hda dat k]
          rw [sortQ_snoc, if_pos hdm]
          rfl
        · rw [if_neg hdm]
          rw [sortQ_skip pos q m (A ++ r.recs) [dat] (by
            intro x hx
            rw [List.mem_singleton] at hx
            subst hx
            exact hdm)]
      rw [hstep2]
      dsimp only
      by_cases hln : l = KTree.nil
      · subst hln
        simp only [KTree.isNil, Bool.not_true, Bool.false_eq_true, if_false]
        congr 1
        apply congrArg
        refine sortQ_perm_eq m ?_ hsep
        have h1 : ((A ++ r.recs) ++ [dat] : List α) = A ++ (r.recs ++ [dat]) := by
          simp
        rw [h1]
        refine List.Perm.append_left A ?_
        have h2 : (r.recs ++ [dat]).Perm (dat :: r.recs) :=
          List.perm_append_singleton dat r.recs
        simpa [KTree.recs] using h2
      · have hln' : (!l.isNil) = true := by
          cases l
          · exact absurd rfl hln
          · rfl
        simp only [hln', eq_self_iff_true, if_true]
        have hperm : (((A ++ r.recs) ++ [dat]) ++ l.recs).Perm
            (A ++ (l.recs ++ dat :: r.recs)) := by
          have h1 : (((A ++ r.recs) ++ [dat]) ++ l.recs : List α) =
              A ++ (r.recs ++ (dat :: l.recs)) := by
            simp
          rw [h1]
          refine List.Perm.append_left A ?_
          have p1 : (r.recs ++ (dat :: l.recs)).Perm
              ((dat :: l.recs) ++ r.recs) := List.perm_append_comm
          have p2 : (dat :: (l.recs ++ r.recs)).Perm
              (l.recs ++ dat :: r.recs) := List.perm_middle.symm
          exact p1.trans p2
        rw [show A ++ (l.recs ++ dat :: r.recs) =
          A ++ (l.recs ++ dat :: r.recs) from rfl]
        have hsq : sortQ pos q m (((A ++ r.recs) ++ [dat]) ++ l.recs) =
            sortQ pos q m (A ++ (l.recs ++ dat :: r.recs)) :=
          sortQ_perm_eq m hperm hsep
        rw [← hsq]
        apply prune_or_recurse hk ?_ (fun b => nnNode pos l q b (!y) m) ?_
        · intro x hx
          have hax : axisv y (pos x) < axisv y (pos dat) := hL x hx
          have hSEPeq : (if y = true
              then (q.y - (pos dat).y) * (q.y - (pos dat).y)
              else (q.x - (pos dat).x) * (q.x - (pos dat).x)) =
              (axisv y q - axisv y (pos dat)) *
                (axisv y q - axisv y (pos dat)) := by
            cases y <;> simp [axisv]
          rw [hSEPeq]
          have e2 : (axisv y (pos x) - axisv y q) *
              (axisv y (pos x) - axisv y q) =
              (axisv y q - axisv y (pos x)) *
                (axisv y q - axisv y (pos x)) := by ring
          refine le_trans (le_of_eq ?_) (le_trans
            (mul_self_le_mul_self (by linarith) (show
              axisv y q - axisv y (pos dat) ≤ axisv y q - axisv y (pos x)
              by linarith)) ?_)
          · rfl
          · rw [← e2]
            exact sq_axis_le_dist y (pos x) q
        · refine ihl (!y) ((A ++ r.recs) ++ [dat]) hil ?_
          exact (List.Perm.pairwise_iff (fun h => Ne.symm h) hperm).mpr hsep

end UrbanTraffic

namespace UrbanTraffic

/-- The buffer of a sorted list is sorted by slot distance. -/
theorem bufK_sorted {α : Type} (k : ℕ) {s : List (α × ℚ)}
    (hs : s.Sorted keyLE) :
    (bufK k s).Sorted
      (fun u v : Option α × WithTop ℚ => u.2 ≤ v.2) := by
  unfold bufK
  refine List.pairwise_append.mpr ⟨?_, ?_, ?_⟩
  · rw [List.pairwise_map]
    exact (List.Pairwise.sublist (List.take_sublist k s) hs).imp
      (fun h => by
        dsimp only [slotOf]
        exact WithTop.coe_le_coe.mpr h)
  · rw [List.pairwise_replicate]
    right
    exact le_refl _
  · intro u _ v hv
    rw [List.mem_replicate] at hv
    rw [hv.2]
    exact le_top

/-- Every filled slot of the brute-force result is a record of the input at
its true squared distance, strictly inside the bound. -/
theorem bruteNN_mem {α : Type} {pos : α → UTMCoordinates}
    {q : UTMCoordinates} {k : ℕ} {m : ℚ} {A : List α}
    {sl : Option α × WithTop ℚ} (hsl : sl ∈ bruteNN pos q k m A) (p : α)
    (hp : sl.1 = some p) :
    p ∈ A ∧ sl.2 = (squaredDist (pos p) q : WithTop ℚ) ∧
      squaredDist (pos p) q < m := by
  unfold bruteNN bufK at hsl
  rcases List.mem_append.mp hsl with hin | hin
  · obtain ⟨pr, hpr, rfl⟩ := List.mem_map.mp hin
    have hpr2 : pr ∈ List.insertionSort keyLE
        ((A.filter (fun x => decide (squaredDist (pos x) q < m))).map
          (distPair pos q)) := (List.take_sublist k _).subset hpr
    have hpr3 := (List.perm_insertionSort keyLE _).subset hpr2
    obtain ⟨x, hx, rfl⟩ := List.mem_map.mp hpr3
    obtain ⟨hxa, hq⟩ := List.mem_filter.mp hx
    obtain rfl : x = p := by
      dsimp only [slotOf, distPair] at hp
      exact Option.some.inj hp
    exact ⟨hxa, rfl, of_decide_eq_true hq⟩
  · rw [List.mem_replicate] at hin
    rw [hin.2] at hp
    exact absurd hp (by simp)

set_option maxHeartbeats 800000 in
/-- The public query wrapper computes the brute-force filter-and-sort answer
whenever all squared distances are pairwise distinct. -/
theorem nearestNeighbors_spec {α : Type} (pos : α → UTMCoordinates)
    (data : List α) (q : UTMCoordinates) (k : ℕ) (md : ℚ)
    (hsep : sepDists pos q data) :
    ∃ t, utmTreeNew pos data = some t ∧
      nearestNeighbors pos t q k md =
        some (bruteNN pos q k (md * md) data) := by
  obtain ⟨t, hb, hp, hi⟩ :=
    buildTree_spec pos (data.length + 1) data false (by omega)
  refine ⟨t, hb, ?_⟩
  simp only [nearestNeighbors]
  by_cases hk : k = 0
  · subst hk
    rw [if_pos rfl]
    rw [bruteNN_eq_bufK 0 (md * md) hsep]
    simp [bufK]
  · rw [if_neg hk]
    have hk' : 0 < k := Nat.pos_of_ne_zero hk
    cases t with
    | nil =>
      have hdata : data = [] := (hp.symm).eq_nil
      subst hdata
      rw [bruteNN_eq_bufK k (md * md) hsep]
      simp [sortQ, bufK]
    | node dat l r =>
      dsimp only
      have h0 : (List.replicate k ((none : Option α), (⊤ : WithTop ℚ))) =
          bufK k (sortQ pos q (md * md) []) := by
        simp [sortQ, bufK]
      rw [h0]
      have hsep2 : sepDists pos q ([] ++ (KTree.node dat l r).recs) := by
        rw [List.nil_append]
        exact (List.Perm.pairwise_iff (fun h => Ne.symm h) hp).mpr hsep
      rw [nnNode_spec pos q (md * md) k hk' (KTree.node dat l r) false []
        hi hsep2]
      rw [List.nil_append]
      rw [bruteNN_eq_bufK k (md * md) hsep]
      rw [sortQ_perm_eq (md * md) hp hsep]

end UrbanTraffic

namespace UrbanTraffic

/-- The record type used for concrete kd-tree runs: an identifier tagged
onto its coordinates (standing for Rust's distinct `&T` references). -/
def posR : ℕ × UTMCoordinates → UTMCoordinates := Prod.snd

/-- C1, corrected.  As stated the claim is false: with tied squared
distances the tree query may return a different record of the same distance
than brute-force filter-and-sort (see `claim_C1_counterexample`).  Amended
statement: whenever all records lie at pairwise distinct squared distances
from the query, the tree builds, the bounded kNN query writes exactly the
brute-force filter-and-sort answer (the up-to-`k` nearest records at
squared distance strictly below `max_dist²`, ascending, with `(none, ∞)`
in every unfilled trailing slot), `collect_nearest` additionally retains
only the filled slots, `k = 0` returns the empty buffer at once, and an
empty record set leaves every slot empty. -/
theorem claim_C1 {α : Type} (pos : α → UTMCoordinates) (data : List α)
    (q : UTMCoordinates) (k : ℕ) (md : ℚ) (hsep : sepDists pos q data)
    (hmd : 0 ≤ md) :
    ∃ t, utmTreeNew pos data = some t ∧
      nearestNeighbors pos t q k md = some (bruteNN pos q k (md * md) data) ∧
      collectNearest pos t q k md =
        some ((bruteNN pos q k (md * md) data).filter
          (fun nn => nn.1.isSome)) ∧
      (bruteNN pos q k (md * md) data).Sorted (fun u v => u.2 ≤ v.2) ∧
      (∀ sl ∈ bruteNN pos q k (md * md) data, ∀ p, sl.1 = some p →
        p ∈ data ∧ sl.2 = (squaredDist (pos p) q : WithTop ℚ) ∧
          squaredDist (pos p) q < md * md) ∧
      (k = 0 → nearestNeighbors pos t q k md = some []) ∧
      (data = [] → nearestNeighbors pos t q k md =
        some (List.replicate k ((none : Option α), (⊤ : WithTop ℚ)))) := by
  obtain ⟨t, hb, hq⟩ := nearestNeighbors_spec pos data q k md hsep
  refine ⟨t, hb, hq, ?_, ?_, ?_, ?_, ?_⟩
  · simp [collectNearest, hq]
  · exact bufK_sorted k (List.sorted_insertionSort keyLE _)
  · exact fun sl hsl p hp => bruteNN_mem hsl p hp
  · intro hk
    subst hk
    simp [nearestNeighbors]
  · intro hdata
    subst hdata
    have ht : t = KTree.nil := (Option.some.inj hb.symm)
    subst ht
    cases k <;> simp [nearestNeighbors]

/-- Counterexample to C1 as stated: two records at the same point.  The
brute-force filter-and-sort keeps the first record, but the tree query
returns the second, so the kNN result does not equal brute force on the
record set. -/
theorem claim_C1_counterexample :
    ∃ t, utmTreeNew posR [(0, ⟨0, 0⟩), (1, ⟨0, 0⟩)] = some t ∧
      nearestNeighbors posR t ⟨0, 0⟩ 1 1 =
        some [(some (1, ⟨0, 0⟩), ((0 : ℚ) : WithTop ℚ))] ∧
      bruteNN posR ⟨0, 0⟩ 1 1 [(0, ⟨0, 0⟩), (1, ⟨0, 0⟩)] =
        [(some (0, ⟨0, 0⟩), ((0 : ℚ) : WithTop ℚ))] ∧
      nearestNeighbors posR t ⟨0, 0⟩ 1 1 ≠
        some (bruteNN posR ⟨0, 0⟩ 1 1 [(0, ⟨0, 0⟩), (1, ⟨0, 0⟩)]) := by
  refine ⟨.node (0, ⟨0, 0⟩) .nil (.node (1, ⟨0, 0⟩) .nil .nil),
    ?_, ?_, ?_, ?_⟩ <;> decide

/-- Witness for the amended C1: three records at pairwise-distinct squared
distances from the query `(1, 1)`, `k = 2`, `max_dist = 10`. -/
theorem claim_C1_witness :
    sepDists posR ⟨1, 1⟩ [(0, ⟨0, 0⟩), (1, ⟨10, 0⟩), (2, ⟨0, 3⟩)] ∧
    (0 : ℚ) ≤ 10 ∧
    (∃ t, utmTreeNew posR [(0, ⟨0, 0⟩), (1, ⟨10, 0⟩), (2, ⟨0, 3⟩)] =
        some t ∧
      nearestNeighbors posR t ⟨1, 1⟩ 2 10 =
        some (bruteNN posR ⟨1, 1⟩ 2 ((10 : ℚ) * 10)
          [(0, ⟨0, 0⟩), (1, ⟨10, 0⟩), (2, ⟨0, 3⟩)]) ∧
      collectNearest posR t ⟨1, 1⟩ 2 10 =
        some ((bruteNN posR ⟨1, 1⟩ 2 ((10 : ℚ) * 10)
          [(0, ⟨0, 0⟩), (1, ⟨10, 0⟩), (2, ⟨0, 3⟩)]).filter
            (fun nn => nn.1.isSome)) ∧
      (bruteNN posR ⟨1, 1⟩ 2 ((10 : ℚ) * 10)
        [(0, ⟨0, 0⟩), (1, ⟨10, 0⟩), (2, ⟨0, 3⟩)]).Sorted
          (fun u v => u.2 ≤ v.2) ∧
      (∀ sl ∈ bruteNN posR ⟨1, 1⟩ 2 ((10 : ℚ) * 10)
          [(0, ⟨0, 0⟩), (1, ⟨10, 0⟩), (2, ⟨0, 3⟩)], ∀ p, sl.1 = some p →
        p ∈ [(0, ⟨0, 0⟩), (1, ⟨10, 0⟩), (2, ⟨0, 3⟩)] ∧
          sl.2 = (squaredDist (posR p) ⟨1, 1⟩ : WithTop ℚ) ∧
          squaredDist (posR p) ⟨1, 1⟩ < (10 : ℚ) * 10) ∧
      ((2 : ℕ) = 0 → nearestNeighbors posR t ⟨1, 1⟩ 2 10 = some []) ∧
      ([(0, ⟨0, 0⟩), (1, ⟨10, 0⟩), (2, ⟨0, 3⟩)] =
          ([] : List (ℕ × UTMCoordinates)) →
        nearestNeighbors posR t ⟨1, 1⟩ 2 10 =
          some (List.replicate 2
            ((none : Option (ℕ × UTMCoordinates)), (⊤ : WithTop ℚ))))) := by
  have h1 : sepDists posR ⟨1, 1⟩
      [(0, ⟨0, 0⟩), (1, ⟨10, 0⟩), (2, ⟨0, 3⟩)] := by
    unfold sepDists
    decide
  have h2 : (0 : ℚ) ≤ 10 := by norm_num
  exact ⟨h1, h2, claim_C1 posR [(0, ⟨0, 0⟩), (1, ⟨10, 0⟩), (2, ⟨0, 3⟩)]
    ⟨1, 1⟩ 2 10 h1 h2⟩

end UrbanTraffic

namespace UrbanTraffic

/-! ## QuadMap recursion (quadtree.rs)

Agents are `(id, z)` pairs: the index of the agent in the global
`agent_data` vector together with its Z-value (a `u64`, so a `Nat` below
`2^64`; the bound is irrelevant to the properties proved here).  The
per-agent `OnceCell<&Building>` slots become a `List (Option β)` indexed by
agent id, and `OnceCell::set(..).expect(..)` on an occupied slot becomes
`none` (abort).  Buildings are an abstract type `β` with a bounding box.
The `rayon::join` pairs run NW, NE, SW, SE sequentially in that order. -/

/-- geo.rs `Region` with finite (non-NaN, non-infinite) coordinates, as
passed through the recursion after the stage-1 asserts. -/
structure QRegion where
  east : ℚ
  west : ℚ
  north : ℚ
  south : ℚ
deriving DecidableEq

/-- geo.rs `Region::center`. -/
def QRegion.center (r : QRegion) : UTMCoordinates :=
  ⟨(r.east + r.west) / 2, (r.north + r.south) / 2⟩

/-- The backward walk of quadtree.rs `find_split` on an exact binary-search
hit: from index `start - 1` downward, find the first element strictly below
the query and answer one past it (`0` when none is). -/
def walkBack (arr : List (ℕ × ℕ)) (query : ℕ) : ℕ → ℕ
  | 0 => 0
  | j + 1 =>
    match arr[j]? with
    | none => 0
    | some t => if t.2 < query then j + 1 else walkBack arr query j

/-- quadtree.rs `find_split`: binary search by Z-value key; an `Err`
insertion point is returned as is, an exact hit walks backward over the run
of equal keys.  `none` models binary-search fuel exhaustion, which cannot
happen. -/
def findSplit (arr : List (ℕ × ℕ)) (query : ℕ) : Option ℕ :=
  match rustBinSearch (fun t => ucmp t.2 query) arr with
  | some (.inr idx) => some idx
  | some (.inl start) => some (walkBack arr query start)
  | none => none

/-- `OnceCell::set(..).expect(..)`: write a fresh slot, abort on an occupied
(or nonexistent) one. -/
def writeSlot {β : Type} (st : List (Option β)) (idx : ℕ) (b : β) :
    Option (List (Option β)) :=
  match st[idx]? with
  | some none => some (st.set idx (some b))
  | _ => none

/-- The below-threshold mapping loop of `process_region`. -/
def mapLoop {β : Type} (mapper : ℕ → List β → β) (bldgs : List β) :
    List (ℕ × ℕ) → List (Option β) → Option (List (Option β))
  | [], st => some st
  | t :: rest, st =>
    match writeSlot st t.1 (mapper t.1 bldgs) with
    | none => none
    | some st2 => mapLoop mapper bldgs rest st2

/-- quadtree.rs `process_region`, with explicit recursion fuel.  `none`
models a panic: a double slot write, or the debug shift-overflow panic of
`0x4000.. >> (2*depth)` at depth 32 (fuel exhaustion cannot happen when the
fuel exceeds 32, since the depth grows with every recursion step). -/
def proc {β : Type} (bbox : β → QRegion) (mapper : ℕ → List β → β) :
    ℕ → ℕ → ℕ → ℕ → QRegion → List (ℕ × ℕ) → List β →
      List (Option β) → Option (List (Option β))
  | 0, _, _, _, _, _, _, _ => none
  | fuel + 1, thresh, prefx, depth, region, agents, bldgs, st =>
    if agents.length = 0 ∨ bldgs.length = 0 then some st
    else if agents.length < thresh ∨ bldgs.length < thresh then
      mapLoop mapper bldgs agents st
    else if 64 ≤ 2 * depth then none
    else
      let xbit : ℕ := 0x4000000000000000 >>> (2 * depth)
      let ybit : ℕ := 0x8000000000000000 >>> (2 * depth)
      let nwPref := prefx ||| ybit
      let sePref := prefx ||| xbit
      let nePref := prefx ||| ybit ||| xbit
      match findSplit agents nwPref with
      | none => none
      | some s1 =>
        match findSplit (agents.drop s1) nePref with
        | none => none
        | some s2 =>
          match findSplit (agents.take s1) sePref with
          | none => none
          | some s3 =>
            let c := region.center
            let bNE := bldgs.filter (fun b =>
              decide (c.y < (bbox b).north) && decide (c.x < (bbox b).east))
            let bNW := bldgs.filter (fun b =>
              decide (c.y < (bbox b).north) && decide ((bbox b).west < c.x))
            let bSE := bldgs.filter (fun b =>
              decide ((bbox b).south < c.y) && decide (c.x < (bbox b).east))
            let bSW := bldgs.filter (fun b =>
              decide ((bbox b).south < c.y) && decide ((bbox b).west < c.x))
            match proc bbox mapper fuel thresh nwPref (depth + 1)
                ⟨c.x, region.west, region.north, c.y⟩
                ((agents.drop s1).take s2) bNW st with
            | none => none
            | some st1 =>
              match proc bbox mapper fuel thresh nePref (depth + 1)
                  ⟨region.east, c.x, region.north, c.y⟩
                  ((agents.drop s1).drop s2) bNE st1 with
              | none => none
              | some st2 =>
                match proc bbox mapper fuel thresh prefx (depth + 1)
                    ⟨c.x, region.west, c.y, region.south⟩
                    ((agents.take s1).take s3) bSW st2 with
                | none => none
                | some st3 =>
                  proc bbox mapper fuel thresh sePref (depth + 1)
                    ⟨region.east, c.x, c.y, region.south⟩
                    ((agents.take s1).drop s3) bSE st3

/-- The write set of the recursion: the same traversal as `proc`, but
collecting the `(agent, mapped building)` pairs of every below-threshold
leaf instead of writing them. -/
def leafAssign {β : Type} (bbox : β → QRegion) (mapper : ℕ → List β → β) :
    ℕ → ℕ → ℕ → ℕ → QRegion → List (ℕ × ℕ) → List β →
      Option (List (ℕ × β))
  | 0, _, _, _, _, _, _ => none
  | fuel + 1, thresh, prefx, depth, region, agents, bldgs =>
    if agents.length = 0 ∨ bldgs.length = 0 then some []
    else if agents.length < thresh ∨ bldgs.length < thresh then
      some (agents.map (fun t => (t.1, mapper t.1 bldgs)))
    else if 64 ≤ 2 * depth then none
    else
      let xbit : ℕ := 0x4000000000000000 >>> (2 * depth)
      let ybit : ℕ := 0x8000000000000000 >>> (2 * depth)
      let nwPref := prefx ||| ybit
      let sePref := prefx ||| xbit
      let nePref := prefx ||| ybit ||| xbit
      match findSplit agents nwPref with
      | none => none
      | some s1 =>
        match findSplit (agents.drop s1) nePref with
        | none => none
        | some s2 =>
          match findSplit (agents.take s1) sePref with
          | none => none
          | some s3 =>
            let c := region.center
            let bNE := bldgs.filter (fun b =>
              decide (c.y < (bbox b).north) && decide (c.x < (bbox b).east))
            let bNW := bldgs.filter (fun b =>
              decide (c.y < (bbox b).north) && decide ((bbox b).west < c.x))
            let bSE := bldgs.filter (fun b =>
              decide ((bbox b).south < c.y) && decide (c.x < (bbox b).east))
            let bSW := bldgs.filter (fun b =>
              decide ((bbox b).south < c.y) && decide ((bbox b).west < c.x))
            match leafAssign bbox mapper fuel thresh nwPref (depth + 1)
                ⟨c.x, region.west, region.north, c.y⟩
                ((agents.drop s1).take s2) bNW with
            | none => none
            | some lnw =>
              match leafAssign bbox mapper fuel thresh nePref (depth + 1)
                  ⟨region.east, c.x, region.north, c.y⟩
                  ((agents.drop s1).drop s2) bNE with
              | none => none
              | some lne =>
                match leafAssign bbox mapper fuel thresh prefx (depth + 1)
                    ⟨c.x, region.west, c.y, region.south⟩
                    ((agents.take s1).take s3) bSW with
                | none => none
                | some lsw =>
                  match leafAssign bbox mapper fuel thresh sePref (depth + 1)
                      ⟨region.east, c.x, c.y, region.south⟩
                      ((agents.take s1).drop s3) bSE with
                  | none => none
                  | some lse => some (lnw ++ lne ++ lsw ++ lse)

/-- The harvest of map_vehicles: `filter_map` over the agent vector keeping
the filled slots. -/
def harvest {β : Type} (agents : List (ℕ × ℕ)) (st : List (Option β)) :
    List (ℕ × β) :=
  agents.filterMap (fun t =>
    match st[t.1]? with
    | some (some b) => some (t.1, b)
    | _ => none)

end UrbanTraffic

namespace UrbanTraffic

/-- `ucmp` answers `lt` exactly below. -/
theorem ucmp_lt_iff {a b : ℕ} : ucmp a b = Ordering.lt ↔ a < b := by
  unfold ucmp
  split_ifs with h1 h2 <;> simp_all

/-- `ucmp` answers `eq` exactly at equality. -/
theorem ucmp_eq_iff {a b : ℕ} : ucmp a b = Ordering.eq ↔ a = b := by
  unfold ucmp
  split_ifs with h1 h2 <;> simp_all
  omega

/-- In a Z-sorted agent list, `ucmp` against a query is `lt` on the strict
prefix of smaller keys, `eq` on the run of equal keys, and `gt` after. -/
theorem zsorted_zone (arr : List (ℕ × ℕ))
    (hs : arr.Pairwise (fun a b : ℕ × ℕ => a.2 ≤ b.2)) (q : ℕ) :
    ∀ i (h : i < arr.length),
      ucmp arr[i].2 q =
        if i < arr.countP (fun t => decide (t.2 < q)) then Ordering.lt
        else if i < arr.countP (fun t => decide (t.2 < q)) +
            arr.countP (fun t => decide (t.2 = q)) then Ordering.eq
        else Ordering.gt := by
  induction arr with
  | nil => intro i h; simp at h
  | cons a t ih =>
    rw [List.pairwise_cons] at hs
    obtain ⟨ha, hs'⟩ := hs
    intro i h
    rw [List.countP_cons, List.countP_cons]
    rcases lt_trichotomy a.2 q with hq | hq | hq
    · rw [if_pos (decide_eq_true hq),
        if_neg (show ¬ decide (a.2 = q) = true by
          simp only [decide_eq_true_eq]; omega)]
      match i with
      | 0 =>
        simp only [List.getElem_cons_zero]
        rw [ucmp_lt hq, if_pos (by omega)]
      | i + 1 =>
        simp only [List.getElem_cons_succ]
        rw [ih hs' i (by simp only [List.length_cons] at h; omega)]
        split_ifs <;> first | rfl | omega
    · rw [if_neg (show ¬ decide (a.2 < q) = true by
          simp only [decide_eq_true_eq]; omega),
        if_pos (decide_eq_true hq)]
      have hz : t.countP (fun t => decide (t.2 < q)) = 0 := by
        rw [List.countP_eq_zero]
        intro p hp
        simp only [decide_eq_true_eq]
        have := ha p hp
        omega
      match i with
      | 0 =>
        simp only [List.getElem_cons_zero]
        rw [hq, ucmp_self, if_neg (by omega), if_pos (by omega)]
      | i + 1 =>
        simp only [List.getElem_cons_succ]
        rw [ih hs' i (by simp only [List.length_cons] at h; omega), hz]
        split_ifs <;> first | rfl | omega
    · have hzl : t.countP (fun t => decide (t.2 < q)) = 0 := by
        rw [List.countP_eq_zero]
        intro p hp
        simp only [decide_eq_true_eq]
        have := ha p hp
        omega
      have hze : t.countP (fun t => decide (t.2 = q)) = 0 := by
        rw [List.countP_eq_zero]
        intro p hp
        simp only [decide_eq_true_eq]
        have := ha p hp
        omega
      rw [if_neg (show ¬ decide (a.2 < q) = true by
          simp only [decide_eq_true_eq]; omega),
        if_neg (show ¬ decide (a.2 = q) = true by
          simp only [decide_eq_true_eq]; omega), hzl, hze]
      match i with
      | 0 =>
        simp only [List.getElem_cons_zero]
        rw [ucmp_gt hq, if_neg (by omega), if_neg (by omega)]
      | i + 1 =>
        simp only [List.getElem_cons_succ]
        have hit : i < t.length := by
          simp only [List.length_cons] at h
          omega
        have hgt : q < t[i].2 := by
          have := ha t[i] (List.getElem_mem hit)
          omega
        rw [ucmp_gt hgt, if_neg (by omega), if_neg (by omega)]

/-- Rust binary search on a list with a `lt`-run, an `eq`-run and a `gt`-run
either reports `Err` at the boundary (only possible when the `eq`-run is
empty) or `Ok` at some index inside the `eq`-run. -/
theorem rbsGo_three {α : Type} (f : α → Ordering) (l : List α) (c e : ℕ)
    (hpart : ∀ i (h : i < l.length),
      f l[i] = if i < c then Ordering.lt
        else if i < c + e then Ordering.eq else Ordering.gt) :
    ∀ fuel left size, left ≤ c → c + e ≤ left + size →
      left + size ≤ l.length → size < fuel →
      (e = 0 ∧ rbsGo f l left size fuel = some (.inr c)) ∨
      (∃ j, c ≤ j ∧ j < c + e ∧
        rbsGo f l left size fuel = some (.inl j)) := by
  intro fuel
  induction fuel with
  | zero => intro left size _ _ _ h; omega
  | succ fuel ih =>
    intro left size hlo hhi hwin hsz
    unfold rbsGo
    by_cases h0 : size = 0
    · rw [if_pos h0]
      left
      constructor
      · omega
      · have : left = c := by omega
        rw [this]
    · rw [if_neg h0]
      have hmid : left + size / 2 < l.length := by omega
      rw [List.getElem?_eq_getElem hmid]
      dsimp only
      rw [hpart (left + size / 2) hmid]
      by_cases hc : left + size / 2 < c
      · rw [if_pos hc]
        exact ih (left + size / 2 + 1) (size - size / 2 - 1) (by omega)
          (by omega) (by omega) (by omega)
      · rw [if_neg hc]
        by_cases hce : left + size / 2 < c + e
        · rw [if_pos hce]
          right
          exact ⟨left + size / 2, by omega, by omega, rfl⟩
        · rw [if_neg hce]
          exact ih left (size / 2) hlo (by omega) (by omega) (by omega)

/-- The backward walk lands on the boundary below the run of equal keys. -/
theorem walkBack_spec (arr : List (ℕ × ℕ)) (q : ℕ) (c : ℕ) :
    ∀ j, j ≤ arr.length → c ≤ j →
      (∀ i (h : i < arr.length), i < j → (arr[i].2 < q ↔ i < c)) →
      walkBack arr q j = c := by
  intro j
  induction j with
  | zero =>
    intro _ hc _
    unfold walkBack
    omega
  | succ j ih =>
    intro hlen hc hiff
    unfold walkBack
    have hj : j < arr.length := by omega
    rw [List.getElem?_eq_getElem hj]
    dsimp only
    by_cases hcj : c = j + 1
    · rw [if_pos ((hiff j hj (by omega)).mpr (by omega))]
      omega
    · rw [if_neg (by
        intro hlt
        exact absurd ((hiff j hj (by omega)).mp hlt) (by omega))]
      exact ih (by omega) (by omega)
        (fun i h hij => hiff i h (by omega))

/-- The low and equal Z-zones together fit in the list. -/
theorem countP_zones_le_length (q : ℕ) :
    ∀ l : List (ℕ × ℕ),
      l.countP (fun t => decide (t.2 < q)) +
        l.countP (fun t => decide (t.2 = q)) ≤ l.length := by
  intro l
  induction l with
  | nil => simp
  | cons a t ih =>
    rw [List.countP_cons, List.countP_cons]
    simp only [List.length_cons]
    by_cases h1 : a.2 < q <;> by_cases h2 : a.2 = q <;>
      simp [h1, h2] <;> omega

/-- quadtree.rs `find_split` returns the number of agents strictly below
the query Z-value, for a Z-sorted agent list. -/
theorem findSplit_spec (arr : List (ℕ × ℕ))
    (hs : arr.Pairwise (fun a b : ℕ × ℕ => a.2 ≤ b.2)) (q : ℕ) :
    findSplit arr q = some (arr.countP (fun t => decide (t.2 < q))) := by
  have hcl := countP_zones_le_length q arr
  have hzone := zsorted_zone arr hs q
  unfold findSplit rustBinSearch
  rcases rbsGo_three (fun t => ucmp t.2 q) arr
      (arr.countP (fun t => decide (t.2 < q)))
      (arr.countP (fun t => decide (t.2 = q))) hzone
      (arr.length + 1) 0 arr.length (by omega) (by omega) (by omega)
      (by omega) with ⟨_, hres⟩ | ⟨j, hj1, hj2, hres⟩
  · rw [hres]
  · rw [hres]
    dsimp only
    rw [walkBack_spec arr q (arr.countP (fun t => decide (t.2 < q))) j
      (by omega) hj1 ?_]
    intro i h _
    have := hzone i h
    constructor
    · intro hlt
      by_contra hge
      rw [if_neg hge] at this
      split_ifs at this with h2
      · rw [ucmp_eq_iff] at this
        omega
      · have h3 : ¬ ucmp arr[i].2 q = Ordering.lt := by
          rw [this]
          intro hcon
          exact Ordering.noConfusion hcon
        rw [ucmp_lt_iff] at h3
        omega
    · intro hic
      rw [if_pos hic] at this
      exact ucmp_lt_iff.mp this

/-- The split parts of `find_split`: every agent strictly below the query
lands in the lower subrange, every agent at or above it in the upper one. -/
theorem findSplit_parts (arr : List (ℕ × ℕ))
    (hs : arr.Pairwise (fun a b : ℕ × ℕ => a.2 ≤ b.2)) (q : ℕ) :
    ∃ c, findSplit arr q = some c ∧ c ≤ arr.length ∧
      (∀ t ∈ arr.take c, t.2 < q) ∧ (∀ t ∈ arr.drop c, q ≤ t.2) := by
  refine ⟨arr.countP (fun t => decide (t.2 < q)), findSplit_spec arr hs q,
    le_trans (List.countP_le_length _) (le_refl _), ?_, ?_⟩
  · intro t ht
    obtain ⟨i, hi, rfl⟩ := List.mem_iff_getElem.mp ht
    rw [List.length_take] at hi
    have hia : i < arr.length := by omega
    have hz := zsorted_zone arr hs q i hia
    rw [if_pos (by omega)] at hz
    rw [List.getElem_take]
    exact ucmp_lt_iff.mp hz
  · intro t ht
    obtain ⟨i, hi, rfl⟩ := List.mem_iff_getElem.mp ht
    rw [List.length_drop] at hi
    have hia : arr.countP (fun t => decide (t.2 < q)) + i < arr.length := by
      omega
    rw [List.getElem_drop]
    have hz := zsorted_zone arr hs q _ hia
    rw [if_neg (by omega)] at hz
    split_ifs at hz with h2
    · rw [ucmp_eq_iff] at hz
      omega
    · have h3 : ¬ ucmp arr[arr.countP (fun t => decide (t.2 < q)) + i].2 q
          = Ordering.lt := by
        rw [hz]
        intro hcon
        exact Ordering.noConfusion hcon
      rw [ucmp_lt_iff] at h3
      omega

end UrbanTraffic

namespace UrbanTraffic

/-- One-step unfolding of `process_region`. -/
theorem proc_step {β : Type} (bbox : β → QRegion) (mapper : ℕ → List β → β)
    (fuel thresh prefx depth : ℕ) (region : QRegion)
    (agents : List (ℕ × ℕ)) (bldgs : List β) (st : List (Option β)) :
    proc bbox mapper (fuel + 1) thresh prefx depth region agents bldgs st =
      if agents.length = 0 ∨ bldgs.length = 0 then some st
      else if agents.length < thresh ∨ bldgs.length < thresh then
        mapLoop mapper bldgs agents st
      else if 64 ≤ 2 * depth then none
      else
        match findSplit agents
            (prefx ||| 0x8000000000000000 >>> (2 * depth)) with
        | none => none
        | some s1 =>
          match findSplit (agents.drop s1)
              (prefx ||| 0x8000000000000000 >>> (2 * depth) |||
                0x4000000000000000 >>> (2 * depth)) with
          | none => none
          | some s2 =>
            match findSplit (agents.take s1)
                (prefx ||| 0x4000000000000000 >>> (2 * depth)) with
            | none => none
            | some s3 =>
              match proc bbox mapper fuel thresh
                  (prefx ||| 0x8000000000000000 >>> (2 * depth)) (depth + 1)
                  ⟨region.center.x, region.west, region.north,
                    region.center.y⟩
                  ((agents.drop s1).take s2)
                  (bldgs.filter (fun b =>
                    decide (region.center.y < (bbox b).north) &&
                    decide ((bbox b).west < region.center.x))) st with
              | none => none
              | some st1 =>
                match proc bbox mapper fuel thresh
                    (prefx ||| 0x8000000000000000 >>> (2 * depth) |||
                      0x4000000000000000 >>> (2 * depth)) (depth + 1)
                    ⟨region.east, region.center.x, region.north,
                      region.center.y⟩
                    ((agents.drop s1).drop s2)
                    (bldgs.filter (fun b =>
                      decide (region.center.y < (bbox b).north) &&
                      decide (region.center.x < (bbox b).east))) st1 with
                | none => none
                | some st2 =>
                  match proc bbox mapper fuel thresh prefx (depth + 1)
                      ⟨region.center.x, region.west, region.center.y,
                        region.south⟩
                      ((agents.take s1).take s3)
                      (bldgs.filter (fun b =>
                        decide ((bbox b).south < region.center.y) &&
                        decide ((bbox b).west < region.center.x))) st2 with
                  | none => none
                  | some st3 =>
                    proc bbox mapper fuel thresh
                      (prefx ||| 0x4000000000000000 >>> (2 * depth))
                      (depth + 1)
                      ⟨region.east, region.center.x, region.center.y,
                        region.south⟩
                      ((agents.take s1).drop s3)
                      (bldgs.filter (fun b =>
                        decide ((bbox b).south < region.center.y) &&
                        decide (region.center.x < (bbox b).east))) st3 := rfl

end UrbanTraffic

namespace UrbanTraffic

set_option maxHeartbeats 800000 in
/-- C7: at every internal node at depth `d < 32`, the X-bit and Y-bit are
`2^(62-2d)` and `2^(63-2d)` (the shifted constants), the four quadrant
prefixes are `p OR y_bit` (NW), `p OR y_bit OR x_bit` (NE),
`p OR x_bit` (SE) and `p` itself (SW), and every split point returned by
`find_split` on the Z-sorted agents is the first index at or above the
queried prefix: all agents strictly below it land in the lower subrange,
all others in the upper one (ties walk back to the lower quadrant). -/
theorem claim_C7 {β : Type} (bbox : β → QRegion)
    (mapper : ℕ → List β → β) :
    (∀ d : ℕ, d < 32 →
      (0x4000000000000000 : ℕ) >>> (2 * d) = 2 ^ (62 - 2 * d) ∧
      (0x8000000000000000 : ℕ) >>> (2 * d) = 2 ^ (63 - 2 * d)) ∧
    (∀ arr : List (ℕ × ℕ), arr.Pairwise (fun a b : ℕ × ℕ => a.2 ≤ b.2) →
      ∀ q : ℕ, ∃ c, findSplit arr q = some c ∧ c ≤ arr.length ∧
        c = arr.countP (fun t => decide (t.2 < q)) ∧
        (∀ t ∈ arr.take c, t.2 < q) ∧ (∀ t ∈ arr.drop c, q ≤ t.2)) ∧
    (∀ (fuel thresh prefx depth : ℕ) (region : QRegion)
        (agents : List (ℕ × ℕ)) (bldgs : List β) (st : List (Option β)),
      ¬ (agents.length = 0 ∨ bldgs.length = 0) →
      ¬ (agents.length < thresh ∨ bldgs.length < thresh) →
      depth < 32 →
      proc bbox mapper (fuel + 1) thresh prefx depth region agents bldgs
          st =
        match findSplit agents (prefx ||| 2 ^ (63 - 2 * depth)) with
        | none => none
        | some s1 =>
          match findSplit (agents.drop s1)
              (prefx ||| 2 ^ (63 - 2 * depth) ||| 2 ^ (62 - 2 * depth)) with
          | none => none
          | some s2 =>
            match findSplit (agents.take s1)
                (prefx ||| 2 ^ (62 - 2 * depth)) with
            | none => none
            | some s3 =>
              match proc bbox mapper fuel thresh
                  (prefx ||| 2 ^ (63 - 2 * depth)) (depth + 1)
                  ⟨region.center.x, region.west, region.north,
                    region.center.y⟩
                  ((agents.drop s1).take s2)
                  (bldgs.filter (fun b =>
                    decide (region.center.y < (bbox b).north) &&
                    decide ((bbox b).west < region.center.x))) st with
              | none => none
              | some st1 =>
                match proc bbox mapper fuel thresh
                    (prefx ||| 2 ^ (63 - 2 * depth) |||
                      2 ^ (62 - 2 * depth)) (depth + 1)
                    ⟨region.east, region.center.x, region.north,
                      region.center.y⟩
                    ((agents.drop s1).drop s2)
                    (bldgs.filter (fun b =>
                      decide (region.center.y < (bbox b).north) &&
                      decide (region.center.x < (bbox b).east))) st1 with
                | none => none
                | some st2 =>
                  match proc bbox mapper fuel thresh prefx (depth + 1)
                      ⟨region.center.x, region.west, region.center.y,
                        region.south⟩
                      ((agents.take s1).take s3)
                      (bldgs.filter (fun b =>
                        decide ((bbox b).south < region.center.y) &&
                        decide ((bbox b).west < region.center.x))) st2 with
                  | none => none
                  | some st3 =>
                    proc bbox mapper fuel thresh
                      (prefx ||| 2 ^ (62 - 2 * depth)) (depth + 1)
                      ⟨region.east, region.center.x, region.center.y,
                        region.south⟩
                      ((agents.take s1).drop s3)
                      (bldgs.filter (fun b =>
                        decide ((bbox b).south < region.center.y) &&
                        decide (region.center.x < (bbox b).east)))
                      st3) := by
  have hx : ∀ d : ℕ, d < 32 →
      (0x4000000000000000 : ℕ) >>> (2 * d) = 2 ^ (62 - 2 * d) := by
    intro d hd
    rw [Nat.shiftRight_eq_div_pow,
      show (0x4000000000000000 : ℕ) = 2 ^ 62 by norm_num]
    exact Nat.pow_div (by omega) (by norm_num)
  have hy : ∀ d : ℕ, d < 32 →
      (0x8000000000000000 : ℕ) >>> (2 * d) = 2 ^ (63 - 2 * d) := by
    intro d hd
    rw [Nat.shiftRight_eq_div_pow,
      show (0x8000000000000000 : ℕ) = 2 ^ 63 by norm_num]
    exact Nat.pow_div (by omega) (by norm_num)
  refine ⟨fun d hd => ⟨hx d hd, hy d hd⟩, ?_, ?_⟩
  · intro arr hs q
    obtain ⟨c, h1, h2, h4, h5⟩ := findSplit_parts arr hs q
    have h3 : c = arr.countP (fun t => decide (t.2 < q)) :=
      Option.some.inj (h1.symm.trans (findSplit_spec arr hs q))
    exact ⟨c, h1, h2, h3, h4, h5⟩
  · intro fuel thresh prefx depth region agents bldgs st h1 h2 h3
    rw [proc_step, if_neg h1, if_neg h2,
      if_neg (show ¬ 64 ≤ 2 * depth by omega),
      hx depth h3, hy depth h3]

end UrbanTraffic

namespace UrbanTraffic

set_option maxHeartbeats 800000 in
/-- Witness for C7: the depth-1 bit constants, a split with a tie run, and
one full four-quadrant step mapping four agents in four quadrants. -/
theorem claim_C7_witness :
    ((0x4000000000000000 : ℕ) >>> (2 * 1) = 2 ^ 60 ∧
      (0x8000000000000000 : ℕ) >>> (2 * 1) = 2 ^ 61) ∧
    (∃ c, findSplit [(0, 1), (1, 5), (2, 5), (3, 9)] 5 = some c ∧
      c ≤ ([(0, 1), (1, 5), (2, 5), (3, 9)] : List (ℕ × ℕ)).length ∧
      c = List.countP (fun t => decide (t.2 < 5))
        [(0, 1), (1, 5), (2, 5), (3, 9)] ∧
      (∀ t ∈ List.take c [(0, 1), (1, 5), (2, 5), (3, 9)], t.2 < 5) ∧
      (∀ t ∈ List.drop c [(0, 1), (1, 5), (2, 5), (3, 9)], 5 ≤ t.2)) ∧
    proc (fun _ : ℕ => (⟨1, 0, 1, 0⟩ : QRegion)) (fun a _ => a) (1 + 1) 2 0
        0 ⟨1, 0, 1, 0⟩ [(0, 5), (1, 2 ^ 62), (2, 2 ^ 63), (3, 2 ^ 63 + 2 ^ 62)]
        [5, 7] [none, none, none, none] =
      some [some 0, some 1, some 2, some 3] := by
  obtain ⟨h1, h2, h3⟩ :=
    claim_C7 (fun _ : ℕ => (⟨1, 0, 1, 0⟩ : QRegion)) (fun a _ => a)
  refine ⟨h1 1 (by omega), h2 [(0, 1), (1, 5), (2, 5), (3, 9)] (by decide) 5,
    ?_⟩
  refine (h3 1 2 0 0 ⟨1, 0, 1, 0⟩
    [(0, 5), (1, 2 ^ 62), (2, 2 ^ 63), (3, 2 ^ 63 + 2 ^ 62)] [5, 7]
    [none, none, none, none] (by decide) (by decide) (by omega)).trans ?_
  decide

end UrbanTraffic

namespace UrbanTraffic

/-- The leaf loop only consults the mapper on its (nonempty) building
list. -/
theorem mapLoop_congr {β : Type} (m1 m2 : ℕ → List β → β)
    (h : ∀ a bs, bs ≠ [] → m1 a bs = m2 a bs) (bldgs : List β)
    (hb : bldgs ≠ []) :
    ∀ agents st, mapLoop m1 bldgs agents st = mapLoop m2 bldgs agents st := by
  intro agents
  induction agents with
  | nil => intro st; rfl
  | cons t rest ih =>
    intro st
    unfold mapLoop
    rw [h t.1 bldgs hb]
    cases hws : writeSlot st t.1 (m2 t.1 bldgs) with
    | none => rfl
    | some st2 =>
      dsimp only
      exact ih st2

set_option maxHeartbeats 800000 in
/-- C10: `process_region` never consults the mapper on an empty building
slice — two mappers that agree on all nonempty building lists produce
identical recursions (states and aborts included), because the empty-agent
or empty-building guard returns before any mapping. -/
theorem claim_C10 {β : Type} (bbox : β → QRegion)
    (m1 m2 : ℕ → List β → β) (h : ∀ a bs, bs ≠ [] → m1 a bs = m2 a bs) :
    ∀ (fuel thresh prefx depth : ℕ) (region : QRegion)
      (agents : List (ℕ × ℕ)) (bldgs : List β) (st : List (Option β)),
      proc bbox m1 fuel thresh prefx depth region agents bldgs st =
        proc bbox m2 fuel thresh prefx depth region agents bldgs st := by
  intro fuel
  induction fuel with
  | zero => intro _ _ _ _ _ _ _; rfl
  | succ fuel ih =>
    intro thresh prefx depth region agents bldgs st
    rw [proc_step, proc_step]
    by_cases c1 : agents.length = 0 ∨ bldgs.length = 0
    · rw [if_pos c1, if_pos c1]
    · rw [if_neg c1, if_neg c1]
      by_cases c2 : agents.length < thresh ∨ bldgs.length < thresh
      · rw [if_pos c2, if_pos c2]
        refine mapLoop_congr m1 m2 h bldgs ?_ agents st
        intro hb
        exact c1 (Or.inr (by rw [hb]; rfl))
      · rw [if_neg c2, if_neg c2]
        by_cases c3 : 64 ≤ 2 * depth
        · rw [if_pos c3, if_pos c3]
        · rw [if_neg c3, if_neg c3]
          simp only [ih]

/-- Witness for C10: two mappers differing only on the empty slice yield
the same run on a below-threshold leaf. -/
theorem claim_C10_witness :
    (∀ (a : ℕ) (bs : List ℕ), bs ≠ [] →
      (fun (_ : ℕ) (bs : List ℕ) => bs.headD 0) a bs =
        (fun (_ : ℕ) (bs : List ℕ) => bs.headD 7) a bs) ∧
    proc (fun _ : ℕ => (⟨1, 0, 1, 0⟩ : QRegion))
        (fun (_ : ℕ) (bs : List ℕ) => bs.headD 0) 1 2 0 0 ⟨1, 0, 1, 0⟩
        [(0, 5)] [9] [none] =
      proc (fun _ : ℕ => (⟨1, 0, 1, 0⟩ : QRegion))
        (fun (_ : ℕ) (bs : List ℕ) => bs.headD 7) 1 2 0 0 ⟨1, 0, 1, 0⟩
        [(0, 5)] [9] [none] ∧
    proc (fun _ : ℕ => (⟨1, 0, 1, 0⟩ : QRegion))
        (fun (_ : ℕ) (bs : List ℕ) => bs.headD 0) 1 2 0 0 ⟨1, 0, 1, 0⟩
        [(0, 5)] [9] [none] = some [some 9] := by
  have h : ∀ (a : ℕ) (bs : List ℕ), bs ≠ [] →
      (fun (_ : ℕ) (bs : List ℕ) => bs.headD 0) a bs =
        (fun (_ : ℕ) (bs : List ℕ) => bs.headD 7) a bs := by
    intro a bs hb
    cases bs with
    | nil => exact absurd rfl hb
    | cons x xs => rfl
  refine ⟨h, ?_, by decide⟩
  exact claim_C10 (fun _ : ℕ => (⟨1, 0, 1, 0⟩ : QRegion)) _ _ h 1 2 0 0
    ⟨1, 0, 1, 0⟩ [(0, 5)] [9] [none]

end UrbanTraffic

namespace UrbanTraffic

/-- A successful indexed read is in bounds. -/
theorem listGet?_lt {β : Type} {l : List β} {i : ℕ} {v : β}
    (h : l[i]? = some v) : i < l.length := by
  by_contra hge
  rw [List.getElem?_eq_none (by omega)] at h
  cases h

/-- Writing an occupied slot aborts (`OnceCell::set(..).expect(..)`). -/
theorem writeSlot_occupied {β : Type} (st : List (Option β)) (idx : ℕ)
    (b c : β) (h : st[idx]? = some (some c)) : writeSlot st idx b = none := by
  unfold writeSlot
  rw [h]

/-- Writing a fresh slot succeeds and stores the value. -/
theorem writeSlot_fresh {β : Type} (st : List (Option β)) (idx : ℕ) (b : β)
    (h : st[idx]? = some none) :
    writeSlot st idx b = some (st.set idx (some b)) ∧
      (st.set idx (some b))[idx]? = some (some b) ∧
      (∀ j, j ≠ idx → (st.set idx (some b))[j]? = st[j]?) ∧
      (st.set idx (some b)).length = st.length := by
  refine ⟨by unfold writeSlot; rw [h], ?_, ?_, List.length_set st idx _⟩
  · exact List.getElem?_set_self (listGet?_lt h)
  · intro j hj
    exact List.getElem?_set_ne (fun hc => hj hc.symm)

/-- The leaf loop writes every agent of the leaf with the mapped building
and touches nothing else, provided the leaf's agent ids are distinct and
their slots fresh. -/
theorem mapLoop_spec {β : Type} (mapper : ℕ → List β → β) (bldgs : List β) :
    ∀ (agents : List (ℕ × ℕ)) (st : List (Option β)),
      (agents.map Prod.fst).Nodup →
      (∀ a ∈ agents.map Prod.fst, st[a]? = some none) →
      ∃ st', mapLoop mapper bldgs agents st = some st' ∧
        st'.length = st.length ∧
        (∀ id, id ∉ agents.map Prod.fst → st'[id]? = st[id]?) ∧
        (∀ t ∈ agents, st'[t.1]? = some (some (mapper t.1 bldgs))) := by
  intro agents
  induction agents with
  | nil =>
    intro st _ _
    exact ⟨st, rfl, rfl, fun _ _ => rfl, fun t ht => absurd ht
      (List.not_mem_nil t)⟩
  | cons t rest ih =>
    intro st hnd hfresh
    rw [List.map_cons, List.nodup_cons] at hnd
    obtain ⟨hnt, hnd'⟩ := hnd
    have hft : st[t.1]? = some none := hfresh t.1 (by simp)
    obtain ⟨hw, hwr, hwf, hwl⟩ := writeSlot_fresh st t.1 (mapper t.1 bldgs)
      hft
    have hfresh2 : ∀ a ∈ rest.map Prod.fst,
        (st.set t.1 (some (mapper t.1 bldgs)))[a]? = some none := by
      intro a ha
      rw [hwf a (fun hc => hnt (hc ▸ ha))]
      exact hfresh a (List.mem_cons_of_mem _ ha)
    obtain ⟨st', hst', hlen, hframe, hwrites⟩ := ih
      (st.set t.1 (some (mapper t.1 bldgs))) hnd' hfresh2
    refine ⟨st', ?_, by rw [hlen, hwl], ?_, ?_⟩
    · unfold mapLoop
      rw [hw]
      exact hst'
    · intro id hid
      rw [List.map_cons, List.mem_cons] at hid
      push_neg at hid
      rw [hframe id hid.2, hwf id hid.1]
    · intro u hu
      rcases List.mem_cons.mp hu with rfl | hu2
      · exact (hframe u.1 hnt).trans hwr
      · exact hwrites u hu2

end UrbanTraffic

namespace UrbanTraffic

/-- One-step unfolding of the write-set recursion. -/
theorem leafAssign_step {β : Type} (bbox : β → QRegion)
    (mapper : ℕ → List β → β) (fuel thresh prefx depth : ℕ)
    (region : QRegion) (agents : List (ℕ × ℕ)) (bldgs : List β) :
    leafAssign bbox mapper (fuel + 1) thresh prefx depth region agents
        bldgs =
      if agents.length = 0 ∨ bldgs.length = 0 then some []
      else if agents.length < thresh ∨ bldgs.length < thresh then
        some (agents.map (fun t => (t.1, mapper t.1 bldgs)))
      else if 64 ≤ 2 * depth then none
      else
        match findSplit agents
            (prefx ||| 0x8000000000000000 >>> (2 * depth)) with
        | none => none
        | some s1 =>
          match findSplit (agents.drop s1)
              (prefx ||| 0x8000000000000000 >>> (2 * depth) |||
                0x4000000000000000 >>> (2 * depth)) with
          | none => none
          | some s2 =>
            match findSplit (agents.take s1)
                (prefx ||| 0x4000000000000000 >>> (2 * depth)) with
            | none => none
            | some s3 =>
              match leafAssign bbox mapper fuel thresh
                  (prefx ||| 0x8000000000000000 >>> (2 * depth)) (depth + 1)
                  ⟨region.center.x, region.west, region.north,
                    region.center.y⟩
                  ((agents.drop s1).take s2)
                  (bldgs.filter (fun b =>
                    decide (region.center.y < (bbox b).north) &&
                    decide ((bbox b).west < region.center.x))) with
              | none => none
              | some lnw =>
                match leafAssign bbox mapper fuel thresh
                    (prefx ||| 0x8000000000000000 >>> (2 * depth) |||
                      0x4000000000000000 >>> (2 * depth)) (depth + 1)
                    ⟨region.east, region.center.x, region.north,
                      region.center.y⟩
                    ((agents.drop s1).drop s2)
                    (bldgs.filter (fun b =>
                      decide (region.center.y < (bbox b).north) &&
                      decide (region.center.x < (bbox b).east))) with
                | none => none
                | some lne =>
                  match leafAssign bbox mapper fuel thresh prefx (depth + 1)
                      ⟨region.center.x, region.west, region.center.y,
                        region.south⟩
                      ((agents.take s1).take s3)
                      (bldgs.filter (fun b =>
                        decide ((bbox b).south < region.center.y) &&
                        decide ((bbox b).west < region.center.x))) with
                  | none => none
                  | some lsw =>
                    match leafAssign bbox mapper fuel thresh
                        (prefx ||| 0x4000000000000000 >>> (2 * depth))
                        (depth + 1)
                        ⟨region.east, region.center.x, region.center.y,
                          region.south⟩
                        ((agents.take s1).drop s3)
                        (bldgs.filter (fun b =>
                          decide ((bbox b).south < region.center.y) &&
                          decide (region.center.x < (bbox b).east))) with
                    | none => none
                    | some lse => some (lnw ++ lne ++ lsw ++ lse) := rfl

end UrbanTraffic

namespace UrbanTraffic

/-- Distinctness of four selections out of four disjoint blocks. -/
theorem nodup_sub4 {A B C D a b c d : List ℕ}
    (hN : ((C ++ D) ++ (A ++ B)).Nodup)
    (ha : a ⊆ A) (hb : b ⊆ B) (hc : c ⊆ C) (hd : d ⊆ D)
    (hna : a.Nodup) (hnb : b.Nodup) (hnc : c.Nodup) (hnd : d.Nodup) :
    (a ++ b ++ c ++ d).Nodup := by
  rw [List.nodup_append] at hN
  obtain ⟨hCD, hAB, hdisj⟩ := hN
  rw [List.nodup_append] at hCD hAB
  obtain ⟨_, _, hCdD⟩ := hCD
  obtain ⟨_, _, hAdB⟩ := hAB
  have dAB : A.Disjoint B := hAdB
  have dCD : C.Disjoint D := hCdD
  have dCA : C.Disjoint A := fun x hx hx2 =>
    hdisj (List.mem_append_left D hx) (List.mem_append_left B hx2)
  have dCB : C.Disjoint B := fun x hx hx2 =>
    hdisj (List.mem_append_left D hx) (List.mem_append_right A hx2)
  have dDA : D.Disjoint A := fun x hx hx2 =>
    hdisj (List.mem_append_right C hx) (List.mem_append_left B hx2)
  have dDB : D.Disjoint B := fun x hx hx2 =>
    hdisj (List.mem_append_right C hx) (List.mem_append_right A hx2)
  rw [List.nodup_append, List.nodup_append, List.nodup_append]
  refine ⟨⟨⟨hna, hnb, ?_⟩, hnc, ?_⟩, hnd, ?_⟩
  · exact fun x hx hx2 => dAB (ha hx) (hb hx2)
  · intro x hx hx2
    rcases List.mem_append.mp hx with h1 | h1
    · exact dCA (hc hx2) (ha h1)
    · exact dCB (hc hx2) (hb h1)
  · intro x hx hx2
    rcases List.mem_append.mp hx with h1 | h1
    · rcases List.mem_append.mp h1 with h2 | h2
      · exact dDA (hd hx2) (ha h2)
      · exact dDB (hd hx2) (hb h2)
    · exact dCD (hc h1) (hd hx2)

end UrbanTraffic

namespace UrbanTraffic

set_option maxHeartbeats 1600000 in
/-- The write set draws distinct agent ids from the processed agents, and
every written building is the mapper's answer on a nonempty building
list. -/
theorem leafAssign_ids {β : Type} (bbox : β → QRegion)
    (mapper : ℕ → List β → β) :
    ∀ (fuel thresh prefx depth : ℕ) (region : QRegion)
      (agents : List (ℕ × ℕ)) (bldgs : List β) (L : List (ℕ × β)),
      leafAssign bbox mapper fuel thresh prefx depth region agents bldgs =
        some L →
      (∀ a ∈ L.map Prod.fst, a ∈ agents.map Prod.fst) ∧
      ((agents.map Prod.fst).Nodup → (L.map Prod.fst).Nodup) ∧
      (∀ p ∈ L, ∃ bs, bs ≠ [] ∧ p.2 = mapper p.1 bs) := by
  intro fuel
  induction fuel with
  | zero =>
    intro thresh prefx depth region agents bldgs L h
    rw [show leafAssign bbox mapper 0 thresh prefx depth region agents
      bldgs = none from rfl] at h
    cases h
  | succ fuel ih =>
    intro thresh prefx depth region agents bldgs L h
    rw [leafAssign_step] at h
    by_cases c1 : agents.length = 0 ∨ bldgs.length = 0
    · rw [if_pos c1] at h
      obtain rfl : ([] : List (ℕ × β)) = L := Option.some.inj h
      exact ⟨by simp, by simp, by simp⟩
    · rw [if_neg c1] at h
      by_cases c2 : agents.length < thresh ∨ bldgs.length < thresh
      · rw [if_pos c2] at h
        obtain rfl : agents.map (fun t => (t.1, mapper t.1 bldgs)) = L :=
          Option.some.inj h
        have hmap : (agents.map (fun t => (t.1, mapper t.1 bldgs))).map
            Prod.fst = agents.map Prod.fst := by
          rw [List.map_map]
          rfl
        refine ⟨?_, ?_, ?_⟩
        · rw [hmap]
          exact fun a ha => ha
        · rw [hmap]
          exact fun hn => hn
        · intro p hp
          obtain ⟨t, _, rfl⟩ := List.mem_map.mp hp
          refine ⟨bldgs, ?_, rfl⟩
          intro hb
          exact c1 (Or.inr (by rw [hb]; rfl))
      · rw [if_neg c2] at h
        by_cases c3 : 64 ≤ 2 * depth
        · rw [if_pos c3] at h
          cases h
        · rw [if_neg c3] at h
          cases hs1 : findSplit agents
              (prefx ||| 0x8000000000000000 >>> (2 * depth)) with
          | none => rw [hs1] at h; cases h
          | some s1 =>
          rw [hs1] at h
          dsimp only at h
          cases hs2 : findSplit (agents.drop s1)
              (prefx ||| 0x8000000000000000 >>> (2 * depth) |||
                0x4000000000000000 >>> (2 * depth)) with
          | none => rw [hs2] at h; cases h
          | some s2 =>
          rw [hs2] at h
          dsimp only at h
          cases hs3 : findSplit (agents.take s1)
              (prefx ||| 0x4000000000000000 >>> (2 * depth)) with
          | none => rw [hs3] at h; cases h
          | some s3 =>
          rw [hs3] at h
          dsimp only at h
          cases hnw : leafAssign bbox mapper fuel thresh
              (prefx ||| 0x8000000000000000 >>> (2 * depth)) (depth + 1)
              ⟨region.center.x, region.west, region.north, region.center.y⟩
              ((agents.drop s1).take s2)
              (bldgs.filter (fun b =>
                decide (region.center.y < (bbox b).north) &&
                decide ((bbox b).west < region.center.x))) with
          | none => rw [hnw] at h; cases h
          | some lnw =>
          rw [hnw] at h
          dsimp only at h
          cases hne : leafAssign bbox mapper fuel thresh
              (prefx ||| 0x8000000000000000 >>> (2 * depth) |||
                0x4000000000000000 >>> (2 * depth)) (depth + 1)
              ⟨region.east, region.center.x, region.north,
                region.center.y⟩
              ((agents.drop s1).drop s2)
              (bldgs.filter (fun b =>
                decide (region.center.y < (bbox b).north) &&
                decide (region.center.x < (bbox b).east))) with
          | none => rw [hne] at h; cases h
          | some lne =>
          rw [hne] at h
          dsimp only at h
          cases hsw : leafAssign bbox mapper fuel thresh prefx (depth + 1)
              ⟨region.center.x, region.west, region.center.y,
                region.south⟩
              ((agents.take s1).take s3)
              (bldgs.filter (fun b =>
                decide ((bbox b).south < region.center.y) &&
                decide ((bbox b).west < region.center.x))) with
          | none => rw [hsw] at h; cases h
          | some lsw =>
          rw [hsw] at h
          dsimp only at h
          cases hse : leafAssign bbox mapper fuel thresh
              (prefx ||| 0x4000000000000000 >>> (2 * depth)) (depth + 1)
              ⟨region.east, region.center.x, region.center.y,
                region.south⟩
              ((agents.take s1).drop s3)
              (bldgs.filter (fun b =>
                decide ((bbox b).south < region.center.y) &&
                decide (region.center.x < (bbox b).east))) with
          | none => rw [hse] at h; cases h
          | some lse =>
          rw [hse] at h
          dsimp only at h
          obtain rfl : lnw ++ lne ++ lsw ++ lse = L := Option.some.inj h
          obtain ⟨nwSub, nwNd, nwB⟩ := ih _ _ _ _ _ _ _ hnw
          obtain ⟨neSub, neNd, neB⟩ := ih _ _ _ _ _ _ _ hne
          obtain ⟨swSub, swNd, swB⟩ := ih _ _ _ _ _ _ _ hsw
          obtain ⟨seSub, seNd, seB⟩ := ih _ _ _ _ _ _ _ hse
          have sNW : ((agents.drop s1).take s2).Sublist agents :=
            (List.take_sublist _ _).trans (List.drop_sublist _ _)
          have sNE : ((agents.drop s1).drop s2).Sublist agents :=
            (List.drop_sublist _ _).trans (List.drop_sublist _ _)
          have sSW : ((agents.take s1).take s3).Sublist agents :=
            (List.take_sublist _ _).trans (List.take_sublist _ _)
          have sSE : ((agents.take s1).drop s3).Sublist agents :=
            (List.drop_sublist _ _).trans (List.take_sublist _ _)
          refine ⟨?_, ?_, ?_⟩
          · intro a ha
            simp only [List.map_append, List.mem_append] at ha
            rcases ha with ((h1 | h1) | h1) | h1
            · exact List.map_subset Prod.fst sNW.subset (nwSub a h1)
            · exact List.map_subset Prod.fst sNE.subset (neSub a h1)
            · exact List.map_subset Prod.fst sSW.subset (swSub a h1)
            · exact List.map_subset Prod.fst sSE.subset (seSub a h1)
          · intro hN
            have hEq : ((agents.take s1).take s3 ++
                (agents.take s1).drop s3) ++
                ((agents.drop s1).take s2 ++ (agents.drop s1).drop s2) =
                agents := by
              rw [List.take_append_drop, List.take_append_drop,
                List.take_append_drop]
            have hN2 : (((((agents.take s1).take s3).map Prod.fst ++
                ((agents.take s1).drop s3).map Prod.fst)) ++
                ((((agents.drop s1).take s2).map Prod.fst ++
                ((agents.drop s1).drop s2).map Prod.fst))).Nodup := by
              rw [← List.map_append, ← List.map_append, ← List.map_append,
                hEq]
              exact hN
            simp only [List.map_append]
            exact nodup_sub4 hN2
              (fun x hx => nwSub x hx) (fun x hx => neSub x hx)
              (fun x hx => swSub x hx) (fun x hx => seSub x hx)
              (nwNd ((sNW.map Prod.fst).nodup hN))
              (neNd ((sNE.map Prod.fst).nodup hN))
              (swNd ((sSW.map Prod.fst).nodup hN))
              (seNd ((sSE.map Prod.fst).nodup hN))
          · intro p hp
            simp only [List.mem_append] at hp
            rcases hp with ((h1 | h1) | h1) | h1
            · exact nwB p h1
            · exact neB p h1
            · exact swB p h1
            · exact seB p h1

end UrbanTraffic

namespace UrbanTraffic

/-- The six disjointness facts of four distinct blocks. -/
theorem disjoint_blocks4 {A B C D : List ℕ}
    (hN : ((C ++ D) ++ (A ++ B)).Nodup) :
    A.Disjoint B ∧ C.Disjoint D ∧ C.Disjoint A ∧ C.Disjoint B ∧
      D.Disjoint A ∧ D.Disjoint B := by
  rw [List.nodup_append] at hN
  obtain ⟨hCD, hAB, hdisj⟩ := hN
  rw [List.nodup_append] at hCD hAB
  exact ⟨hAB.2.2, hCD.2.2,
    fun x hx hx2 =>
      hdisj (List.mem_append_left D hx) (List.mem_append_left B hx2),
    fun x hx hx2 =>
      hdisj (List.mem_append_left D hx) (List.mem_append_right A hx2),
    fun x hx hx2 =>
      hdisj (List.mem_append_right C hx) (List.mem_append_left B hx2),
    fun x hx hx2 =>
      hdisj (List.mem_append_right C hx) (List.mem_append_right A hx2)⟩

end UrbanTraffic

namespace UrbanTraffic

set_option maxHeartbeats 3200000 in
/-- `process_region` writes exactly its write set: starting from fresh,
distinct slots it succeeds, writes every pair of the write set once, and
leaves every other slot untouched. -/
theorem proc_spec {β : Type} (bbox : β → QRegion)
    (mapper : ℕ → List β → β) :
    ∀ (fuel thresh prefx depth : ℕ) (region : QRegion)
      (agents : List (ℕ × ℕ)) (bldgs : List β) (st : List (Option β))
      (L : List (ℕ × β)),
      (agents.map Prod.fst).Nodup →
      (∀ a ∈ agents.map Prod.fst, st[a]? = some none) →
      leafAssign bbox mapper fuel thresh prefx depth region agents bldgs =
        some L →
      ∃ st', proc bbox mapper fuel thresh prefx depth region agents bldgs
          st = some st' ∧
        st'.length = st.length ∧
        (∀ id, id ∉ L.map Prod.fst → st'[id]? = st[id]?) ∧
        (∀ p ∈ L, st'[p.1]? = some (some p.2)) := by
  intro fuel
  induction fuel with
  | zero =>
    intro thresh prefx depth region agents bldgs st L _ _ h
    rw [show leafAssign bbox mapper 0 thresh prefx depth region agents
      bldgs = none from rfl] at h
    cases h
  | succ fuel ih =>
    intro thresh prefx depth region agents bldgs st L hN hfresh h
    rw [leafAssign_step] at h
    by_cases c1 : agents.length = 0 ∨ bldgs.length = 0
    · rw [if_pos c1] at h
      obtain rfl : ([] : List (ℕ × β)) = L := Option.some.inj h
      refine ⟨st, ?_, rfl, fun _ _ => rfl, fun p hp => absurd hp
        (List.not_mem_nil p)⟩
      rw [proc_step, if_pos c1]
    · rw [if_neg c1] at h
      by_cases c2 : agents.length < thresh ∨ bldgs.length < thresh
      · rw [if_pos c2] at h
        obtain rfl : agents.map (fun t => (t.1, mapper t.1 bldgs)) = L :=
          Option.some.inj h
        obtain ⟨st', hml, hlen, hframe, hwr⟩ :=
          mapLoop_spec mapper bldgs agents st hN hfresh
        have hmap : (agents.map (fun t => (t.1, mapper t.1 bldgs))).map
            Prod.fst = agents.map Prod.fst := by
          rw [List.map_map]
          rfl
        refine ⟨st', ?_, hlen, ?_, ?_⟩
        · rw [proc_step, if_neg c1, if_pos c2]
          exact hml
        · intro id hid
          rw [hmap] at hid
          exact hframe id hid
        · intro p hp
          obtain ⟨t, ht, rfl⟩ := List.mem_map.mp hp
          exact hwr t ht
      · rw [if_neg c2] at h
        by_cases c3 : 64 ≤ 2 * depth
        · rw [if_pos c3] at h
          cases h
        · rw [if_neg c3] at h
          cases hs1 : findSplit agents
              (prefx ||| 0x8000000000000000 >>> (2 * depth)) with
          | none => rw [hs1] at h; cases h
          | some s1 =>
          rw [hs1] at h
          dsimp only at h
          cases hs2 : findSplit (agents.drop s1)
              (prefx ||| 0x8000000000000000 >>> (2 * depth) |||
                0x4000000000000000 >>> (2 * depth)) with
          | none => rw [hs2] at h; cases h
          | some s2 =>
          rw [hs2] at h
          dsimp only at h
          cases hs3 : findSplit (agents.take s1)
              (prefx ||| 0x4000000000000000 >>> (2 * depth)) with
          | none => rw [hs3] at h; cases h
          | some s3 =>
          rw [hs3] at h
          dsimp only at h
          cases hnwE : leafAssign bbox mapper fuel thresh
              (prefx ||| 0x8000000000000000 >>> (2 * depth)) (depth + 1)
              ⟨region.center.x, region.west, region.north, region.center.y⟩
              ((agents.drop s1).take s2)
              (bldgs.filter (fun b =>
                decide (region.center.y < (bbox b).north) &&
                decide ((bbox b).west < region.center.x))) with
          | none => rw [hnwE] at h; cases h
          | some lnw =>
          rw [hnwE] at h
          dsimp only at h
          cases hneE : leafAssign bbox mapper fuel thresh
              (prefx ||| 0x8000000000000000 >>> (2 * depth) |||
                0x4000000000000000 >>> (2 * depth)) (depth + 1)
              ⟨region.east, region.center.x, region.north,
                region.center.y⟩
              ((agents.drop s1).drop s2)
              (bldgs.filter (fun b =>
                decide (region.center.y < (bbox b).north) &&
                decide (region.center.x < (bbox b).east))) with
          | none => rw [hneE] at h; cases h
          | some lne =>
          rw [hneE] at h
          dsimp only at h
          cases hswE : leafAssign bbox mapper fuel thresh prefx (depth + 1)
              ⟨region.center.x, region.west, region.center.y,
                region.south⟩
              ((agents.take s1).take s3)
              (bldgs.filter (fun b =>
                decide ((bbox b).south < region.center.y) &&
                decide ((bbox b).west < region.center.x))) with
          | none => rw [hswE] at h; cases h
          | some lsw =>
          rw [hswE] at h
          dsimp only at h
          cases hseE : leafAssign bbox mapper fuel thresh
              (prefx ||| 0x4000000000000000 >>> (2 * depth)) (depth + 1)
              ⟨region.east, region.center.x, region.center.y,
                region.south⟩
              ((agents.take s1).drop s3)
              (bldgs.filter (fun b =>
                decide ((bbox b).south < region.center.y) &&
                decide (region.center.x < (bbox b).east))) with
          | none => rw [hseE] at h; cases h
          | some lse =>
          rw [hseE] at h
          dsimp only at h
          obtain rfl : lnw ++ lne ++ lsw ++ lse = L := Option.some.inj h
          obtain ⟨nwSub, _, _⟩ := leafAssign_ids bbox mapper _ _ _ _ _ _ _ _
            hnwE
          obtain ⟨neSub, _, _⟩ := leafAssign_ids bbox mapper _ _ _ _ _ _ _ _
            hneE
          obtain ⟨swSub, _, _⟩ := leafAssign_ids bbox mapper _ _ _ _ _ _ _ _
            hswE
          obtain ⟨seSub, _, _⟩ := leafAssign_ids bbox mapper _ _ _ _ _ _ _ _
            hseE
          have sNW : ((agents.drop s1).take s2).Sublist agents :=
            (List.take_sublist _ _).trans (List.drop_sublist _ _)
          have sNE : ((agents.drop s1).drop s2).Sublist agents :=
            (List.drop_sublist _ _).trans (List.drop_sublist _ _)
          have sSW : ((agents.take s1).take s3).Sublist agents :=
            (List.take_sublist _ _).trans (List.take_sublist _ _)
          have sSE : ((agents.take s1).drop s3).Sublist agents :=
            (List.drop_sublist _ _).trans (List.take_sublist _ _)
          have hEq : ((agents.take s1).take s3 ++
              (agents.take s1).drop s3) ++
              ((agents.drop s1).take s2 ++ (agents.drop s1).drop s2) =
              agents := by
            rw [List.take_append_drop, List.take_append_drop,
              List.take_append_drop]
          have hN2 : (((((agents.take s1).take s3).map Prod.fst ++
              ((agents.take s1).drop s3).map Prod.fst)) ++
              ((((agents.drop s1).take s2).map Prod.fst ++
              ((agents.drop s1).drop s2).map Prod.fst))).Nodup := by
            rw [← List.map_append, ← List.map_append, ← List.map_append,
              hEq]
            exact hN
          obtain ⟨dAB, dCD, dCA, dCB, dDA, dDB⟩ := disjoint_blocks4 hN2
          obtain ⟨st1, hp1, hl1, hf1, hw1⟩ := ih _ _ _ _ _ _ st lnw
            ((sNW.map Prod.fst).nodup hN)
            (fun a ha => hfresh a (List.map_subset Prod.fst sNW.subset ha))
            hnwE
          obtain ⟨st2, hp2, hl2, hf2, hw2⟩ := ih _ _ _ _ _ _ st1 lne
            ((sNE.map Prod.fst).nodup hN)
            (fun a ha => by
              rw [hf1 a (fun hc => dAB (nwSub a hc) ha)]
              exact hfresh a (List.map_subset Prod.fst sNE.subset ha))
            hneE
          obtain ⟨st3, hp3, hl3, hf3, hw3⟩ := ih _ _ _ _ _ _ st2 lsw
            ((sSW.map Prod.fst).nodup hN)
            (fun a ha => by
              rw [hf2 a (fun hc => dCB ha (neSub a hc)),
                hf1 a (fun hc => dCA ha (nwSub a hc))]
              exact hfresh a (List.map_subset Prod.fst sSW.subset ha))
            hswE
          obtain ⟨st4, hp4, hl4, hf4, hw4⟩ := ih _ _ _ _ _ _ st3 lse
            ((sSE.map Prod.fst).nodup hN)
            (fun a ha => by
              rw [hf3 a (fun hc => dCD (swSub a hc) ha),
                hf2 a (fun hc => dDB ha (neSub a hc)),
                hf1 a (fun hc => dDA ha (nwSub a hc))]
              exact hfresh a (List.map_subset Prod.fst sSE.subset ha))
            hseE
          refine ⟨st4, ?_, by rw [hl4, hl3, hl2, hl1], ?_, ?_⟩
          · rw [proc_step, if_neg c1, if_neg c2, if_neg c3, hs1]
            dsimp only
            rw [hs2]
            dsimp only
            rw [hs3]
            dsimp only
            rw [hp1]
            dsimp only
            rw [hp2]
            dsimp only
            rw [hp3]
            dsimp only
            exact hp4
          · intro id hid
            simp only [List.map_append, List.mem_append] at hid
            push_neg at hid
            rw [hf4 id hid.2, hf3 id hid.1.2, hf2 id hid.1.1.2,
              hf1 id hid.1.1.1]
          · intro p hp
            simp only [List.mem_append] at hp
            rcases hp with ((h1 | h1) | h1) | h1
            · have hmem : p.1 ∈ lnw.map Prod.fst :=
                List.mem_map.mpr ⟨p, h1, rfl⟩
              rw [hf4 p.1 (fun hc => dDA (seSub p.1 hc) (nwSub p.1 hmem)),
                hf3 p.1 (fun hc => dCA (swSub p.1 hc) (nwSub p.1 hmem)),
                hf2 p.1 (fun hc => dAB (nwSub p.1 hmem) (neSub p.1 hc))]
              exact hw1 p h1
            · have hmem : p.1 ∈ lne.map Prod.fst :=
                List.mem_map.mpr ⟨p, h1, rfl⟩
              rw [hf4 p.1 (fun hc => dDB (seSub p.1 hc) (neSub p.1 hmem)),
                hf3 p.1 (fun hc => dCB (swSub p.1 hc) (neSub p.1 hmem))]
              exact hw2 p h1
            · have hmem : p.1 ∈ lsw.map Prod.fst :=
                List.mem_map.mpr ⟨p, h1, rfl⟩
              rw [hf4 p.1 (fun hc => dCD (swSub p.1 hmem) (seSub p.1 hc))]
              exact hw3 p h1
            · exact hw4 p h1

end UrbanTraffic

namespace UrbanTraffic

/-- The final `filter_map` keeps exactly the agents with a written slot,
paired with the written building. -/
theorem harvest_mem {β : Type} (agents : List (ℕ × ℕ))
    (st : List (Option β)) (a : ℕ) (b : β) :
    (a, b) ∈ harvest agents st ↔
      ∃ z, (a, z) ∈ agents ∧ st[a]? = some (some b) := by
  unfold harvest
  rw [List.mem_filterMap]
  constructor
  · rintro ⟨t, ht, hf⟩
    cases hg : st[t.1]? with
    | none => rw [hg] at hf; cases hf
    | some o =>
      cases o with
      | none => rw [hg] at hf; cases hf
      | some b2 =>
        rw [hg] at hf
        dsimp only at hf
        have hpair := Option.some.inj hf
        rw [Prod.ext_iff] at hpair
        obtain ⟨h1, h2⟩ := hpair
        dsimp only at h1 h2
        refine ⟨t.2, ?_, ?_⟩
        · rw [← h1]
          exact ht
        · rw [← h1, hg, h2]
  · rintro ⟨z, hz, hst⟩
    exact ⟨(a, z), hz, by rw [hst]⟩

set_option maxHeartbeats 1600000 in
/-- C8: a second write to an agent slot aborts; across the whole recursion,
starting from fresh distinct slots, the run succeeds and writes exactly its
write set — distinct agents drawn from the processed range, each with the
mapper's answer on a nonempty building list — every untouched slot is
unchanged, and the final harvest contains exactly the written pairs. -/
theorem claim_C8 {β : Type} (bbox : β → QRegion)
    (mapper : ℕ → List β → β) :
    (∀ (st : List (Option β)) (idx : ℕ) (b c : β),
      st[idx]? = some (some c) → writeSlot st idx b = none) ∧
    (∀ (agents : List (ℕ × ℕ)) (st : List (Option β)) (a : ℕ) (b : β),
      (a, b) ∈ harvest agents st ↔
        ∃ z, (a, z) ∈ agents ∧ st[a]? = some (some b)) ∧
    (∀ (fuel thresh prefx depth : ℕ) (region : QRegion)
        (agents : List (ℕ × ℕ)) (bldgs : List β) (st : List (Option β))
        (L : List (ℕ × β)),
      (agents.map Prod.fst).Nodup →
      (∀ a ∈ agents.map Prod.fst, st[a]? = some none) →
      leafAssign bbox mapper fuel thresh prefx depth region agents bldgs =
        some L →
      (L.map Prod.fst).Nodup ∧
      (∀ a ∈ L.map Prod.fst, a ∈ agents.map Prod.fst) ∧
      (∀ p ∈ L, ∃ bs, bs ≠ [] ∧ p.2 = mapper p.1 bs) ∧
      ∃ st', proc bbox mapper fuel thresh prefx depth region agents bldgs
          st = some st' ∧
        st'.length = st.length ∧
        (∀ id, id ∉ L.map Prod.fst → st'[id]? = st[id]?) ∧
        (∀ p ∈ L, st'[p.1]? = some (some p.2)) ∧
        (∀ a b2, (a, b2) ∈ harvest agents st' ↔ (a, b2) ∈ L)) := by
  refine ⟨fun st idx b c h => writeSlot_occupied st idx b c h,
    fun agents st a b => harvest_mem agents st a b, ?_⟩
  intro fuel thresh prefx depth region agents bldgs st L hN hfresh h
  obtain ⟨hsub, hnd, hbs⟩ := leafAssign_ids bbox mapper _ _ _ _ _ _ _ _ h
  obtain ⟨st', hproc, hlen, hframe, hwrites⟩ :=
    proc_spec bbox mapper _ _ _ _ _ _ _ st L hN hfresh h
  refine ⟨hnd hN, hsub, hbs, st', hproc, hlen, hframe, hwrites, ?_⟩
  intro a b2
  rw [harvest_mem]
  constructor
  · rintro ⟨z, hz, hst⟩
    by_cases hmem : a ∈ L.map Prod.fst
    · obtain ⟨p, hpL, hpa⟩ := List.mem_map.mp hmem
      have hw := hwrites p hpL
      rw [hpa] at hw
      rw [hw] at hst
      have hb : b2 = p.2 := Option.some.inj (Option.some.inj hst.symm)
      have hap : (a, b2) = p := by
        rw [← hpa, hb]
      rw [hap]
      exact hpL
    · exfalso
      rw [hframe a hmem,
        hfresh a (List.mem_map.mpr ⟨(a, z), hz, rfl⟩)] at hst
      cases Option.some.inj hst
  · intro hpL2
    have hida : a ∈ agents.map Prod.fst :=
      hsub a (List.mem_map.mpr ⟨(a, b2), hpL2, rfl⟩)
    obtain ⟨t, ht, hta⟩ := List.mem_map.mp hida
    refine ⟨t.2, ?_, ?_⟩
    · rw [← hta]
      exact ht
    · exact hwrites (a, b2) hpL2

end UrbanTraffic

namespace UrbanTraffic

set_option maxHeartbeats 800000 in
/-- Witness for C8: an occupied-slot abort, the harvest description, and a
two-agent below-threshold run writing both slots. -/
theorem claim_C8_witness :
    (([some 3] : List (Option ℕ))[0]? = some (some 3) ∧
      writeSlot ([some 3] : List (Option ℕ)) 0 5 = none) ∧
    (((0 : ℕ), (9 : ℕ)) ∈ harvest [(0, 5), (1, 7)]
        ([some 9, some 9] : List (Option ℕ)) ↔
      ∃ z, ((0 : ℕ), z) ∈ ([(0, 5), (1, 7)] : List (ℕ × ℕ)) ∧
        ([some 9, some 9] : List (Option ℕ))[(0 : ℕ)]? = some (some 9)) ∧
    ((([(0, 9), (1, 9)] : List (ℕ × ℕ)).map Prod.fst).Nodup ∧
      (∀ a ∈ ([(0, 9), (1, 9)] : List (ℕ × ℕ)).map Prod.fst,
        a ∈ ([(0, 5), (1, 7)] : List (ℕ × ℕ)).map Prod.fst) ∧
      (∀ p ∈ ([(0, 9), (1, 9)] : List (ℕ × ℕ)),
        ∃ bs, bs ≠ [] ∧
          p.2 = (fun (_ : ℕ) (bs : List ℕ) => bs.headD 0) p.1 bs) ∧
      ∃ st', proc (fun _ : ℕ => (⟨1, 0, 1, 0⟩ : QRegion))
          (fun (_ : ℕ) (bs : List ℕ) => bs.headD 0) 1 5 0 0 ⟨1, 0, 1, 0⟩
          [(0, 5), (1, 7)] [9] [none, none] = some st' ∧
        st'.length = ([none, none] : List (Option ℕ)).length ∧
        (∀ id, id ∉ ([(0, 9), (1, 9)] : List (ℕ × ℕ)).map Prod.fst →
          st'[id]? = ([none, none] : List (Option ℕ))[id]?) ∧
        (∀ p ∈ ([(0, 9), (1, 9)] : List (ℕ × ℕ)),
          st'[p.1]? = some (some p.2)) ∧
        (∀ a b2, (a, b2) ∈ harvest [(0, 5), (1, 7)] st' ↔
          (a, b2) ∈ ([(0, 9), (1, 9)] : List (ℕ × ℕ)))) := by
  have h := claim_C8 (fun _ : ℕ => (⟨1, 0, 1, 0⟩ : QRegion))
    (fun (_ : ℕ) (bs : List ℕ) => bs.headD 0)
  refine ⟨⟨by decide, h.1 [some 3] 0 5 3 (by decide)⟩, ?_, ?_⟩
  · exact h.2.1 [(0, 5), (1, 7)] [some 9, some 9] 0 9
  · exact h.2.2 1 5 0 0 ⟨1, 0, 1, 0⟩ [(0, 5), (1, 7)] [9] [none, none]
      [(0, 9), (1, 9)] (by decide) (by decide) (by decide)

end UrbanTraffic

namespace UrbanTraffic

/-! ## C9: map_vehicles stage 1 — bounding region (quadtree.rs)

`reduce_region_point`, `reduce_regions` and `min_region` fold all agent
positions and building bounding boxes (non-NaN doubles modelled by `Ext`)
into one region; `map_vehicles` then asserts `west < east` and
`south < north`.  The rayon fold/reduce with identity `min_region` is
modelled by a sequential left fold. -/

/-- A region whose edges are non-NaN doubles (geo.rs `Region`; `Region::new`
takes the edges in the order east, west, north, south). -/
structure ERegion where
  east : Ext
  west : Ext
  north : Ext
  south : Ext
deriving DecidableEq

/-- A point with non-NaN double coordinates. -/
structure EPoint where
  x : Ext
  y : Ext
deriving DecidableEq

/-- quadtree.rs `reduce_region_point`: grow `a` to cover the point `b`.
Each of the four `if` statements in the source writes a distinct field and
reads only the original fields, so simultaneous assignment is faithful. -/
def reduceRegionPoint (a : ERegion) (b : EPoint) : ERegion :=
  { west := if b.x.lt a.west then b.x else a.west
    east := if a.east.lt b.x then b.x else a.east
    north := if a.north.lt b.y then b.y else a.north
    south := if b.y.lt a.south then b.y else a.south }

/-- quadtree.rs `reduce_regions`: grow `a` to cover the region `b`. -/
def reduceRegions (a b : ERegion) : ERegion :=
  { west := if b.west.lt a.west then b.west else a.west
    east := if a.east.lt b.east then b.east else a.east
    south := if b.south.lt a.south then b.south else a.south
    north := if a.north.lt b.north then b.north else a.north }

/-- quadtree.rs `min_region`:
`Region::new(NEG_INFINITY, INFINITY, NEG_INFINITY, INFINITY)`,
i.e. east = −∞, west = +∞, north = −∞, south = +∞. -/
def minRegion : ERegion := ⟨.ninf, .pinf, .ninf, .pinf⟩

/-- Stage 1 of `map_vehicles`: fold all building bounding boxes and all
agent positions from `min_region` and merge the two partial regions. -/
def computeRegion (agents : List EPoint) (bldgs : List ERegion) : ERegion :=
  reduceRegions (bldgs.foldl reduceRegions minRegion)
    (agents.foldl reduceRegionPoint minRegion)

/-- The two `assert!`s in `map_vehicles`: the region is returned only when
`west < east` and `south < north`; otherwise the program aborts (`none`). -/
def validatedRegion (agents : List EPoint) (bldgs : List ERegion) :
    Option ERegion :=
  if Ext.lt (computeRegion agents bldgs).west (computeRegion agents bldgs).east
        = true ∧
      Ext.lt (computeRegion agents bldgs).south
        (computeRegion agents bldgs).north = true
  then some (computeRegion agents bldgs) else none

/-- Spec-modelled STRICT containment of a point, following the claim's words
"strictly contains every agent position"; compared against the behaviour of
`computeRegion` to refute the claim as stated. -/
def strictContainsSpec (r : ERegion) (p : EPoint) : Bool :=
  r.west.lt p.x && p.x.lt r.east && r.south.lt p.y && p.y.lt r.north

namespace Ext

theorem lt_irrefl (a : Ext) : lt a a = false := by
  cases a <;> simp [lt]

theorem le_refl (a : Ext) : le a a = true := by
  simp [le, lt_irrefl]

theorem le_of_lt {a b : Ext} (h : lt a b = true) : le a b = true := by
  cases a <;> cases b <;> simp_all [le, lt] <;> linarith

theorem le_of_not_lt {a b : Ext} (h : lt a b = false) : le b a = true := by
  simp [le, h]

theorem le_iff_not_lt (a b : Ext) : le a b = true ↔ lt b a = false := by
  simp [le]

theorem le_transfer {a b c : Ext} (h1 : le a b = true) (h2 : le b c = true) :
    le a c = true := by
  cases a <;> cases b <;> cases c <;> simp_all [le, lt] <;> linarith

end Ext

/-- `r` lies within `s`: every edge of `s` is at or beyond the matching edge
of `r`. -/
def ERegion.within (r s : ERegion) : Prop :=
  Ext.le s.west r.west = true ∧ Ext.le r.east s.east = true ∧
  Ext.le s.south r.south = true ∧ Ext.le r.north s.north = true

/-- `r` covers the point `p` (non-strictly). -/
def ERegion.containsPt (r : ERegion) (p : EPoint) : Prop :=
  Ext.le r.west p.x = true ∧ Ext.le p.x r.east = true ∧
  Ext.le r.south p.y = true ∧ Ext.le p.y r.north = true

theorem within_refl (a : ERegion) : ERegion.within a a :=
  ⟨Ext.le_refl _, Ext.le_refl _, Ext.le_refl _, Ext.le_refl _⟩

theorem within_transfer {a b c : ERegion} (h1 : ERegion.within a b)
    (h2 : ERegion.within b c) : ERegion.within a c :=
  ⟨Ext.le_transfer h2.1 h1.1, Ext.le_transfer h1.2.1 h2.2.1,
    Ext.le_transfer h2.2.2.1 h1.2.2.1, Ext.le_transfer h1.2.2.2 h2.2.2.2⟩

theorem containsPt_mono {r s : ERegion} {p : EPoint} (h : ERegion.within r s)
    (hc : ERegion.containsPt r p) : ERegion.containsPt s p :=
  ⟨Ext.le_transfer h.1 hc.1, Ext.le_transfer hc.2.1 h.2.1,
    Ext.le_transfer h.2.2.1 hc.2.2.1, Ext.le_transfer hc.2.2.2 h.2.2.2⟩

theorem rrp_within (a : ERegion) (b : EPoint) :
    ERegion.within a (reduceRegionPoint a b) := by
  refine ⟨?_, ?_, ?_, ?_⟩ <;> simp only [reduceRegionPoint] <;> split
  · exact Ext.le_of_lt (by assumption)
  · exact Ext.le_refl _
  · exact Ext.le_of_lt (by assumption)
  · exact Ext.le_refl _
  · exact Ext.le_of_lt (by assumption)
  · exact Ext.le_refl _
  · exact Ext.le_of_lt (by assumption)
  · exact Ext.le_refl _

theorem rrp_contains (a : ERegion) (b : EPoint) :
    ERegion.containsPt (reduceRegionPoint a b) b := by
  refine ⟨?_, ?_, ?_, ?_⟩ <;> simp only [reduceRegionPoint] <;> split
  · exact Ext.le_refl _
  · exact Ext.le_of_not_lt (by simp_all)
  · exact Ext.le_refl _
  · exact Ext.le_of_not_lt (by simp_all)
  · exact Ext.le_refl _
  · exact Ext.le_of_not_lt (by simp_all)
  · exact Ext.le_refl _
  · exact Ext.le_of_not_lt (by simp_all)

theorem rr_within_left (a b : ERegion) :
    ERegion.within a (reduceRegions a b) := by
  refine ⟨?_, ?_, ?_, ?_⟩ <;> simp only [reduceRegions] <;> split
  · exact Ext.le_of_lt (by assumption)
  · exact Ext.le_refl _
  · exact Ext.le_of_lt (by assumption)
  · exact Ext.le_refl _
  · exact Ext.le_of_lt (by assumption)
  · exact Ext.le_refl _
  · exact Ext.le_of_lt (by assumption)
  · exact Ext.le_refl _

theorem rr_within_right (a b : ERegion) :
    ERegion.within b (reduceRegions a b) := by
  refine ⟨?_, ?_, ?_, ?_⟩ <;> simp only [reduceRegions] <;> split
  · exact Ext.le_refl _
  · exact Ext.le_of_not_lt (by simp_all)
  · exact Ext.le_refl _
  · exact Ext.le_of_not_lt (by simp_all)
  · exact Ext.le_refl _
  · exact Ext.le_of_not_lt (by simp_all)
  · exact Ext.le_refl _
  · exact Ext.le_of_not_lt (by simp_all)

theorem foldl_rrp_within (a : ERegion) (l : List EPoint) :
    ERegion.within a (l.foldl reduceRegionPoint a) := by
  induction l generalizing a with
  | nil => exact within_refl a
  | cons p t ih =>
    exact within_transfer (rrp_within a p) (ih (reduceRegionPoint a p))

theorem foldl_rrp_contains (a : ERegion) (l : List EPoint) (p : EPoint)
    (hp : p ∈ l) : ERegion.containsPt (l.foldl reduceRegionPoint a) p := by
  induction l generalizing a with
  | nil => cases hp
  | cons q t ih =>
    rcases List.mem_cons.mp hp with h | h
    · subst h
      exact containsPt_mono (foldl_rrp_within (reduceRegionPoint a p) t)
        (rrp_contains a p)
    · exact ih (reduceRegionPoint a q) h

theorem foldl_rr_within (a : ERegion) (l : List ERegion) :
    ERegion.within a (l.foldl reduceRegions a) := by
  induction l generalizing a with
  | nil => exact within_refl a
  | cons b t ih =>
    exact within_transfer (rr_within_left a b) (ih (reduceRegions a b))

theorem foldl_rr_mem (a : ERegion) (l : List ERegion) (b : ERegion)
    (hb : b ∈ l) : ERegion.within b (l.foldl reduceRegions a) := by
  induction l generalizing a with
  | nil => cases hb
  | cons c t ih =>
    rcases List.mem_cons.mp hb with h | h
    · subst h
      exact within_transfer (rr_within_right a b)
        (foldl_rr_within (reduceRegions a b) t)
    · exact ih (reduceRegions a c) h

set_option maxHeartbeats 800000 in
/-- C9, corrected.  As stated the claim is false: the folded region's edges
pass through the extreme agent positions and building-bbox edges, so an
extreme point lies ON the boundary, not strictly inside (see
`claim_C9_counterexample`).  Amended: whenever the two `assert!`s pass and a
region `r` is produced, `r` is the fold of all inputs, covers every agent
position and every building bounding box NON-strictly, and satisfies
`west < east` and `south < north`; the abort happens exactly when the folded
region is degenerate (`east ≤ west` or `north ≤ south`). -/
theorem claim_C9 (agents : List EPoint) (bldgs : List ERegion) :
    (∀ r, validatedRegion agents bldgs = some r →
      r = computeRegion agents bldgs ∧
      (∀ p ∈ agents,
        Ext.le r.west p.x = true ∧ Ext.le p.x r.east = true ∧
        Ext.le r.south p.y = true ∧ Ext.le p.y r.north = true) ∧
      (∀ b ∈ bldgs,
        Ext.le r.west b.west = true ∧ Ext.le b.east r.east = true ∧
        Ext.le r.south b.south = true ∧ Ext.le b.north r.north = true) ∧
      Ext.lt r.west r.east = true ∧ Ext.lt r.south r.north = true) ∧
    (validatedRegion agents bldgs = none ↔
      Ext.le (computeRegion agents bldgs).east
        (computeRegion agents bldgs).west = true ∨
      Ext.le (computeRegion agents bldgs).north
        (computeRegion agents bldgs).south = true) := by
  constructor
  · intro r hr
    unfold validatedRegion at hr
    split at hr
    case isTrue h =>
      have hreq : r = computeRegion agents bldgs := (Option.some.inj hr).symm
      subst hreq
      refine ⟨rfl, ?_, ?_, h.1, h.2⟩
      · intro p hp
        exact containsPt_mono
          (within_transfer
            (within_refl (agents.foldl reduceRegionPoint minRegion))
            (rr_within_right (bldgs.foldl reduceRegions minRegion)
              (agents.foldl reduceRegionPoint minRegion)))
          (foldl_rrp_contains minRegion agents p hp)
      · intro b hb
        exact within_transfer (foldl_rr_mem minRegion bldgs b hb)
          (rr_within_left (bldgs.foldl reduceRegions minRegion)
            (agents.foldl reduceRegionPoint minRegion))
    case isFalse h => cases hr
  · constructor
    · intro hn
      unfold validatedRegion at hn
      split at hn
      case isTrue h => cases hn
      case isFalse h =>
        rcases not_and_or.mp h with h1 | h1
        · exact Or.inl ((Ext.le_iff_not_lt _ _).mpr
            (Bool.not_eq_true _ ▸ h1))
        · exact Or.inr ((Ext.le_iff_not_lt _ _).mpr
            (Bool.not_eq_true _ ▸ h1))
    · intro hor
      unfold validatedRegion
      split
      case isTrue h =>
        rcases hor with h1 | h1
        · rw [(Ext.le_iff_not_lt _ _).mp h1] at h
          exact absurd h.1 (by simp)
        · rw [(Ext.le_iff_not_lt _ _).mp h1] at h
          exact absurd h.2 (by simp)
      case isFalse h => rfl

/-- Counterexample to C9 as stated: two agents at `(0, 0)` and `(2, 3)`, no
buildings.  The folded region is `east = 2, west = 0, north = 3, south = 0`,
both asserts pass, yet the agent at `(0, 0)` lies on the boundary and is NOT
strictly contained. -/
theorem claim_C9_counterexample :
    validatedRegion [⟨.fin 0, .fin 0⟩, ⟨.fin 2, .fin 3⟩] [] =
        some ⟨.fin 2, .fin 0, .fin 3, .fin 0⟩ ∧
    (⟨.fin 0, .fin 0⟩ : EPoint) ∈
        [(⟨.fin 0, .fin 0⟩ : EPoint), ⟨.fin 2, .fin 3⟩] ∧
    strictContainsSpec ⟨.fin 2, .fin 0, .fin 3, .fin 0⟩ ⟨.fin 0, .fin 0⟩
        = false := by
  refine ⟨by decide, by decide, by decide⟩

/-- Witness for C9: two agents and one building bounding box; the amended
theorem applied at this input. -/
theorem claim_C9_witness :
    validatedRegion [⟨.fin 0, .fin 0⟩, ⟨.fin 2, .fin 3⟩]
        [⟨.fin 1, .fin 0, .fin 1, .fin 0⟩] =
      some ⟨.fin 2, .fin 0, .fin 3, .fin 0⟩ ∧
    ((⟨.fin 2, .fin 0, .fin 3, .fin 0⟩ : ERegion) =
        computeRegion [⟨.fin 0, .fin 0⟩, ⟨.fin 2, .fin 3⟩]
          [⟨.fin 1, .fin 0, .fin 1, .fin 0⟩] ∧
      (∀ p ∈ [(⟨.fin 0, .fin 0⟩ : EPoint), ⟨.fin 2, .fin 3⟩],
        Ext.le (Ext.fin 0) p.x = true ∧ Ext.le p.x (Ext.fin 2) = true ∧
        Ext.le (Ext.fin 0) p.y = true ∧ Ext.le p.y (Ext.fin 3) = true) ∧
      (∀ b ∈ [(⟨.fin 1, .fin 0, .fin 1, .fin 0⟩ : ERegion)],
        Ext.le (Ext.fin 0) b.west = true ∧ Ext.le b.east (Ext.fin 2) = true ∧
        Ext.le (Ext.fin 0) b.south = true ∧
        Ext.le b.north (Ext.fin 3) = true) ∧
      Ext.lt (Ext.fin 0) (Ext.fin 2) = true ∧
      Ext.lt (Ext.fin 0) (Ext.fin 3) = true) := by
  have h := (claim_C9 [⟨.fin 0, .fin 0⟩, ⟨.fin 2, .fin 3⟩]
      [⟨.fin 1, .fin 0, .fin 1, .fin 0⟩]).1
    ⟨.fin 2, .fin 0, .fin 3, .fin 0⟩ (by decide)
  exact ⟨by decide, h⟩

end UrbanTraffic
